import Mathlib

/-!
Rucbase, the lock manager.

A shallow embedding of `src/transaction/concurrency/lock_manager.cpp`.

* The lock table `std::unordered_map<LockDataId, LockRequestQueue>` is a total
  function from keys to queues: `lock_table_[k]` default-constructs an empty queue
  with group mode `NON_LOCK` for a key that was never touched, which is what the
  function returns for such a key.
* A request queue `std::list<LockRequest>` is a `List LockRequest`; an iterator into
  it is the index of the element it points to.
* Transactions are owned by the caller and passed by pointer; the state of the
  embedding therefore carries, next to the lock table, the transaction objects,
  indexed by their transaction id.
* `throw TransactionAbortException(id, reason)` is the outcome `Outcome.raise reason`;
  assignments made before the `throw` stay in the returned state.
-/

namespace Rucbase

/-! ## Data model -/

/-- Modelled from the spec: the declaration of `TransactionState` is in `txn_defs.h`,
which is not among the source files. The spec (section 3) lists `GROWING`,
`SHRINKING`, `COMMITTED`, `ABORTED`; `DEFAULT` stands for the state of a transaction
that has not locked anything yet ("Otherwise set state to GROWING", section 4.10). -/
inductive TransactionState where
  | DEFAULT
  | GROWING
  | SHRINKING
  | COMMITTED
  | ABORTED
  deriving DecidableEq

/-- Modelled from the spec: the reasons carried by `TransactionAbortException`
(`LockOnShrinking` and `DeadlockPrevention` of spec section 7), under the names the
source uses. -/
inductive AbortReason where
  | LOCK_ON_SHIRINKING
  | DEADLOCK_PREVENTION
  deriving DecidableEq

/-- Modelled from the spec: the five request modes `S, X, IS, IX, SIX` (section 3),
under the names the source uses. -/
inductive LockMode where
  | SHARED
  | EXLUCSIVE
  | INTENTION_SHARED
  | INTENTION_EXCLUSIVE
  | S_IX
  deriving DecidableEq

/-- Modelled from the spec: the group modes of a queue. The declaration is in
`lock_manager.h`, which is not among the source files. -/
inductive GroupLockMode where
  | NON_LOCK
  | IS
  | IX
  | S
  | X
  | SIX
  deriving DecidableEq

/-- Modelled from the spec: the numeric value of a group mode, the declaration order
`NON_LOCK, IS, IX, S, X, SIX`. Section 9 of the spec and the comments at lines 188 and
368 of `lock_manager.cpp` say that `X` comes before `SIX` (the test `< X` "excludes X
and SIX"); the code compares group modes with `<` on these values. -/
def GroupLockMode.toNat : GroupLockMode → Nat
  | .NON_LOCK => 0
  | .IS => 1
  | .IX => 2
  | .S => 3
  | .X => 4
  | .SIX => 5

/-- Modelled from the spec: `LockDataType`, the granularity of a lock key. -/
inductive LockDataType where
  | TABLE
  | RECORD
  deriving DecidableEq

/-- Record identifier `(page_no, slot_no)`. -/
structure Rid where
  page_no : Int
  slot_no : Int
  deriving DecidableEq

/-- Modelled from the spec: `LockDataId`, `(table_fd, rid?, granularity)`; equality
compares all fields, so record keys and table keys are disjoint. -/
structure LockDataId where
  fd_ : Int
  rid_ : Rid
  type_ : LockDataType
  deriving DecidableEq

/-- Modelled from the spec: the constructor `LockDataId(fd, TABLE)`; a table key has no
rid, the field holds the sentinel `(-1, -1)`. -/
def LockDataId.table (fd : Int) : LockDataId := ⟨fd, ⟨-1, -1⟩, .TABLE⟩

/-- Modelled from the spec: the constructor `LockDataId(fd, rid, RECORD)`. -/
def LockDataId.record (fd : Int) (rid : Rid) : LockDataId := ⟨fd, rid, .RECORD⟩

/-- Modelled from the spec: `LockRequest`, `{txn_id, mode, granted}`. -/
structure LockRequest where
  txn_id_ : Nat
  lock_mode_ : LockMode
  granted_ : Bool
  deriving DecidableEq

/-- Modelled from the spec: `LockRequestQueue`, `{request_queue, group_mode}`. -/
structure LockRequestQueue where
  request_queue_ : List LockRequest
  group_lock_mode_ : GroupLockMode
  deriving DecidableEq

/-- The queue `lock_table_[k]` of a key never touched. -/
def LockRequestQueue.empty : LockRequestQueue := ⟨[], .NON_LOCK⟩

/-- Modelled from the spec: the part of `Transaction` the lock manager uses, its state
and its lock set (`std::unordered_set<LockDataId>`, a list without repetition). -/
structure Transaction where
  state_ : TransactionState
  lock_set_ : List LockDataId
  deriving DecidableEq

/-- What a call gives back: a returned `bool` or a thrown `TransactionAbortException`. -/
inductive Outcome where
  | ret (b : Bool)
  | raise (r : AbortReason)
  deriving DecidableEq

/-- The lock table of the `LockManager` and the transactions of its callers. -/
structure State where
  lock_table_ : LockDataId → LockRequestQueue
  txns : Nat → Transaction

namespace State

/-- Getter `txn->get_state()`. -/
def get_state (s : State) (txn : Nat) : TransactionState := (s.txns txn).state_

/-- Getter `txn->get_lock_set()`. -/
def get_lock_set (s : State) (txn : Nat) : List LockDataId := (s.txns txn).lock_set_

/-- Setter `txn->set_state(st)`. -/
def set_state (s : State) (txn : Nat) (st : TransactionState) : State :=
  let t : Transaction := { s.txns txn with state_ := st }
  { s with txns := Function.update s.txns txn t }

/-- Insertion `txn->get_lock_set()->insert(k)`. -/
def lock_set_insert (s : State) (txn : Nat) (k : LockDataId) : State :=
  let t : Transaction := { s.txns txn with lock_set_ := (s.txns txn).lock_set_.insert k }
  { s with txns := Function.update s.txns txn t }

/-- Assignment to `lock_table_[k].request_queue_`. -/
def set_queue (s : State) (k : LockDataId) (q : List LockRequest) : State :=
  let e : LockRequestQueue := { s.lock_table_ k with request_queue_ := q }
  { s with lock_table_ := Function.update s.lock_table_ k e }

/-- Assignment `lock_table_[k].group_lock_mode_ = g`. -/
def set_group (s : State) (k : LockDataId) (g : GroupLockMode) : State :=
  let e : LockRequestQueue := { s.lock_table_ k with group_lock_mode_ := g }
  { s with lock_table_ := Function.update s.lock_table_ k e }

/-- The list `lock_table_[k].request_queue_`. -/
def queue (s : State) (k : LockDataId) : List LockRequest := (s.lock_table_ k).request_queue_

/-- The value `lock_table_[k].group_lock_mode_`. -/
def group (s : State) (k : LockDataId) : GroupLockMode := (s.lock_table_ k).group_lock_mode_

/-- Call `lock_table_[k].request_queue_.push_back(r)`. -/
def push_back (s : State) (k : LockDataId) (r : LockRequest) : State :=
  s.set_queue k (s.queue k ++ [r])

end State

/-- Assignment `it->lock_mode_ = m` through the iterator at index `it`. -/
def setModeAt : List LockRequest → Nat → LockMode → List LockRequest
  | [], _, _ => []
  | r :: rs, 0, m => { r with lock_mode_ := m } :: rs
  | r :: rs, j + 1, m => r :: setModeAt rs j m

/-- A `for (auto it = q.begin(); it != q.end(); ++it)` loop over a request queue: `body`
gets the index of `it`, the request and the loop's local variables, and either goes on
with new values of the variables or leaves the function (`throw` or `return`). -/
def forQueue {σ : Type} (body : Nat → LockRequest → σ → Except Outcome σ) :
    List LockRequest → Nat → σ → Except Outcome σ
  | [], _, a => .ok a
  | it :: rest, i, a =>
    match body i it a with
    | .error o => .error o
    | .ok a' => forQueue body rest (i + 1) a'

/-! ## The six lock operations and `unlock` -/

/-- Loop of `lock_shared_on_record` (lines 40-46). -/
def shared_record_body (txn : Nat) : Nat → LockRequest → Unit → Except Outcome Unit :=
  fun _ lock_it _ =>
    if lock_it.txn_id_ ≠ txn ∧ lock_it.lock_mode_ = .EXLUCSIVE then
      .error (.raise .DEADLOCK_PREVENTION)
    else .ok ()

/-- Source `LockManager::lock_shared_on_record` (lines 20-59). -/
def lock_shared_on_record (s : State) (txn : Nat) (rid : Rid) (tab_fd : Int) : Outcome × State :=
  let txn_stat := s.get_state txn
  if txn_stat = .SHRINKING then (.raise .LOCK_ON_SHIRINKING, s)
  else if txn_stat = .ABORTED ∨ txn_stat = .COMMITTED then (.ret false, s)
  else
    let s := s.set_state txn .GROWING
    let rec_lockID := LockDataId.record tab_fd rid
    if rec_lockID ∈ s.get_lock_set txn then (.ret true, s)
    else
      match forQueue (shared_record_body txn) (s.queue rec_lockID) 0 () with
      | .error o => (o, s)
      | .ok _ =>
        let s := s.lock_set_insert txn rec_lockID
        let s := s.push_back rec_lockID ⟨txn, .SHARED, true⟩
        let s := if (s.group rec_lockID).toNat < GroupLockMode.S.toNat then
                   s.set_group rec_lockID .S else s
        (.ret true, s)

/-- Local variables of the loop of `lock_exclusive_on_record`. -/
structure ExclRecordVars where
  lock_it : Nat
  lock_found : Bool

/-- Loop of `lock_exclusive_on_record` (lines 86-99). -/
def excl_record_body (txn : Nat) : Nat → LockRequest → ExclRecordVars → Except Outcome ExclRecordVars :=
  fun i it _ =>
    if it.txn_id_ ≠ txn then .error (.raise .DEADLOCK_PREVENTION)
    else if it.lock_mode_ = .EXLUCSIVE then .error (.ret true)
    else .ok ⟨i, true⟩

/-- Source `LockManager::lock_exclusive_on_record` (lines 68-121). -/
def lock_exclusive_on_record (s : State) (txn : Nat) (rid : Rid) (tab_fd : Int) : Outcome × State :=
  let txn_stat := s.get_state txn
  if txn_stat = .SHRINKING then (.raise .LOCK_ON_SHIRINKING, s)
  else if txn_stat = .ABORTED ∨ txn_stat = .COMMITTED then (.ret false, s)
  else
    let s := s.set_state txn .GROWING
    let rec_lockID := LockDataId.record tab_fd rid
    match forQueue (excl_record_body txn) (s.queue rec_lockID) 0 ⟨0, false⟩ with
    | .error o => (o, s)
    | .ok v =>
      if v.lock_found then
        let s := s.set_queue rec_lockID (setModeAt (s.queue rec_lockID) v.lock_it .EXLUCSIVE)
        let s := if (s.group rec_lockID).toNat < GroupLockMode.X.toNat then
                   s.set_group rec_lockID .X else s
        (.ret true, s)
      else
        let s := s.lock_set_insert txn rec_lockID
        let s := s.push_back rec_lockID ⟨txn, .EXLUCSIVE, true⟩
        let s := if (s.group rec_lockID).toNat < GroupLockMode.X.toNat then
                   s.set_group rec_lockID .X else s
        (.ret true, s)

/-- Local variables of the loop of `lock_shared_on_table`. -/
structure SharedTableVars where
  stronger_found : Bool
  is_it : Nat
  is_found : Bool
  ix_it : Nat
  ix_found : Bool

/-- Loop of `lock_shared_on_table` (lines 149-169). -/
def shared_table_body (txn : Nat) : Nat → LockRequest → SharedTableVars → Except Outcome SharedTableVars :=
  fun i it v =>
    if it.txn_id_ ≠ txn then
      if it.lock_mode_ = .EXLUCSIVE ∨ it.lock_mode_ = .INTENTION_EXCLUSIVE ∨ it.lock_mode_ = .S_IX then
        .error (.raise .DEADLOCK_PREVENTION)
      else .ok v
    else
      if it.lock_mode_ = .INTENTION_SHARED then .ok { v with is_it := i, is_found := true }
      else if it.lock_mode_ = .INTENTION_EXCLUSIVE then .ok { v with ix_it := i, ix_found := true }
      else .ok { v with stronger_found := true }

/-- Source `LockManager::lock_shared_on_table` (lines 129-203). -/
def lock_shared_on_table (s : State) (txn : Nat) (tab_fd : Int) : Outcome × State :=
  let txn_stat := s.get_state txn
  if txn_stat = .SHRINKING then (.raise .LOCK_ON_SHIRINKING, s)
  else if txn_stat = .ABORTED ∨ txn_stat = .COMMITTED then (.ret false, s)
  else
    let s := s.set_state txn .GROWING
    let rec_lockID := LockDataId.table tab_fd
    match forQueue (shared_table_body txn) (s.queue rec_lockID) 0 ⟨false, 0, false, 0, false⟩ with
    | .error o => (o, s)
    | .ok v =>
      if v.stronger_found then (.ret true, s)
      else if v.is_found then
        let s := s.set_queue rec_lockID (setModeAt (s.queue rec_lockID) v.is_it .SHARED)
        let s := if (s.group rec_lockID).toNat < GroupLockMode.S.toNat then
                   s.set_group rec_lockID .S else s
        (.ret true, s)
      else if v.ix_found then
        let s := s.set_queue rec_lockID (setModeAt (s.queue rec_lockID) v.ix_it .S_IX)
        let s := if s.group rec_lockID ≠ .X then s.set_group rec_lockID .SIX else s
        (.ret true, s)
      else
        let s := s.lock_set_insert txn rec_lockID
        let s := s.push_back rec_lockID ⟨txn, .SHARED, true⟩
        let s := if (s.group rec_lockID).toNat < GroupLockMode.S.toNat then
                   s.set_group rec_lockID .S else s
        (.ret true, s)

/-- Local variables of the loop of `lock_exclusive_on_table`. -/
structure ExclTableVars where
  weaker_found : Bool
  weaker_it : Nat
  x_found : Bool

/-- Loop of `lock_exclusive_on_table` (lines 228-241). -/
def excl_table_body (txn : Nat) : Nat → LockRequest → ExclTableVars → Except Outcome ExclTableVars :=
  fun i it v =>
    if it.txn_id_ ≠ txn then .error (.raise .DEADLOCK_PREVENTION)
    else if it.lock_mode_ = .EXLUCSIVE then .ok { v with x_found := true }
    else .ok { v with weaker_found := true, weaker_it := i }

/-- Source `LockManager::lock_exclusive_on_table` (lines 211-261). -/
def lock_exclusive_on_table (s : State) (txn : Nat) (tab_fd : Int) : Outcome × State :=
  let txn_stat := s.get_state txn
  if txn_stat = .SHRINKING then (.raise .LOCK_ON_SHIRINKING, s)
  else if txn_stat = .ABORTED ∨ txn_stat = .COMMITTED then (.ret false, s)
  else
    let s := s.set_state txn .GROWING
    let rec_lockID := LockDataId.table tab_fd
    match forQueue (excl_table_body txn) (s.queue rec_lockID) 0 ⟨false, 0, false⟩ with
    | .error o => (o, s)
    | .ok v =>
      if v.x_found then (.ret true, s)
      else if v.weaker_found then
        let s := s.set_queue rec_lockID (setModeAt (s.queue rec_lockID) v.weaker_it .EXLUCSIVE)
        let s := s.set_group rec_lockID .X
        (.ret true, s)
      else
        let s := s.lock_set_insert txn rec_lockID
        let s := s.push_back rec_lockID ⟨txn, .EXLUCSIVE, true⟩
        let s := if s.group rec_lockID ≠ .X then s.set_group rec_lockID .X else s
        (.ret true, s)

/-- Loop of `lock_IS_on_table` (lines 284-292): `have_lock` is set for every request
that does not make the call throw, whoever owns it. -/
def is_table_body (txn : Nat) : Nat → LockRequest → Bool → Except Outcome Bool :=
  fun _ it _ =>
    if it.txn_id_ ≠ txn ∧ it.lock_mode_ = .EXLUCSIVE then .error (.raise .DEADLOCK_PREVENTION)
    else .ok true

/-- Source `LockManager::lock_IS_on_table` (lines 269-307). -/
def lock_IS_on_table (s : State) (txn : Nat) (tab_fd : Int) : Outcome × State :=
  let txn_stat := s.get_state txn
  if txn_stat = .SHRINKING then (.raise .LOCK_ON_SHIRINKING, s)
  else if txn_stat = .ABORTED ∨ txn_stat = .COMMITTED then (.ret false, s)
  else
    let s := s.set_state txn .GROWING
    let rec_lockID := LockDataId.table tab_fd
    match forQueue (is_table_body txn) (s.queue rec_lockID) 0 false with
    | .error o => (o, s)
    | .ok have_lock =>
      if have_lock then (.ret true, s)
      else
        let s := s.lock_set_insert txn rec_lockID
        let s := s.push_back rec_lockID ⟨txn, .INTENTION_SHARED, true⟩
        let s := if (s.group rec_lockID).toNat < GroupLockMode.IS.toNat then
                   s.set_group rec_lockID .IS else s
        (.ret true, s)

/-- Local variables of the loop of `lock_IX_on_table`. -/
structure IXTableVars where
  s_found : Bool
  s_it : Nat
  is_found : Bool
  is_it : Nat
  have_stronger : Bool

/-- Loop of `lock_IX_on_table` (lines 334-352): the `else` branch is taken for the
caller's requests and for the `IS` and `IX` requests of other transactions. -/
def ix_table_body (txn : Nat) : Nat → LockRequest → IXTableVars → Except Outcome IXTableVars :=
  fun i it v =>
    if it.txn_id_ ≠ txn ∧
        (it.lock_mode_ = .SHARED ∨ it.lock_mode_ = .EXLUCSIVE ∨ it.lock_mode_ = .S_IX) then
      .error (.raise .DEADLOCK_PREVENTION)
    else
      if it.lock_mode_ = .SHARED then .ok { v with s_found := true, s_it := i }
      else if it.lock_mode_ = .INTENTION_SHARED then .ok { v with is_found := true, is_it := i }
      else .ok { v with have_stronger := true }

/-- Source `LockManager::lock_IX_on_table` (lines 315-383). -/
def lock_IX_on_table (s : State) (txn : Nat) (tab_fd : Int) : Outcome × State :=
  let txn_stat := s.get_state txn
  if txn_stat = .SHRINKING then (.raise .LOCK_ON_SHIRINKING, s)
  else if txn_stat = .ABORTED ∨ txn_stat = .COMMITTED then (.ret false, s)
  else
    let s := s.set_state txn .GROWING
    let rec_lockID := LockDataId.table tab_fd
    match forQueue (ix_table_body txn) (s.queue rec_lockID) 0 ⟨false, 0, false, 0, false⟩ with
    | .error o => (o, s)
    | .ok v =>
      if v.have_stronger then (.ret true, s)
      else if v.s_found then
        let s := s.set_queue rec_lockID (setModeAt (s.queue rec_lockID) v.s_it .S_IX)
        let s := if s.group rec_lockID ≠ .X then s.set_group rec_lockID .SIX else s
        (.ret true, s)
      else if v.is_found then
        let s := s.set_queue rec_lockID (setModeAt (s.queue rec_lockID) v.is_it .INTENTION_EXCLUSIVE)
        let s := if (s.group rec_lockID).toNat < GroupLockMode.X.toNat then
                   s.set_group rec_lockID .IX else s
        (.ret true, s)
      else
        let s := s.lock_set_insert txn rec_lockID
        let s := s.push_back rec_lockID ⟨txn, .INTENTION_EXCLUSIVE, true⟩
        let s := if (s.group rec_lockID).toNat < GroupLockMode.X.toNat then
                   s.set_group rec_lockID .IX else s
        (.ret true, s)

/-- One round of the second loop of `unlock` (lines 418-453): the new value of
`new_mode` after looking at request `it`. -/
def unlock_mode_step (new_mode : GroupLockMode) (it : LockRequest) : GroupLockMode :=
  if it.granted_ then
    match it.lock_mode_ with
    | .INTENTION_SHARED =>
      if new_mode = .NON_LOCK then .IS else new_mode
    | .INTENTION_EXCLUSIVE =>
      if new_mode = .NON_LOCK ∨ new_mode = .IS then .IX
      else if new_mode = .S then .SIX else new_mode
    | .SHARED =>
      if new_mode = .NON_LOCK ∨ new_mode = .IS then .S
      else if new_mode = .IX then .SIX else new_mode
    | .EXLUCSIVE => .X
    | .S_IX =>
      if new_mode ≠ .X then .SIX else new_mode
  else new_mode

/-- Source `LockManager::unlock` (lines 391-457). The first loop erases every request
of the transaction from the queue; the second recomputes the group mode. -/
def unlock (s : State) (txn : Nat) (lock_data_id : LockDataId) : Outcome × State :=
  let txn_stat := s.get_state txn
  if txn_stat = .ABORTED ∨ txn_stat = .COMMITTED then (.ret false, s)
  else
    let s := s.set_state txn .SHRINKING
    if lock_data_id ∉ s.get_lock_set txn then (.ret false, s)
    else
      let s := s.set_queue lock_data_id
        ((s.queue lock_data_id).filter (fun it => decide (it.txn_id_ ≠ txn)))
      let new_mode := (s.queue lock_data_id).foldl unlock_mode_step .NON_LOCK
      let s := s.set_group lock_data_id new_mode
      (.ret true, s)

/-! ## Calls, traces and reachable states -/

/-- A call of one of the six lock operations. -/
inductive LockCall where
  | shared_on_record (txn : Nat) (rid : Rid) (tab_fd : Int)
  | exclusive_on_record (txn : Nat) (rid : Rid) (tab_fd : Int)
  | shared_on_table (txn : Nat) (tab_fd : Int)
  | exclusive_on_table (txn : Nat) (tab_fd : Int)
  | IS_on_table (txn : Nat) (tab_fd : Int)
  | IX_on_table (txn : Nat) (tab_fd : Int)

namespace LockCall

/-- The transaction that issues the call. -/
def txn : LockCall → Nat
  | shared_on_record t _ _ => t
  | exclusive_on_record t _ _ => t
  | shared_on_table t _ => t
  | exclusive_on_table t _ => t
  | IS_on_table t _ => t
  | IX_on_table t _ => t

/-- The key `rec_lockID` the call builds. -/
def key : LockCall → LockDataId
  | shared_on_record _ rid fd => LockDataId.record fd rid
  | exclusive_on_record _ rid fd => LockDataId.record fd rid
  | shared_on_table _ fd => LockDataId.table fd
  | exclusive_on_table _ fd => LockDataId.table fd
  | IS_on_table _ fd => LockDataId.table fd
  | IX_on_table _ fd => LockDataId.table fd

/-- The mode the operation asks for. -/
def mode : LockCall → LockMode
  | shared_on_record _ _ _ => .SHARED
  | exclusive_on_record _ _ _ => .EXLUCSIVE
  | shared_on_table _ _ => .SHARED
  | exclusive_on_table _ _ => .EXLUCSIVE
  | IS_on_table _ _ => .INTENTION_SHARED
  | IX_on_table _ _ => .INTENTION_EXCLUSIVE

/-- The operations that ask for `S` or `X` (on a record or on a table). -/
def isSX : LockCall → Bool
  | IS_on_table _ _ => false
  | IX_on_table _ _ => false
  | _ => true

/-- Running the call on a state. -/
def run (s : State) : LockCall → Outcome × State
  | shared_on_record t rid fd => lock_shared_on_record s t rid fd
  | exclusive_on_record t rid fd => lock_exclusive_on_record s t rid fd
  | shared_on_table t fd => lock_shared_on_table s t fd
  | exclusive_on_table t fd => lock_exclusive_on_table s t fd
  | IS_on_table t fd => lock_IS_on_table s t fd
  | IX_on_table t fd => lock_IX_on_table s t fd

end LockCall

/-- A call of the lock manager: one of the six lock operations, or `unlock`. -/
inductive Call where
  | lock (c : LockCall)
  | unlock (txn : Nat) (lock_data_id : LockDataId)

namespace Call

/-- Running the call on a state. -/
def run (s : State) : Call → Outcome × State
  | lock c => c.run s
  | unlock t k => Rucbase.unlock s t k

/-- The transaction that issues the call. -/
def txn : Call → Nat
  | lock c => c.txn
  | unlock t _ => t

end Call

/-- The state after a sequence of calls, whatever their outcomes. -/
def runAll (s : State) (cs : List Call) : State :=
  cs.foldl (fun st c => (c.run st).2) s

/-- The empty lock table, with transactions that hold nothing; `st` gives the state in
which each transaction starts. -/
def State.init (st : Nat → TransactionState) : State :=
  ⟨fun _ => LockRequestQueue.empty, fun t => ⟨st t, []⟩⟩

/-- The states the lock manager can be in: those reached from the empty table by a
sequence of calls of the six lock operations and `unlock`. -/
inductive Reachable : State → Prop where
  | init (st : Nat → TransactionState) : Reachable (State.init st)
  | step {s : State} (c : Call) : Reachable s → Reachable (c.run s).2

/-! ## The compatibility table and the lattice of modes (spec sections 3 and 4.10) -/

/-- Modelled from the spec: the compatibility table of section 4.10, row by row. -/
def compatible : LockMode → LockMode → Bool
  | .INTENTION_SHARED, .EXLUCSIVE => false
  | .INTENTION_SHARED, _ => true
  | .INTENTION_EXCLUSIVE, .INTENTION_SHARED => true
  | .INTENTION_EXCLUSIVE, .INTENTION_EXCLUSIVE => true
  | .INTENTION_EXCLUSIVE, _ => false
  | .SHARED, .INTENTION_SHARED => true
  | .SHARED, .SHARED => true
  | .SHARED, _ => false
  | .S_IX, .INTENTION_SHARED => true
  | .S_IX, _ => false
  | .EXLUCSIVE, _ => false

/-- The group mode that stands for a request mode. -/
def LockMode.toGroup : LockMode → GroupLockMode
  | .SHARED => .S
  | .EXLUCSIVE => .X
  | .INTENTION_SHARED => .IS
  | .INTENTION_EXCLUSIVE => .IX
  | .S_IX => .SIX

/-- Modelled from the spec: the order of the lattice `NONE < IS < {IX, S} < SIX < X` of
section 3, in which `IX` and `S` are incomparable. -/
def GroupLockMode.le : GroupLockMode → GroupLockMode → Bool
  | .NON_LOCK, _ => true
  | .IS, .NON_LOCK => false
  | .IS, _ => true
  | .IX, .IX => true
  | .IX, .SIX => true
  | .IX, .X => true
  | .IX, _ => false
  | .S, .S => true
  | .S, .SIX => true
  | .S, .X => true
  | .S, _ => false
  | .SIX, .SIX => true
  | .SIX, .X => true
  | .SIX, _ => false
  | .X, .X => true
  | .X, _ => false

/-- Modelled from the spec: the join of the lattice of section 3; the join of `IX` and
`S` is `SIX`. -/
def GroupLockMode.join : GroupLockMode → GroupLockMode → GroupLockMode
  | .NON_LOCK, b => b
  | a, .NON_LOCK => a
  | .IS, b => b
  | a, .IS => a
  | .X, _ => .X
  | _, .X => .X
  | .SIX, _ => .SIX
  | _, .SIX => .SIX
  | .IX, .IX => .IX
  | .S, .S => .S
  | .IX, .S => .SIX
  | .S, .IX => .SIX

/-- The join of two request modes, as a request mode (`NONE` is not one of them). -/
def LockMode.join : LockMode → LockMode → LockMode
  | .EXLUCSIVE, _ => .EXLUCSIVE
  | _, .EXLUCSIVE => .EXLUCSIVE
  | .S_IX, _ => .S_IX
  | _, .S_IX => .S_IX
  | .INTENTION_SHARED, b => b
  | a, .INTENTION_SHARED => a
  | .SHARED, .SHARED => .SHARED
  | .INTENTION_EXCLUSIVE, .INTENTION_EXCLUSIVE => .INTENTION_EXCLUSIVE
  | .SHARED, .INTENTION_EXCLUSIVE => .S_IX
  | .INTENTION_EXCLUSIVE, .SHARED => .S_IX

/-- The join of the modes of the granted requests of a queue, `NON_LOCK` when there is
none. -/
def groupJoin (q : List LockRequest) : GroupLockMode :=
  q.foldl (fun g it => if it.granted_ then g.join it.lock_mode_.toGroup else g) .NON_LOCK

/-- Modelled from the spec: `g` is the least upper bound, in the lattice of section 3, of
the modes of the granted requests of `q`. -/
def IsGroupLub (g : GroupLockMode) (q : List LockRequest) : Prop :=
  (∀ it ∈ q, it.granted_ = true → it.lock_mode_.toGroup.le g = true) ∧
  (∀ u : GroupLockMode,
    (∀ it ∈ q, it.granted_ = true → it.lock_mode_.toGroup.le u = true) → g.le u = true)

/-- The pairs of modes that requests of two transactions have in one queue of a
reachable state: `IS` with `S`, `IS` with `SIX`, `S` with `S`. They are compatible
pairs; the compatible pairs with an `IX`, and `IS` with `IS`, never come about, since
`IS` and `IX` are only granted on an empty queue. -/
def coexist : LockMode → LockMode → Bool
  | .INTENTION_SHARED, .SHARED => true
  | .INTENTION_SHARED, .S_IX => true
  | .SHARED, .INTENTION_SHARED => true
  | .S_IX, .INTENTION_SHARED => true
  | .SHARED, .SHARED => true
  | _, _ => false

/-- The state in which the queue of `k` is `q` with group mode `g` and transaction `t`
is `tx`, everything else as in `s`. -/
def State.put (s : State) (k : LockDataId) (q : List LockRequest) (g : GroupLockMode)
    (t : Nat) (tx : Transaction) : State :=
  ⟨Function.update s.lock_table_ k ⟨q, g⟩, Function.update s.txns t tx⟩

/-- The invariant of the reachable states. -/
structure Inv (s : State) : Prop where
  coexist : ∀ k, ∀ a ∈ s.queue k, ∀ b ∈ s.queue k, a.txn_id_ ≠ b.txn_id_ →
    coexist a.lock_mode_ b.lock_mode_ = true
  recordModes : ∀ k, k.type_ = .RECORD → ∀ a ∈ s.queue k,
    a.lock_mode_ = .SHARED ∨ a.lock_mode_ = .EXLUCSIVE
  owned : ∀ k, ∀ a ∈ s.queue k, k ∈ s.get_lock_set a.txn_id_
  held : ∀ t k, k ∈ s.get_lock_set t → s.get_state t ≠ .SHRINKING →
    ∃ a ∈ s.queue k, a.txn_id_ = t
  nodup : ∀ k, ((s.queue k).map (fun r => r.txn_id_)).Nodup
  granted : ∀ k, ∀ a ∈ s.queue k, a.granted_ = true
  group : ∀ k, s.group k = groupJoin (s.queue k)

/-- The transaction may acquire: it is neither `SHRINKING` nor `ABORTED` nor `COMMITTED`. -/
def State.mayLock (s : State) (t : Nat) : Prop :=
  s.get_state t ≠ .SHRINKING ∧ s.get_state t ≠ .ABORTED ∧ s.get_state t ≠ .COMMITTED

/-- Whether a transaction may acquire can be computed from its state. -/
instance State.decidableMayLock (s : State) (t : Nat) : Decidable (s.mayLock t) :=
  inferInstanceAs (Decidable
    (s.get_state t ≠ .SHRINKING ∧ s.get_state t ≠ .ABORTED ∧ s.get_state t ≠ .COMMITTED))

/-- No request of another transaction in the queue of `k` conflicts with mode `r`. -/
def State.noConflict (s : State) (t : Nat) (k : LockDataId) (r : LockMode) : Prop :=
  ∀ b ∈ s.queue k, b.txn_id_ ≠ t → compatible b.lock_mode_ r = true

/-- What a lock call does in a state that satisfies the invariant, case by case. -/
inductive Effect (s : State) (c : LockCall) : Outcome × State → Prop where
  | shrinking : s.get_state c.txn = .SHRINKING →
      Effect s c (.raise .LOCK_ON_SHIRINKING, s)
  | terminal : (s.get_state c.txn = .ABORTED ∨ s.get_state c.txn = .COMMITTED) →
      Effect s c (.ret false, s)
  | conflict (b : LockRequest) : s.mayLock c.txn → b ∈ s.queue c.key → b.txn_id_ ≠ c.txn →
      compatible b.lock_mode_ c.mode = false →
      Effect s c (.raise .DEADLOCK_PREVENTION, s.set_state c.txn .GROWING)
  | noop : s.mayLock c.txn → s.noConflict c.txn c.key c.mode →
      (∀ a ∈ s.queue c.key, a.txn_id_ = c.txn → a.lock_mode_.join c.mode = a.lock_mode_) →
      (c.isSX = true → ∃ a ∈ s.queue c.key, a.txn_id_ = c.txn) →
      Effect s c (.ret true, s.set_state c.txn .GROWING)
  | push : s.mayLock c.txn →
      (∀ a ∈ s.queue c.key, a.txn_id_ ≠ c.txn) →
      (∀ a ∈ s.queue c.key, Rucbase.coexist a.lock_mode_ c.mode = true) →
      Effect s c (.ret true,
        s.put c.key (s.queue c.key ++ [⟨c.txn, c.mode, true⟩])
          ((s.group c.key).join c.mode.toGroup)
          c.txn ⟨.GROWING, (s.get_lock_set c.txn).insert c.key⟩)
  | upgrade (j : Nat) (r0 : LockRequest) (m : LockMode) : s.mayLock c.txn →
      s.noConflict c.txn c.key c.mode →
      (s.queue c.key)[j]? = some r0 →
      (∀ a ∈ s.queue c.key, a.txn_id_ ≠ r0.txn_id_ → Rucbase.coexist a.lock_mode_ m = true) →
      (c.key.type_ = .RECORD → m = .SHARED ∨ m = .EXLUCSIVE) →
      r0.lock_mode_.toGroup.le m.toGroup = true →
      (r0.txn_id_ = c.txn → m = r0.lock_mode_.join c.mode) →
      (r0.txn_id_ ≠ c.txn → c.mode = .INTENTION_EXCLUSIVE ∧
        ∀ a ∈ s.queue c.key, a.lock_mode_ = .INTENTION_SHARED) →
      Effect s c (.ret true,
        s.put c.key (setModeAt (s.queue c.key) j m) ((s.group c.key).join m.toGroup)
          c.txn ⟨.GROWING, s.get_lock_set c.txn⟩)

/-- The four ways a lock call can end, in any state: refused for a `SHRINKING`
transaction, refused for a finished one, ended with only the state of the caller set to
`GROWING` (a `throw` from the loop, or a `return true` that grants nothing), or ended with
`true` after the queue of the key, its group mode and the caller have been written. -/
def Shape (s : State) (c : LockCall) (res : Outcome × State) : Prop :=
  (s.get_state c.txn = .SHRINKING ∧ res = (.raise .LOCK_ON_SHIRINKING, s)) ∨
  ((s.get_state c.txn = .ABORTED ∨ s.get_state c.txn = .COMMITTED) ∧ res = (.ret false, s)) ∨
  (s.mayLock c.txn ∧ ∃ o, (o = .ret true ∨ o = .raise .DEADLOCK_PREVENTION) ∧
    res = (o, s.set_state c.txn .GROWING)) ∨
  (s.mayLock c.txn ∧ ∃ q g ls, res = (.ret true, s.put c.key q g c.txn ⟨.GROWING, ls⟩))

/-! ## Example states -/

/-- The empty lock table with all transactions in state `DEFAULT`. -/
def exInit : State := State.init (fun _ => .DEFAULT)

/-- Table 7 after `IS` by transaction 1 and `S` by transaction 2. -/
def exSharedTable : State :=
  runAll exInit [.lock (.IS_on_table 1 7), .lock (.shared_on_table 2 7)]

/-- Table 7 after `S` and then `IX` by transaction 1. -/
def exTableSIX : State :=
  runAll exInit [.lock (.shared_on_table 1 7), .lock (.IX_on_table 1 7)]

/-- Record `(3, 4)` of table 7 after `S` by transaction 1. -/
def exRecordS : State :=
  runAll exInit [.lock (.shared_on_record 1 ⟨3, 4⟩ 7)]

/-- Record `(3, 4)` of table 7 after `X` by transaction 1. -/
def exRecordX : State :=
  runAll exInit [.lock (.exclusive_on_record 1 ⟨3, 4⟩ 7)]

/-- Table 7 after `IS` by transaction 1. -/
def exTableIS : State :=
  runAll exInit [.lock (.IS_on_table 1 7)]

/-- Table 7 after `S` by transaction 1. -/
def exTableS : State :=
  runAll exInit [.lock (.shared_on_table 1 7)]

/-- Table 7 after `IX` by transaction 1. -/
def exTableIX : State :=
  runAll exInit [.lock (.IX_on_table 1 7)]

/-- Table 7 after `IS` by transaction 1 and then `IS` by transaction 2. -/
def exTwoIS : State :=
  runAll exInit [.lock (.IS_on_table 1 7), .lock (.IS_on_table 2 7)]

/-! ## The record scan (`src/record/rm_scan.cpp`) -/

/-- Modelled from the spec: what `RmScan` reads of a heap file (`rm_file_handle.h` is not
among the source files): the header fields `num_pages` and `num_records_per_page`, and the
occupancy bitmap of each page, `bitmap p s` being bit `s` of page `p`. -/
structure RmFileHandle where
  num_pages : Int
  num_records_per_page : Int
  bitmap : Int → Int → Bool

/-- Modelled from the spec: `Bitmap::next_bit(1, bm, max_n, curr)`, the index of the first
set bit after `curr` and below `max_n`, and `max_n` when there is none (`bitmap.h` is not
among the source files; spec section 4.2). -/
def Bitmap.next_bit (bm : Int → Bool) (max_n curr : Int) : Int :=
  match (List.range (max_n - (curr + 1)).toNat).find? (fun i => bm (curr + 1 + i)) with
  | some i => curr + 1 + i
  | none => max_n

/-- Modelled from the spec: `Bitmap::first_bit(1, bm, max_n)`, the index of the first set
bit below `max_n`, and `max_n` when there is none. -/
def Bitmap.first_bit (bm : Int → Bool) (max_n : Int) : Int :=
  Bitmap.next_bit bm max_n (-1)

/-- The members of `RmScan`. -/
structure RmScan where
  file_handle_ : RmFileHandle
  rid_ : Rid

namespace RmScan

/-- Source `RmScan::RmScan` (lines 18-32). -/
def new (file_handle : RmFileHandle) : RmScan :=
  if file_handle.num_pages > 1 then
    ⟨file_handle, ⟨1, Bitmap.first_bit (file_handle.bitmap 1) file_handle.num_records_per_page⟩⟩
  else
    ⟨file_handle, ⟨0, -1⟩⟩

/-- The `while` loop of `RmScan::next` (lines 45-52), on the value of `rid_`. Every round
adds one to `page_no` and the loop is left when `page_no` reaches `num_pages`; `fuel`
bounds the number of rounds. -/
def next_loop (fh : RmFileHandle) : Nat → Rid → Rid
  | 0, rid => rid
  | fuel + 1, rid =>
    if rid.slot_no = fh.num_records_per_page then
      let page_no := rid.page_no + 1
      if page_no ≥ fh.num_pages then ⟨page_no, rid.slot_no⟩
      else next_loop fh fuel
        ⟨page_no, Bitmap.first_bit (fh.bitmap page_no) fh.num_records_per_page⟩
    else rid

/-- Source `RmScan::next` (lines 37-54); the loop gets more rounds than it can take. -/
def next (sc : RmScan) : RmScan :=
  let max_records := sc.file_handle_.num_records_per_page
  let page_max := sc.file_handle_.num_pages
  let slot_no := Bitmap.next_bit (sc.file_handle_.bitmap sc.rid_.page_no) max_records
    sc.rid_.slot_no
  let rid := next_loop sc.file_handle_ ((page_max - sc.rid_.page_no).toNat + 1)
    ⟨sc.rid_.page_no, slot_no⟩
  { sc with rid_ := rid }

/-- Source `RmScan::is_end` (lines 59-66). -/
def is_end (sc : RmScan) : Bool :=
  if sc.rid_.slot_no = sc.file_handle_.num_records_per_page ∧
      sc.rid_.page_no ≥ sc.file_handle_.num_pages then true
  else false

/-- Source `RmScan::rid` (lines 71-73). -/
def rid (sc : RmScan) : Rid := sc.rid_

/-- The rids read from a scan: `rid()` now and after each `next()`, until `is_end()`;
`fuel` bounds the number of rids. -/
def rids : Nat → RmScan → List Rid
  | 0, _ => []
  | fuel + 1, sc => if sc.is_end then [] else sc.rid :: rids fuel sc.next

end RmScan

/-- Modelled from the spec: the rids of the occupied slots of a heap file, `(p, s)` with
`1 ≤ p < num_pages`, `0 ≤ s < num_records_per_page` and bit `s` of page `p` set, in
lexicographic order (spec section 8, property 1). -/
def RmFileHandle.occupied (fh : RmFileHandle) : List Rid :=
  (List.range (fh.num_pages - 1).toNat).flatMap fun p =>
    ((List.range fh.num_records_per_page.toNat).filter
      fun s => fh.bitmap ((p : Int) + 1) (s : Int)).map fun s => ⟨(p : Int) + 1, (s : Int)⟩

/-- A heap file with the header page only, 4 slots per page. -/
def exFileEmpty : RmFileHandle := ⟨1, 4, fun _ _ => false⟩

/-- A heap file with two data pages of 2 slots: page 1 is empty, slot 0 of page 2 is
occupied. -/
def exFileGap : RmFileHandle := ⟨3, 2, fun p s => decide (p = 2 ∧ s = 0)⟩

/-- A heap file with two data pages of 2 slots: slot 1 of page 1 and slot 0 of page 2 are
occupied. -/
def exFileTwo : RmFileHandle :=
  ⟨3, 2, fun p s => decide ((p = 1 ∧ s = 1) ∨ (p = 2 ∧ s = 0))⟩

/-! ## Schemas, conditions and records (the executors of `src/execution`) -/

/-- Modelled from the spec: the column types (`defs.h` is not among the source files; spec
section 3). -/
inductive ColType where
  | TYPE_INT
  | TYPE_FLOAT
  | TYPE_STRING
  deriving DecidableEq

/-- The comparison operators, as listed in `check_cond`. -/
inductive CompOp where
  | OP_EQ
  | OP_NE
  | OP_LT
  | OP_GT
  | OP_LE
  | OP_GE
  deriving DecidableEq

/-- Modelled from the spec: `TabCol`, a column named by table and column name. -/
structure TabCol where
  tab_name : String
  col_name : String
  deriving DecidableEq

/-- Modelled from the spec: `Value`, a literal with its type and its bytes `raw->data`. -/
structure Value where
  type : ColType
  raw : List Nat
  deriving DecidableEq

/-- Modelled from the spec: `Condition`, with the fields that the executors read. -/
structure Condition where
  lhs_col : TabCol
  op : CompOp
  is_rhs_val : Bool
  rhs_col : TabCol
  rhs_val : Value
  deriving DecidableEq

/-- Modelled from the spec: `ColMeta`, with the fields that the executors read. -/
structure ColMeta where
  tab_name : String
  name : String
  type : ColType
  len : Nat
  offset : Nat
  deriving DecidableEq

/-- Modelled from the spec: `RmRecord`, the bytes of a record. -/
structure RmRecord where
  data : List Nat
  deriving DecidableEq

/-- The type of the comparator `ix_compare(a, b, type, col_len)`: `a` and `b` are the bytes
from the two pointers on. The comparator is not among the source files, and the executors
are modelled for every comparator. -/
abbrev Comparator := List Nat → List Nat → ColType → Nat → Int

/-- Modelled from the spec: `get_col(rec_cols, target)` of `executor_abstract.h`, the position
of the first column of `rec_cols` with the table and column name of `target`, with the column
there; `none` stands for `ColumnNotFoundError`. -/
def get_col (rec_cols : List ColMeta) (target : TabCol) : Option (Nat × ColMeta) :=
  let pos := rec_cols.findIdx fun col =>
    decide (col.tab_name = target.tab_name ∧ col.name = target.col_name)
  match rec_cols[pos]? with
  | none => none
  | some col => some (pos, col)

/-- The `switch` of `check_cond` (lines 143-169 of `executor_seq_scan.h`). -/
def check_op (op : CompOp) (cmp : Int) : Bool :=
  match op with
  | .OP_EQ => decide (cmp = 0)
  | .OP_NE => decide (cmp ≠ 0)
  | .OP_LT => decide (cmp = -1)
  | .OP_GT => decide (cmp = 1)
  | .OP_LE => decide (cmp ≠ 1)
  | .OP_GE => decide (cmp ≠ -1)

/-- Step 2 of `check_cond` (lines 123-138): the bytes from `right_val` on and `col_type`. -/
def check_cond_rhs (cols_ : List ColMeta) (cond_ : Condition) (cur_record : RmRecord) :
    Option (List Nat × ColType) :=
  if cond_.is_rhs_val then
    let right_value := cond_.rhs_val
    some (right_value.raw, right_value.type)
  else
    match get_col cols_ cond_.rhs_col with
    | none => none
    | some (_, right_col) => some (cur_record.data.drop right_col.offset, right_col.type)

/-- Source `SeqScanExecutor::check_cond` (lines 118-171), which `IndexScanExecutor` repeats
word for word; `none` when `get_col` throws. -/
def check_cond (ix_compare : Comparator) (cols_ : List ColMeta) (cond_ : Condition)
    (cur_record : RmRecord) : Option Bool :=
  match get_col cols_ cond_.lhs_col with
  | none => none
  | some (_, left_col) =>
    let left_val := cur_record.data.drop left_col.offset
    let len := left_col.len
    match check_cond_rhs cols_ cond_ cur_record with
    | none => none
    | some (right_val, col_type) =>
      let cmp := ix_compare left_val right_val col_type len
      some (check_op cond_.op cmp)

/-- The `for` loop of `check_conds` (lines 110-114), from condition `i` on: `found &=` calls
`check_cond` whatever `found` is. -/
def check_conds_loop (ix_compare : Comparator) (cols_ : List ColMeta) (record : RmRecord) :
    List Condition → Bool → Option Bool
  | [], found => some found
  | cond :: rest, found =>
    match check_cond ix_compare cols_ cond record with
    | none => none
    | some b =>
      let found := found && b
      if !found then some false
      else check_conds_loop ix_compare cols_ record rest found

/-- Source `SeqScanExecutor::check_conds` (lines 105-116), which `IndexScanExecutor` repeats
word for word. -/
def check_conds (ix_compare : Comparator) (cols_ : List ColMeta) (fed_conds_ : List Condition)
    (record : RmRecord) : Option Bool :=
  match fed_conds_ with
  | [] => some true
  | cond :: rest =>
    match check_cond ix_compare cols_ cond record with
    | none => none
    | some found => check_conds_loop ix_compare cols_ record rest found

/-- What the spec says of one condition (section 4.3): the left column resolves, the right
side resolves to the literal or to a column of the record, and the operator holds of the
comparator result `c`: `EQ` iff `c = 0`, `NE` iff `c ≠ 0`, `LT` iff `c = -1`, `GT` iff
`c = 1`, `LE` iff `c ≠ 1`, `GE` iff `c ≠ -1`. -/
def Condition.holds (ix_compare : Comparator) (schema : List ColMeta) (c : Condition)
    (r : RmRecord) : Prop :=
  ∃ p lhs, get_col schema c.lhs_col = some (p, lhs) ∧
    ∃ rv ty,
      ((c.is_rhs_val = true ∧ rv = c.rhs_val.raw ∧ ty = c.rhs_val.type) ∨
        (c.is_rhs_val = false ∧ ∃ q rhs, get_col schema c.rhs_col = some (q, rhs) ∧
          rv = r.data.drop rhs.offset ∧ ty = rhs.type)) ∧
      let cmp := ix_compare (r.data.drop lhs.offset) rv ty lhs.len
      match c.op with
      | .OP_EQ => cmp = 0
      | .OP_NE => cmp ≠ 0
      | .OP_LT => cmp = -1
      | .OP_GT => cmp = 1
      | .OP_LE => cmp ≠ 1
      | .OP_GE => cmp ≠ -1

/-! ## The scan executors (`executor_seq_scan.h`, `executor_index_scan.h`) -/

/-- Modelled from the spec: the cursor interface `RecScan` that `RmScan` and `IxScan`
implement, on cursors of type `σ`. -/
structure RecScan (σ : Type) where
  next : σ → σ
  is_end : σ → Bool
  rid : σ → Rid

/-- The cursor interface of `RmScan`. -/
def RmScan.recScan : RecScan RmScan := ⟨RmScan.next, RmScan.is_end, RmScan.rid⟩

/-- The rids of the first `n` positions of a cursor: `rid()` now and after each of `n - 1`
calls of `next()`. -/
def RecScan.rids {σ : Type} (ops : RecScan σ) (n : Nat) (sc : σ) : List Rid :=
  (List.range n).map fun i => ops.rid (ops.next^[i] sc)

/-- Why a run of the model stops without a result: an exception is thrown (or the null
cursor is used), or the bound on the number of rounds is reached. -/
inductive Fault where
  | raised
  | bound
  deriving DecidableEq

/-- The members of `SeqScanExecutor` and of `IndexScanExecutor` that `beginTuple`,
`nextTuple`, `check_conds` and `is_end` use; the two classes have the same text for these
functions but for the cursor that `beginTuple` makes. `scan_` is `none` until `beginTuple`. -/
structure ScanExecutor (σ : Type) where
  cols_ : List ColMeta
  fed_conds_ : List Condition
  rid_ : Rid
  scan_ : Option σ

/-- Source `SeqScanExecutor::SeqScanExecutor` (lines 34-46): `cols` are the columns of the
table, `rid_` is not initialised. -/
def SeqScanExecutor.new {σ : Type} (cols : List ColMeta) (conds : List Condition)
    (rid_ : Rid) : ScanExecutor σ :=
  let conds_ := conds
  let fed_conds_ := conds_
  ⟨cols, fed_conds_, rid_, none⟩

/-- The map `swap_op` of `IndexScanExecutor::IndexScanExecutor` (lines 51-53). -/
def IndexScanExecutor.swap_op : CompOp → CompOp
  | .OP_EQ => .OP_EQ
  | .OP_NE => .OP_NE
  | .OP_LT => .OP_GT
  | .OP_GT => .OP_LT
  | .OP_LE => .OP_GE
  | .OP_GE => .OP_LE

/-- The body of the loop over `conds_` of `IndexScanExecutor::IndexScanExecutor`
(lines 56-62); `none` when the `assert` fails. -/
def IndexScanExecutor.new_step (tab_name_ : String) (cond : Condition) : Option Condition :=
  if cond.lhs_col.tab_name ≠ tab_name_ then
    if !cond.is_rhs_val && decide (cond.rhs_col.tab_name = tab_name_) then
      some ⟨cond.rhs_col, IndexScanExecutor.swap_op cond.op, cond.is_rhs_val, cond.lhs_col,
        cond.rhs_val⟩
    else none
  else some cond

/-- The loop over `conds_` of `IndexScanExecutor::IndexScanExecutor` (lines 55-63). -/
def IndexScanExecutor.new_loop (tab_name_ : String) : List Condition → Option (List Condition)
  | [] => some []
  | cond :: rest =>
    match IndexScanExecutor.new_step tab_name_ cond with
    | none => none
    | some cond2 =>
      match IndexScanExecutor.new_loop tab_name_ rest with
      | none => none
      | some rest2 => some (cond2 :: rest2)

/-- Source `IndexScanExecutor::IndexScanExecutor` (lines 38-65): `cols` are the columns of
the table `tab_name`, `rid_` is not initialised. -/
def IndexScanExecutor.new {σ : Type} (tab_name : String) (cols : List ColMeta)
    (conds : List Condition) (rid_ : Rid) : Option (ScanExecutor σ) :=
  match IndexScanExecutor.new_loop tab_name conds with
  | none => none
  | some conds_ =>
    let fed_conds_ := conds_
    some ⟨cols, fed_conds_, rid_, none⟩

namespace ScanExecutor

/-- The `for` loop of `beginTuple` and of `nextTuple` (lines 61-67 and 79-86 of
`executor_seq_scan.h`), entered with the cursor at `scan_`, on the values of `rid_` and of
the cursor; `fuel` bounds the number of rounds. -/
def scan_loop {σ : Type} (ops : RecScan σ) (ix_compare : Comparator)
    (get_record : Rid → Option RmRecord) (cols_ : List ColMeta) (fed_conds_ : List Condition) :
    Nat → Rid → σ → Except Fault (Rid × σ)
  | 0, _, _ => .error .bound
  | fuel + 1, rid_, scan_ =>
    if ops.is_end scan_ then .ok (rid_, scan_)
    else
      let rid_ := ops.rid scan_
      match get_record rid_ with
      | none => .error .raised
      | some cur_record =>
        match check_conds ix_compare cols_ fed_conds_ cur_record with
        | none => .error .raised
        | some true => .ok (rid_, scan_)
        | some false =>
          scan_loop ops ix_compare get_record cols_ fed_conds_ fuel rid_ (ops.next scan_)

/-- Source `SeqScanExecutor::beginTuple` (lines 54-70) and `IndexScanExecutor::beginTuple`
(lines 70-88): `fresh` is the cursor that the call makes, `RmScan(fh_)` or
`IxScan(ih_, lower, upper)`. -/
def beginTuple {σ : Type} (ops : RecScan σ) (ix_compare : Comparator)
    (get_record : Rid → Option RmRecord) (fresh : σ) (fuel : Nat) (e : ScanExecutor σ) :
    Except Fault (ScanExecutor σ) :=
  let scan_ := fresh
  if ops.is_end scan_ then .ok ⟨e.cols_, e.fed_conds_, e.rid_, some scan_⟩
  else
    match scan_loop ops ix_compare get_record e.cols_ e.fed_conds_ fuel e.rid_ scan_ with
    | .error f => .error f
    | .ok (rid_, scan_) => .ok ⟨e.cols_, e.fed_conds_, rid_, some scan_⟩

/-- Source `SeqScanExecutor::nextTuple` (lines 76-88) and `IndexScanExecutor::nextTuple`
(lines 90-102). -/
def nextTuple {σ : Type} (ops : RecScan σ) (ix_compare : Comparator)
    (get_record : Rid → Option RmRecord) (fuel : Nat) (e : ScanExecutor σ) :
    Except Fault (ScanExecutor σ) :=
  match e.scan_ with
  | none => .error .raised
  | some scan_ =>
    if ops.is_end scan_ then .ok e
    else
      match scan_loop ops ix_compare get_record e.cols_ e.fed_conds_ fuel e.rid_
          (ops.next scan_) with
      | .error f => .error f
      | .ok (rid_, scan_) => .ok ⟨e.cols_, e.fed_conds_, rid_, some scan_⟩

/-- The rids at which the executor rests: `rid()` now and after each `nextTuple()`, while
`is_end()` is false; `fuel` bounds the rounds of the loop of `nextTuple`, `n` the number of
rids. -/
def rests {σ : Type} (ops : RecScan σ) (ix_compare : Comparator)
    (get_record : Rid → Option RmRecord) (fuel : Nat) : Nat → ScanExecutor σ →
    Except Fault (List Rid)
  | 0, _ => .error .bound
  | n + 1, e =>
    match e.scan_ with
    | none => .error .raised
    | some scan_ =>
      if ops.is_end scan_ then .ok []
      else
        match nextTuple ops ix_compare get_record fuel e with
        | .error f => .error f
        | .ok e2 =>
          match rests ops ix_compare get_record fuel n e2 with
          | .error f => .error f
          | .ok l => .ok (e.rid_ :: l)

end ScanExecutor

/-- An example comparator: on strings the sign of the first difference of the first `len`
bytes, on numbers the order of the values of the first four bytes. -/
def exCompare : Comparator := fun a b type len =>
  match type with
  | .TYPE_STRING =>
    if a.take len = b.take len then 0 else if a.take len < b.take len then -1 else 1
  | _ =>
    let va := (a.take 4).foldr (fun x acc => x + 256 * acc) 0
    let vb := (b.take 4).foldr (fun x acc => x + 256 * acc) 0
    if va < vb then -1 else if va > vb then 1 else 0

/-- The schema of the example table `t`: `id` of 4 bytes, `name` of 1 byte. -/
def exCols : List ColMeta :=
  [⟨"t", "id", .TYPE_INT, 4, 0⟩, ⟨"t", "name", .TYPE_STRING, 1, 4⟩]

/-- The heap file of the example table: slots 0, 1 and 2 of page 1 are occupied. -/
def exFileThree : RmFileHandle := ⟨2, 4, fun p s => decide (p = 1 ∧ 0 ≤ s ∧ s < 3)⟩

/-- The records of the example table: ids 1, 2, 3 with names `a`, `b`, `a`. -/
def exRecords (r : Rid) : Option RmRecord :=
  if r = ⟨1, 0⟩ then some ⟨[1, 0, 0, 0, 97]⟩
  else if r = ⟨1, 1⟩ then some ⟨[2, 0, 0, 0, 98]⟩
  else if r = ⟨1, 2⟩ then some ⟨[3, 0, 0, 0, 97]⟩
  else none

/-- The condition `name EQ "a"` on the example table. -/
def exCondNameA : Condition :=
  ⟨⟨"t", "name"⟩, .OP_EQ, true, ⟨"", ""⟩, ⟨.TYPE_STRING, [97]⟩⟩

/-- The condition `u.a LT t.id`, whose left column is on another table. -/
def exCondForeign : Condition :=
  ⟨⟨"u", "a"⟩, .OP_LT, false, ⟨"t", "id"⟩, ⟨.TYPE_INT, []⟩⟩

/-- What the spec says of a rid of the cursor (section 4.4): the record fetched there
satisfies every condition, that is, `check_cond` returns true on each. -/
def ScanExecutor.satisfies (ix_compare : Comparator) (get_record : Rid → Option RmRecord)
    (cols : List ColMeta) (conds : List Condition) (r : Rid) : Bool :=
  match get_record r with
  | none => false
  | some record => conds.all fun c => decide (check_cond ix_compare cols c record = some true)

/-- What the spec says of the operator of a swapped condition (section 4.3): `EQ` and `NE`
stay, `LT` and `GT` change places, `LE` and `GE` change places. -/
def CompOp.mirror : CompOp → CompOp
  | .OP_EQ => .OP_EQ
  | .OP_NE => .OP_NE
  | .OP_LT => .OP_GT
  | .OP_GT => .OP_LT
  | .OP_LE => .OP_GE
  | .OP_GE => .OP_LE

/-- What the spec says of the stored form of a condition of a scan of table `t`
(section 4.3): a condition whose left column is on another table has its two sides swapped
and its operator mirrored, any other condition is kept. -/
def Condition.normalized (t : String) (c : Condition) : Condition :=
  if c.lhs_col.tab_name = t then c
  else ⟨c.rhs_col, c.op.mirror, c.is_rhs_val, c.lhs_col, c.rhs_val⟩

/-! ## The projection executor (`executor_projection.h`) -/

/-- The library function `memcpy(dst + doff, src + soff, len)` on two buffers: the buffer
`dst` after the copy; `none` when the copy reads or writes outside a buffer. -/
def memcpy (dst : List Nat) (doff : Nat) (src : List Nat) (soff len : Nat) :
    Option (List Nat) :=
  if soff + len ≤ src.length ∧ doff + len ≤ dst.length then
    some (dst.take doff ++ (src.drop soff).take len ++ dst.drop (doff + len))
  else none

/-- The members of `ProjectionExecutor`; `prev_cols` is what `prev_->cols()` returns. -/
structure ProjectionExecutor where
  prev_cols : List ColMeta
  cols_ : List ColMeta
  len_ : Nat
  sel_idxs_ : List Nat
  deriving DecidableEq

namespace ProjectionExecutor

/-- The loop of `ProjectionExecutor::ProjectionExecutor` (lines 31-38), on the values of
`curr_offset`, `sel_idxs_` and `cols_`; `none` when `get_col` throws. -/
def new_loop (prev_cols : List ColMeta) :
    List TabCol → Nat → List Nat → List ColMeta → Option (Nat × List Nat × List ColMeta)
  | [], curr_offset, sel_idxs_, cols_ => some (curr_offset, sel_idxs_, cols_)
  | sel_col :: rest, curr_offset, sel_idxs_, cols_ =>
    match get_col prev_cols sel_col with
    | none => none
    | some (pos, col) =>
      let sel_idxs_ := sel_idxs_ ++ [pos]
      let col : ColMeta := ⟨col.tab_name, col.name, col.type, col.len, curr_offset⟩
      let curr_offset := curr_offset + col.len
      new_loop prev_cols rest curr_offset sel_idxs_ (cols_ ++ [col])

/-- Source `ProjectionExecutor::ProjectionExecutor` (lines 26-40). -/
def new (prev_cols : List ColMeta) (sel_cols : List TabCol) : Option ProjectionExecutor :=
  match new_loop prev_cols sel_cols 0 [] [] with
  | none => none
  | some (curr_offset, sel_idxs_, cols_) => some ⟨prev_cols, cols_, curr_offset, sel_idxs_⟩

/-- Source `ProjectionExecutor::tupleLen` (line 42). -/
def tupleLen (e : ProjectionExecutor) : Nat := e.len_

/-- The loop of `ProjectionExecutor::Next` (lines 60-68), with `k` rounds to go from index
`i`, on the bytes of `ret_rec`; `none` when an index is outside its vector or `memcpy` is
outside a buffer. -/
def Next_loop (e : ProjectionExecutor) (child_rec : RmRecord) :
    Nat → Nat → List Nat → Option (List Nat)
  | 0, _, ret_rec => some ret_rec
  | k + 1, i, ret_rec =>
    match e.sel_idxs_[i]? with
    | none => none
    | some idx =>
      match e.prev_cols[idx]?, e.cols_[i]? with
      | some prev_col, some cur_col =>
        match memcpy ret_rec cur_col.offset child_rec.data prev_col.offset prev_col.len with
        | none => none
        | some ret_rec => Next_loop e child_rec k (i + 1) ret_rec
      | _, _ => none

/-- Source `ProjectionExecutor::Next` (lines 54-71): `child_rec` is what `prev_->Next()`
returns, `garbage` gives the bytes of the buffer of `len_` bytes as it is allocated. -/
def Next (e : ProjectionExecutor) (child_rec : RmRecord) (garbage : Nat → Nat) :
    Option RmRecord :=
  let ret_rec := (List.range e.len_).map garbage
  let sel_num := e.sel_idxs_.length
  match Next_loop e child_rec sel_num 0 ret_rec with
  | none => none
  | some ret_rec => some ⟨ret_rec⟩

/-- What the spec says are the selected columns (section 4.6): the columns of the child
schema that the projection list names, in the order of the list. -/
def selected (prev_cols : List ColMeta) (sel_cols : List TabCol) : List ColMeta :=
  sel_cols.filterMap fun c => (get_col prev_cols c).map Prod.snd

/-- What the spec says are the bytes of a column in a row. -/
def field (row : List Nat) (col : ColMeta) : List Nat :=
  (row.drop col.offset).take col.len

end ProjectionExecutor

/-- A child row of the example table: id 2, name `b`. -/
def exRow : RmRecord := ⟨[2, 0, 0, 0, 98]⟩

/-- What the spec says an occupied slot is (section 4.2): a slot of a page after the header
page whose bit is set in the bitmap of the page. -/
def RmFileHandle.isOccupied (fh : RmFileHandle) (r : Rid) : Prop :=
  1 ≤ r.page_no ∧ r.page_no < fh.num_pages ∧ 0 ≤ r.slot_no ∧
    r.slot_no < fh.num_records_per_page ∧ fh.bitmap r.page_no r.slot_no = true

/-- The lexicographic order of rids, by page and then by slot. -/
def Rid.lt (a b : Rid) : Prop :=
  a.page_no < b.page_no ∨ (a.page_no = b.page_no ∧ a.slot_no < b.slot_no)

/-! ## The nested loop join (`executor_nestedloop_join.h`) -/

/-- Modelled from the spec: the operator interface `AbstractExecutor` (section 4.1), as far
as a parent uses it of a child, on child states `σ`; `Next` is `none` when the child has no
current row. -/
structure AbstractExecutor (σ : Type) where
  cols : List ColMeta
  tupleLen : Nat
  beginTuple : σ → σ
  nextTuple : σ → σ
  is_end : σ → Bool
  Next : σ → Option RmRecord

/-- The members of `NestedLoopJoinExecutor`; `left_` and `right_` are the states of the two
children. -/
structure NestedLoopJoinExecutor (σ τ : Type) where
  left_ : σ
  right_ : τ
  len_ : Nat
  cols_ : List ColMeta
  fed_conds_ : List Condition
  isend : Bool

namespace NestedLoopJoinExecutor

/-- Source `NestedLoopJoinExecutor::NestedLoopJoinExecutor` (lines 29-44). -/
def new {σ τ : Type} (L : AbstractExecutor σ) (R : AbstractExecutor τ) (left : σ) (right : τ)
    (conds : List Condition) : NestedLoopJoinExecutor σ τ :=
  let len_ := L.tupleLen + R.tupleLen
  let cols_ := L.cols
  let right_cols := R.cols.map fun col =>
    (⟨col.tab_name, col.name, col.type, col.len, col.offset + L.tupleLen⟩ : ColMeta)
  let cols_ := cols_ ++ right_cols
  ⟨left, right, len_, cols_, conds, false⟩

/-- Source `NestedLoopJoinExecutor::cols` (lines 46-49). -/
def cols {σ τ : Type} (e : NestedLoopJoinExecutor σ τ) : List ColMeta := e.cols_

/-- Source `NestedLoopJoinExecutor::is_end` (line 51). -/
def is_end {σ τ : Type} (e : NestedLoopJoinExecutor σ τ) : Bool := e.isend

/-- Source `NestedLoopJoinExecutor::beginTuple` (lines 53-56). -/
def beginTuple {σ τ : Type} (L : AbstractExecutor σ) (R : AbstractExecutor τ)
    (e : NestedLoopJoinExecutor σ τ) : NestedLoopJoinExecutor σ τ :=
  ⟨L.beginTuple e.left_, R.beginTuple e.right_, e.len_, e.cols_, e.fed_conds_, e.isend⟩

/-- Source `NestedLoopJoinExecutor::check_cond` (lines 114-153), with the switch of the
scans; `none` when `get_col` throws or the `assert` fails. -/
def check_cond {σ τ : Type} (L : AbstractExecutor σ) (R : AbstractExecutor τ)
    (ix_compare : Comparator) (left_rec right_rec : RmRecord) (cond_ : Condition) :
    Option Bool :=
  match get_col L.cols cond_.lhs_col with
  | none => none
  | some (_, left_col) =>
    match get_col R.cols cond_.rhs_col with
    | none => none
    | some (_, right_col) =>
      let left_val := left_rec.data.drop left_col.offset
      let right_val := right_rec.data.drop right_col.offset
      if left_col.type = right_col.type then
        let cmp := ix_compare left_val right_val right_col.type right_col.len
        some (check_op cond_.op cmp)
      else none

/-- The `for` loop of `NestedLoopJoinExecutor::check_conds` (lines 106-111), from condition
`i` on. -/
def check_conds_loop {σ τ : Type} (L : AbstractExecutor σ) (R : AbstractExecutor τ)
    (ix_compare : Comparator) (left_rec right_rec : RmRecord) :
    List Condition → Bool → Option Bool
  | [], ret => some ret
  | cond :: rest, ret =>
    match check_cond L R ix_compare left_rec right_rec cond with
    | none => none
    | some b =>
      let ret := ret && b
      if !ret then some false
      else check_conds_loop L R ix_compare left_rec right_rec rest ret

/-- Source `NestedLoopJoinExecutor::check_conds` (lines 100-112). -/
def check_conds {σ τ : Type} (L : AbstractExecutor σ) (R : AbstractExecutor τ)
    (ix_compare : Comparator) (fed_conds_ : List Condition) (left_rec right_rec : RmRecord) :
    Option Bool :=
  match fed_conds_ with
  | [] => some true
  | cond :: rest =>
    match check_cond L R ix_compare left_rec right_rec cond with
    | none => none
    | some ret => check_conds_loop L R ix_compare left_rec right_rec rest ret

/-- The inner `while` loop of `nextTuple` (lines 65-73), on the state of the right child:
the first component tells whether the function returns from within the loop;
`found_pair` is false whenever it is tested. `fuel` bounds the number of rounds. -/
def nextTuple_inner {σ τ : Type} (L : AbstractExecutor σ) (R : AbstractExecutor τ)
    (ix_compare : Comparator) (fed_conds_ : List Condition) (left_rec : RmRecord) :
    Nat → τ → Except Fault (Bool × τ)
  | 0, _ => .error .bound
  | fuel + 1, right_ =>
    if !R.is_end right_ then
      match R.Next right_ with
      | none => .error .raised
      | some right_rec =>
        match check_conds L R ix_compare fed_conds_ left_rec right_rec with
        | none => .error .raised
        | some true => .ok (true, right_)
        | some false =>
          nextTuple_inner L R ix_compare fed_conds_ left_rec fuel (R.nextTuple right_)
    else .ok (false, right_)

/-- The outer `while` loop of `nextTuple` (lines 63-80), on the states of the two children:
the first component tells whether the function returns from within the loop. `fuel` bounds
the rounds of the inner loop, the next argument those of the outer loop. -/
def nextTuple_outer {σ τ : Type} (L : AbstractExecutor σ) (R : AbstractExecutor τ)
    (ix_compare : Comparator) (fed_conds_ : List Condition) (fuel : Nat) :
    Nat → σ → τ → Except Fault (Bool × σ × τ)
  | 0, _, _ => .error .bound
  | n + 1, left_, right_ =>
    if !L.is_end left_ then
      match L.Next left_ with
      | none => .error .raised
      | some left_rec =>
        match nextTuple_inner L R ix_compare fed_conds_ left_rec fuel right_ with
        | .error f => .error f
        | .ok (true, right_) => .ok (true, left_, right_)
        | .ok (false, right_) =>
          let right_ := R.beginTuple right_
          let left_ := L.nextTuple left_
          nextTuple_outer L R ix_compare fed_conds_ fuel n left_ right_
    else .ok (false, left_, right_)

/-- Source `NestedLoopJoinExecutor::nextTuple` (lines 58-82). -/
def nextTuple {σ τ : Type} (L : AbstractExecutor σ) (R : AbstractExecutor τ)
    (ix_compare : Comparator) (fuel : Nat) (e : NestedLoopJoinExecutor σ τ) :
    Except Fault (NestedLoopJoinExecutor σ τ) :=
  let right_ := if !R.is_end e.right_ then R.nextTuple e.right_ else e.right_
  match nextTuple_outer L R ix_compare e.fed_conds_ fuel fuel e.left_ right_ with
  | .error f => .error f
  | .ok (true, left_, right_) => .ok ⟨left_, right_, e.len_, e.cols_, e.fed_conds_, e.isend⟩
  | .ok (false, left_, right_) => .ok ⟨left_, right_, e.len_, e.cols_, e.fed_conds_, true⟩

/-- Source `NestedLoopJoinExecutor::Next` (lines 84-96): `garbage` gives the bytes of the
buffer of `len_` bytes as it is allocated, `size` of a record is the number of its bytes;
the result is an error when the `assert` fails, a child has no current row, or `memcpy` is
outside the buffer. -/
def Next {σ τ : Type} (L : AbstractExecutor σ) (R : AbstractExecutor τ)
    (e : NestedLoopJoinExecutor σ τ) (garbage : Nat → Nat) : Except Fault RmRecord :=
  if e.isend then .error .raised
  else
    match L.Next e.left_, R.Next e.right_ with
    | some left_rec, some right_rec =>
      let new_rec := (List.range e.len_).map garbage
      match memcpy new_rec 0 left_rec.data 0 left_rec.data.length with
      | none => .error .raised
      | some new_rec =>
        match memcpy new_rec left_rec.data.length right_rec.data 0 right_rec.data.length with
        | none => .error .raised
        | some new_rec => .ok ⟨new_rec⟩
    | _, _ => .error .raised

/-- The rows read from the join after `beginTuple()`: `Next()` now and after each
`nextTuple()`, while `is_end()` is false; `fuel` bounds the rounds of the loops of
`nextTuple`, `n` the number of rows. -/
def rows_loop {σ τ : Type} (L : AbstractExecutor σ) (R : AbstractExecutor τ)
    (ix_compare : Comparator) (garbage : Nat → Nat) (fuel : Nat) :
    Nat → NestedLoopJoinExecutor σ τ → Except Fault (List RmRecord)
  | 0, _ => .error .bound
  | n + 1, e =>
    if e.is_end then .ok []
    else
      match Next L R e garbage with
      | .error f => .error f
      | .ok record =>
        match nextTuple L R ix_compare fuel e with
        | .error f => .error f
        | .ok e2 =>
          match rows_loop L R ix_compare garbage fuel n e2 with
          | .error f => .error f
          | .ok l => .ok (record :: l)

/-- The rows read from the join: `beginTuple()`, then `Next()` and `nextTuple()` while
`is_end()` is false. -/
def rows {σ τ : Type} (L : AbstractExecutor σ) (R : AbstractExecutor τ)
    (ix_compare : Comparator) (garbage : Nat → Nat) (fuel : Nat)
    (e : NestedLoopJoinExecutor σ τ) : Except Fault (List RmRecord) :=
  rows_loop L R ix_compare garbage fuel fuel (beginTuple L R e)

/-- What the spec says of one join condition on a pair of rows (sections 4.3 and 4.7): the
condition names a column of the left schema and a column of the right schema, both of one
type, and its operator holds of the result `c` of the comparator on the bytes of the left
column in the left row and the bytes of the right column in the right row, with the type and
the length of the left column: `EQ` iff `c = 0`, `NE` iff `c ≠ 0`, `LT` iff `c = -1`, `GT`
iff `c = 1`, `LE` iff `c ≠ 1`, `GE` iff `c ≠ -1`. -/
def holds {σ τ : Type} (L : AbstractExecutor σ) (R : AbstractExecutor τ)
    (ix_compare : Comparator) (c : Condition) (l r : RmRecord) : Prop :=
  ∃ p lc q rc, get_col L.cols c.lhs_col = some (p, lc) ∧
    get_col R.cols c.rhs_col = some (q, rc) ∧ lc.type = rc.type ∧
    let cmp := ix_compare (l.data.drop lc.offset) (r.data.drop rc.offset) lc.type lc.len
    match c.op with
    | .OP_EQ => cmp = 0
    | .OP_NE => cmp ≠ 0
    | .OP_LT => cmp = -1
    | .OP_GT => cmp = 1
    | .OP_LE => cmp ≠ 1
    | .OP_GE => cmp ≠ -1

end NestedLoopJoinExecutor

/-- A child over a list of rows; its state is the number of rows passed. -/
def exChild (cols : List ColMeta) (tupleLen : Nat) (rows : List RmRecord) :
    AbstractExecutor Nat :=
  ⟨cols, tupleLen, fun _ => 0, fun s => s + 1, fun s => decide (rows.length ≤ s),
    fun s => rows[s]?⟩

/-- The left child of the example join: a table `l` with the column `v` of one byte. -/
def exLeft (rows : List Nat) : AbstractExecutor Nat :=
  exChild [⟨"l", "v", .TYPE_INT, 1, 0⟩] 1 (rows.map fun v => ⟨[v]⟩)

/-- The right child of the example join: a table `r` with the column `v` of one byte. -/
def exRight (rows : List Nat) : AbstractExecutor Nat :=
  exChild [⟨"r", "v", .TYPE_INT, 1, 0⟩] 1 (rows.map fun v => ⟨[v]⟩)

/-- A join condition between the columns `v` of the example children. -/
def exJoinCond (op : CompOp) : Condition :=
  ⟨⟨"l", "v"⟩, op, false, ⟨"r", "v"⟩, ⟨.TYPE_INT, []⟩⟩

/-! ## The delete and update executors (`executor_delete.h`, `executor_update.h`) -/

/-- Modelled from the spec: `SetClause`, a column and the literal to store in it (section 3). -/
structure SetClause where
  lhs : TabCol
  rhs : Value
  deriving DecidableEq

/-- Modelled from the spec: `IndexMeta`, with the fields that the executors read
(section 3). -/
structure IndexMeta where
  col_tot_len : Nat
  col_num : Nat
  cols : List ColMeta
  deriving DecidableEq

/-- Modelled from the spec: `TabMeta`, with the fields that the executors read (section 3). -/
structure TabMeta where
  cols : List ColMeta
  indexes : List IndexMeta
  deriving DecidableEq

/-- Modelled from the spec: `TabMeta::get_col(col_name)`, the first column of the table with
that name; `none` stands for `ColumnNotFoundError`. -/
def TabMeta.get_col (tab : TabMeta) (col_name : String) : Option ColMeta :=
  tab.cols.find? fun col => decide (col.name = col_name)

/-- Modelled from the spec: the kinds of a `WriteRecord` (section 3). -/
inductive WType where
  | INSERT_TUPLE
  | DELETE_TUPLE
  | UPDATE_TUPLE
  deriving DecidableEq

/-- Modelled from the spec: `WriteRecord`, `{kind, table, rid, before_image?}` (section 3);
`record_` is `none` when the constructor is called without a record. -/
structure WriteRecord where
  wtype_ : WType
  tab_name_ : String
  rid_ : Rid
  record_ : Option RmRecord
  deriving DecidableEq

/-- The calls that an executor makes of the file handle, of the index handles and of the
transaction; the key of an index call is the `col_tot_len` bytes that the index reads. -/
inductive Event where
  | get_record (rid : Rid)
  | delete_record (rid : Rid)
  | update_record (rid : Rid) (buf : List Nat)
  | delete_entry (index : Nat) (key : List Nat)
  | insert_entry (index : Nat) (key : List Nat) (rid : Rid)
  | append_write_record (w : WriteRecord)
  deriving DecidableEq

/-- Modelled from the spec: the state behind the handles of one table (section 6): the
records of the heap file by rid, each index of the table as a map from key bytes to rid
(`ihs_ j` for `tab_.indexes[j]`), the write set of the transaction, and the calls made so
far. -/
structure Db where
  fh_ : Rid → Option RmRecord
  ihs_ : Nat → List Nat → Option Rid
  write_set_ : List WriteRecord
  calls : List Event

namespace Db

/-- Modelled from the spec: `RmFileHandle::get_record`; it throws when there is no record
at `rid`. -/
def get_record (s : Db) (rid : Rid) : Except Fault (RmRecord × Db) :=
  match s.fh_ rid with
  | none => .error .raised
  | some record => .ok (record, ⟨s.fh_, s.ihs_, s.write_set_, s.calls ++ [.get_record rid]⟩)

/-- Modelled from the spec: `RmFileHandle::delete_record`; it throws when there is no record
at `rid`. -/
def delete_record (s : Db) (rid : Rid) : Except Fault Db :=
  match s.fh_ rid with
  | none => .error .raised
  | some _ =>
    .ok ⟨Function.update s.fh_ rid none, s.ihs_, s.write_set_,
      s.calls ++ [.delete_record rid]⟩

/-- Modelled from the spec: `RmFileHandle::update_record`, which stores the first
`record_size` bytes of `buf` at `rid`; it fails when there is no record at `rid` or `buf` is
shorter. -/
def update_record (s : Db) (rid : Rid) (buf : List Nat) : Except Fault Db :=
  match s.fh_ rid with
  | none => .error .raised
  | some record =>
    if buf.length < record.data.length then .error .raised
    else
      .ok ⟨Function.update s.fh_ rid (some ⟨buf.take record.data.length⟩), s.ihs_,
        s.write_set_, s.calls ++ [.update_record rid buf]⟩

/-- Modelled from the spec: `IxIndexHandle::delete_entry` on index `j`: the key is no longer
in the map. -/
def delete_entry (s : Db) (j : Nat) (key : List Nat) : Db :=
  ⟨s.fh_, Function.update s.ihs_ j (Function.update (s.ihs_ j) key none), s.write_set_,
    s.calls ++ [.delete_entry j key]⟩

/-- Modelled from the spec: `IxIndexHandle::insert_entry` on index `j`: the key is mapped to
`rid`; when `unique` is true, a key that is in the map is left as it is. -/
def insert_entry (unique : Bool) (s : Db) (j : Nat) (key : List Nat) (rid : Rid) : Db :=
  if unique && (s.ihs_ j key).isSome then
    ⟨s.fh_, s.ihs_, s.write_set_, s.calls ++ [.insert_entry j key rid]⟩
  else
    ⟨s.fh_, Function.update s.ihs_ j (Function.update (s.ihs_ j) key (some rid)),
      s.write_set_, s.calls ++ [.insert_entry j key rid]⟩

/-- Modelled from the spec: `Transaction::append_write_record`. -/
def append_write_record (s : Db) (w : WriteRecord) : Db :=
  ⟨s.fh_, s.ihs_, s.write_set_ ++ [w], s.calls ++ [.append_write_record w]⟩

end Db

/-- The members of `DeleteExecutor` that `Next` reads. -/
structure DeleteExecutor where
  tab_ : TabMeta
  rids_ : List Rid
  tab_name_ : String

namespace DeleteExecutor

/-- The first loop of `DeleteExecutor::Next` (lines 54-56). -/
def delete_loop : List Rid → Db → Except Fault Db
  | [], s => .ok s
  | rid :: rest, s =>
    match s.delete_record rid with
    | .error f => .error f
    | .ok s => delete_loop rest s

/-- The loop over the columns of an index in `DeleteExecutor::Next` (lines 64-67), with `k`
rounds to go from column `i`, on `key` and `offset`; `none` when an index is outside its
vector or `memcpy` is outside a buffer. -/
def key_loop (record : RmRecord) (index : IndexMeta) :
    Nat → Nat → List Nat → Nat → Option (List Nat)
  | 0, _, key, _ => some key
  | k + 1, i, key, offset =>
    match index.cols[i]? with
    | none => none
    | some col =>
      match memcpy key offset record.data col.offset col.len with
      | none => none
      | some key => key_loop record index k (i + 1) key (offset + col.len)

/-- The loop over the indexes in `DeleteExecutor::Next` (lines 59-69), from index `i` on;
`garbage` gives the bytes of `key` as it is allocated. -/
def index_loop (record : RmRecord) (garbage : Nat → Nat) :
    List IndexMeta → Nat → Db → Except Fault Db
  | [], _, s => .ok s
  | index :: rest, i, s =>
    let key := (List.range index.col_tot_len).map garbage
    let offset := 0
    match key_loop record index index.col_num 0 key offset with
    | none => .error .raised
    | some key => index_loop record garbage rest (i + 1) (s.delete_entry i key)

/-- The last loop of `DeleteExecutor::Next` (lines 72-75). -/
def log_loop (tab_name_ : String) : List Rid → Db → Db
  | [], s => s
  | rid :: rest, s =>
    let write_rec : WriteRecord := ⟨.DELETE_TUPLE, tab_name_, rid, none⟩
    log_loop tab_name_ rest (s.append_write_record write_rec)

/-- Source `DeleteExecutor::Next` (lines 42-78): `record_size` is that of the file header,
`garbage` gives the bytes of a buffer as it is allocated. -/
def Next (e : DeleteExecutor) (record_size : Nat) (garbage : Nat → Nat) (s : Db) :
    Except Fault Db :=
  let record : RmRecord := ⟨(List.range record_size).map garbage⟩
  match delete_loop e.rids_ s with
  | .error f => .error f
  | .ok s =>
    match index_loop record garbage e.tab_.indexes 0 s with
    | .error f => .error f
    | .ok s => .ok (log_loop e.tab_name_ e.rids_ s)

end DeleteExecutor

/-- The members of `UpdateExecutor` that `Next` reads. -/
structure UpdateExecutor where
  tab_ : TabMeta
  rids_ : List Rid
  tab_name_ : String
  set_clauses_ : List SetClause

namespace UpdateExecutor

/-- The loop over the set clauses in `UpdateExecutor::Next` (lines 60-64), on `new_data`;
`none` when `get_col` throws or `memcpy` is outside a buffer. -/
def set_loop (tab_ : TabMeta) : List SetClause → List Nat → Option (List Nat)
  | [], new_data => some new_data
  | set_clause :: rest, new_data =>
    let cur_col := set_clause.lhs.col_name
    match tab_.get_col cur_col with
    | none => none
    | some col_meta =>
      match memcpy new_data col_meta.offset set_clause.rhs.raw 0 col_meta.len with
      | none => none
      | some new_data => set_loop tab_ rest new_data

/-- The assignment `buf[i] = '\0'`; `none` when `i` is outside the buffer. -/
def set_zero (buf : List Nat) (i : Nat) : Option (List Nat) :=
  if i < buf.length then some (buf.set i 0) else none

/-- The loop over the columns of an index in `UpdateExecutor::Next` (lines 74-82), with `n`
rounds to go from column `k`, on `key`, `newkey` and `curlen`; `none` when an index is
outside its vector or a copy or an assignment is outside a buffer. -/
def key_loop (rec_data new_data : List Nat) (index_meta : IndexMeta) :
    Nat → Nat → List Nat → List Nat → Nat → Option (List Nat × List Nat)
  | 0, _, key, newkey, _ => some (key, newkey)
  | n + 1, k, key, newkey, curlen =>
    match index_meta.cols[k]? with
    | none => none
    | some col =>
      match memcpy key curlen rec_data col.offset col.len,
          memcpy newkey curlen new_data col.offset col.len with
      | some key, some newkey =>
        let curlen := curlen + col.len
        match set_zero key curlen, set_zero newkey curlen with
        | some key, some newkey =>
          key_loop rec_data new_data index_meta n (k + 1) key newkey curlen
        | _, _ => none
      | _, _ => none

/-- The loop over the indexes in `UpdateExecutor::Next` (lines 66-86), from index `j` on;
`garbage` gives the bytes of `key` and `newkey` as they are allocated; the index handles
read `col_tot_len` bytes of `key` and of `newkey`. -/
def index_loop (unique : Bool) (rec_data new_data : List Nat) (rid : Rid)
    (garbage : Nat → Nat) : List IndexMeta → Nat → Db → Except Fault Db
  | [], _, s => .ok s
  | index_meta :: rest, j, s =>
    let key := (List.range (index_meta.col_tot_len + 1)).map garbage
    let newkey := (List.range (index_meta.col_tot_len + 1)).map garbage
    match set_zero key 0, set_zero newkey 0 with
    | some key, some newkey =>
      let curlen := 0
      match key_loop rec_data new_data index_meta index_meta.col_num 0 key newkey curlen with
      | none => .error .raised
      | some (key, newkey) =>
        let s := s.delete_entry j (key.take index_meta.col_tot_len)
        let s := s.insert_entry unique j (newkey.take index_meta.col_tot_len) rid
        index_loop unique rec_data new_data rid garbage rest (j + 1) s
    | _, _ => .error .raised

/-- The body of the loop over the rids in `UpdateExecutor::Next` (lines 52-93). The copy of
`rec->size + 1` bytes at line 59 reads one byte behind the record: `beyond` gives the byte
read there. `unique` tells whether the indexes refuse a key that is present, `garbage` gives
the bytes of a buffer as it is allocated. -/
def Next_step (unique : Bool) (e : UpdateExecutor) (beyond : Rid → Nat)
    (garbage : Nat → Nat) (s : Db) (rid : Rid) : Except Fault Db :=
  match s.get_record rid with
  | .error f => .error f
  | .ok (record, s) =>
    let updated_rec : RmRecord := ⟨record.data⟩
    let new_data := record.data ++ [beyond rid]
    match set_loop e.tab_ e.set_clauses_ new_data with
    | none => .error .raised
    | some new_data =>
      match index_loop unique record.data new_data rid garbage e.tab_.indexes 0 s with
      | .error f => .error f
      | .ok s =>
        match s.update_record rid new_data with
        | .error f => .error f
        | .ok s =>
          let write_rec : WriteRecord := ⟨.UPDATE_TUPLE, e.tab_name_, rid, some updated_rec⟩
          .ok (s.append_write_record write_rec)

/-- The loop over the rids in `UpdateExecutor::Next` (lines 51-94). -/
def Next_loop (unique : Bool) (e : UpdateExecutor) (beyond : Rid → Nat)
    (garbage : Nat → Nat) : List Rid → Db → Except Fault Db
  | [], s => .ok s
  | rid :: rest, s =>
    match Next_step unique e beyond garbage s rid with
    | .error f => .error f
    | .ok s => Next_loop unique e beyond garbage rest s

/-- Source `UpdateExecutor::Next` (lines 40-97). -/
def Next (unique : Bool) (e : UpdateExecutor) (beyond : Rid → Nat) (garbage : Nat → Nat)
    (s : Db) : Except Fault Db :=
  Next_loop unique e beyond garbage e.rids_ s

end UpdateExecutor

/-- What the spec says of one set clause (section 4.9, step 2): the bytes of the column are
replaced by the first bytes of the literal, as many as the column is long. -/
def UpdateExecutor.overwrite (row : List Nat) (col : ColMeta) (raw : List Nat) : List Nat :=
  row.take col.offset ++ raw.take col.len ++ row.drop (col.offset + col.len)

/-- What the spec says is the new record (section 4.9, step 2): the record with the set
clauses applied in the order of the list. -/
def UpdateExecutor.updated (tab : TabMeta) : List SetClause → List Nat → List Nat
  | [], row => row
  | sc :: rest, row =>
    match tab.get_col sc.lhs.col_name with
    | none => UpdateExecutor.updated tab rest row
    | some col => UpdateExecutor.updated tab rest (UpdateExecutor.overwrite row col sc.rhs.raw)

/-- What the spec says is the key of a record on an index (section 3): the bytes of the
indexed columns, one column after the other. -/
def IndexMeta.key (ix : IndexMeta) (row : List Nat) : List Nat :=
  ix.cols.flatMap (ProjectionExecutor.field row)

/-- What the spec says of the indexes in the update of one rid (section 4.9, step 3): on
each index, from index `j` on, `delete_entry` of the key of the record before and then
`insert_entry` of the key of the new record. -/
def UpdateExecutor.reindex (unique : Bool) (old new : List Nat) (rid : Rid) :
    List IndexMeta → Nat → Db → Db
  | [], _, s => s
  | ix :: rest, j, s =>
    UpdateExecutor.reindex unique old new rid rest (j + 1)
      ((s.delete_entry j (ix.key old)).insert_entry unique j (ix.key new) rid)

/-- What the spec says of the update of one rid whose record is `before` (section 4.9,
steps 1 to 5): the record is fetched, the indexes are updated, the new record is stored, and
the write record with the record before is appended. The buffer that `update_record` gets
holds the new record and one more byte. -/
def UpdateExecutor.step_spec (unique : Bool) (e : UpdateExecutor) (beyond : Rid → Nat)
    (s : Db) (rid : Rid) (before : RmRecord) : Db :=
  let new := UpdateExecutor.updated e.tab_ e.set_clauses_ before.data
  let s1 : Db := ⟨s.fh_, s.ihs_, s.write_set_, s.calls ++ [.get_record rid]⟩
  let s2 := UpdateExecutor.reindex unique before.data new rid e.tab_.indexes 0 s1
  let s3 : Db := ⟨Function.update s2.fh_ rid (some ⟨new⟩), s2.ihs_, s2.write_set_,
    s2.calls ++ [.update_record rid (new ++ [beyond rid])]⟩
  s3.append_write_record ⟨.UPDATE_TUPLE, e.tab_name_, rid, some before⟩

/-- What the spec says of the update of a list of rids: one rid after the other, each with
the record that is stored at the rid when its turn comes (a rid without a record is passed
over). -/
def UpdateExecutor.run_spec (unique : Bool) (e : UpdateExecutor) (beyond : Rid → Nat) :
    List Rid → Db → Db
  | [], s => s
  | rid :: rest, s =>
    match s.fh_ rid with
    | none => UpdateExecutor.run_spec unique e beyond rest s
    | some before =>
      UpdateExecutor.run_spec unique e beyond rest
        (UpdateExecutor.step_spec unique e beyond s rid before)

/-- What the spec says are the index calls in the update of one rid (section 4.9, step 3),
from index `j` on: on each index `delete_entry` of the key of the record before, then
`insert_entry` of the key of the new record for the rid. -/
def UpdateExecutor.index_calls (old new : List Nat) (rid : Rid) :
    List IndexMeta → Nat → List Event
  | [], _ => []
  | ix :: rest, j =>
    [.delete_entry j (ix.key old), .insert_entry j (ix.key new) rid] ++
      UpdateExecutor.index_calls old new rid rest (j + 1)

/-- A set clause covers byte `p` of a record: its column is in the table and `p` is one of
the bytes of the column. -/
def SetClause.covers (tab : TabMeta) (p : Nat) (sc : SetClause) : Bool :=
  match tab.get_col sc.lhs.col_name with
  | none => false
  | some col => decide (col.offset ≤ p ∧ p < col.offset + col.len)

/-- The byte of the literal of a set clause that belongs at byte `p` of a record. -/
def SetClause.byte (tab : TabMeta) (p : Nat) (sc : SetClause) : Option Nat :=
  match tab.get_col sc.lhs.col_name with
  | none => none
  | some col => sc.rhs.raw[p - col.offset]?

/-- The table of an update fits records of `record_size` bytes: every set clause names a
column of the table that lies within the record and has a literal of at least the length of
the column; every index has `col_num` columns that lie within the record, and
`col_tot_len` is the sum of their lengths. -/
structure UpdateExecutor.Ready (e : UpdateExecutor) (record_size : Nat) : Prop where
  sets : ∀ sc ∈ e.set_clauses_, ∃ col, e.tab_.get_col sc.lhs.col_name = some col ∧
    col.offset + col.len ≤ record_size ∧ col.len ≤ sc.rhs.raw.length
  indexes : ∀ ix ∈ e.tab_.indexes, ix.col_num = ix.cols.length ∧
    (ix.cols.map fun c => c.len).sum = ix.col_tot_len ∧
    ∀ c ∈ ix.cols, c.offset + c.len ≤ record_size

/-- The example table `t` with an index on `id`. -/
def exTab : TabMeta := ⟨exCols, [⟨4, 1, [⟨"t", "id", .TYPE_INT, 4, 0⟩]⟩]⟩

/-- The index on `id` of the example table: the key of each record is mapped to its rid. -/
def exIndex (j : Nat) (key : List Nat) : Option Rid :=
  if j = 0 then
    if key = [1, 0, 0, 0] then some ⟨1, 0⟩
    else if key = [2, 0, 0, 0] then some ⟨1, 1⟩
    else if key = [3, 0, 0, 0] then some ⟨1, 2⟩
    else none
  else none

/-- The example table with its records and its index, an empty write set and no call. -/
def exDb : Db := ⟨exRecords, exIndex, [], []⟩

/-- The delete of the records with ids 1 and 2 of the example table. -/
def exDelete : DeleteExecutor := ⟨exTab, [⟨1, 0⟩, ⟨1, 1⟩], "t"⟩

/-- The update `name = "c"` of the records with ids 1 and 3 of the example table. -/
def exUpdate : UpdateExecutor :=
  ⟨exTab, [⟨1, 0⟩, ⟨1, 2⟩], "t", [⟨⟨"t", "name"⟩, ⟨.TYPE_STRING, [99]⟩⟩]⟩

/-- The result of `memcmp` on the first `len` bytes as the C library commonly computes it:
the difference of the first two bytes that differ, 0 when there is none. -/
def exMemcmpBytes : List Nat → List Nat → Nat → Int
  | a :: as, b :: bs, len + 1 =>
    if a = b then exMemcmpBytes as bs len else (a : Int) - (b : Int)
  | _, _, _ => 0

/-- An example comparator that hands on the result of `memcmp` for strings; on numbers it
is `exCompare`, the order of the values of the first four bytes. -/
def exMemcmp : Comparator := fun a b type len =>
  match type with
  | .TYPE_STRING => exMemcmpBytes a b len
  | _ => exCompare a b type len

/-- The condition `name op lit` on the example table, with a literal of one byte. -/
def exCondName (op : CompOp) (lit : Nat) : Condition :=
  ⟨⟨"t", "name"⟩, op, true, ⟨"", ""⟩, ⟨.TYPE_STRING, [lit]⟩⟩

/-- A child of the example string join: the table `tab` with the column `s` of one byte. -/
def exStrings (tab : String) (rows : List Nat) : AbstractExecutor Nat :=
  exChild [⟨tab, "s", .TYPE_STRING, 1, 0⟩] 1 (rows.map fun v => ⟨[v]⟩)

/-- A join condition between the columns `s` of the tables `l` and `r`. -/
def exStringsCond (op : CompOp) : Condition :=
  ⟨⟨"l", "s"⟩, op, false, ⟨"r", "s"⟩, ⟨.TYPE_STRING, []⟩⟩

/-! ## The parts of a call -/

@[simp] theorem txn_shared_on_record (t : Nat) (rid : Rid) (fd : Int) :
    (LockCall.shared_on_record t rid fd).txn = t := rfl

@[simp] theorem key_shared_on_record (t : Nat) (rid : Rid) (fd : Int) :
    (LockCall.shared_on_record t rid fd).key = LockDataId.record fd rid := rfl

@[simp] theorem mode_shared_on_record (t : Nat) (rid : Rid) (fd : Int) :
    (LockCall.shared_on_record t rid fd).mode = .SHARED := rfl

@[simp] theorem isSX_shared_on_record (t : Nat) (rid : Rid) (fd : Int) :
    (LockCall.shared_on_record t rid fd).isSX = true := rfl

@[simp] theorem txn_exclusive_on_record (t : Nat) (rid : Rid) (fd : Int) :
    (LockCall.exclusive_on_record t rid fd).txn = t := rfl

@[simp] theorem key_exclusive_on_record (t : Nat) (rid : Rid) (fd : Int) :
    (LockCall.exclusive_on_record t rid fd).key = LockDataId.record fd rid := rfl

@[simp] theorem mode_exclusive_on_record (t : Nat) (rid : Rid) (fd : Int) :
    (LockCall.exclusive_on_record t rid fd).mode = .EXLUCSIVE := rfl

@[simp] theorem isSX_exclusive_on_record (t : Nat) (rid : Rid) (fd : Int) :
    (LockCall.exclusive_on_record t rid fd).isSX = true := rfl

@[simp] theorem txn_shared_on_table (t : Nat) (fd : Int) :
    (LockCall.shared_on_table t fd).txn = t := rfl

@[simp] theorem key_shared_on_table (t : Nat) (fd : Int) :
    (LockCall.shared_on_table t fd).key = LockDataId.table fd := rfl

@[simp] theorem mode_shared_on_table (t : Nat) (fd : Int) :
    (LockCall.shared_on_table t fd).mode = .SHARED := rfl

@[simp] theorem isSX_shared_on_table (t : Nat) (fd : Int) :
    (LockCall.shared_on_table t fd).isSX = true := rfl

@[simp] theorem txn_exclusive_on_table (t : Nat) (fd : Int) :
    (LockCall.exclusive_on_table t fd).txn = t := rfl

@[simp] theorem key_exclusive_on_table (t : Nat) (fd : Int) :
    (LockCall.exclusive_on_table t fd).key = LockDataId.table fd := rfl

@[simp] theorem mode_exclusive_on_table (t : Nat) (fd : Int) :
    (LockCall.exclusive_on_table t fd).mode = .EXLUCSIVE := rfl

@[simp] theorem isSX_exclusive_on_table (t : Nat) (fd : Int) :
    (LockCall.exclusive_on_table t fd).isSX = true := rfl

@[simp] theorem txn_IS_on_table (t : Nat) (fd : Int) :
    (LockCall.IS_on_table t fd).txn = t := rfl

@[simp] theorem key_IS_on_table (t : Nat) (fd : Int) :
    (LockCall.IS_on_table t fd).key = LockDataId.table fd := rfl

@[simp] theorem mode_IS_on_table (t : Nat) (fd : Int) :
    (LockCall.IS_on_table t fd).mode = .INTENTION_SHARED := rfl

@[simp] theorem isSX_IS_on_table (t : Nat) (fd : Int) :
    (LockCall.IS_on_table t fd).isSX = false := rfl

@[simp] theorem txn_IX_on_table (t : Nat) (fd : Int) :
    (LockCall.IX_on_table t fd).txn = t := rfl

@[simp] theorem key_IX_on_table (t : Nat) (fd : Int) :
    (LockCall.IX_on_table t fd).key = LockDataId.table fd := rfl

@[simp] theorem mode_IX_on_table (t : Nat) (fd : Int) :
    (LockCall.IX_on_table t fd).mode = .INTENTION_EXCLUSIVE := rfl

@[simp] theorem isSX_IX_on_table (t : Nat) (fd : Int) :
    (LockCall.IX_on_table t fd).isSX = false := rfl

/-! ## Lemmas on the lattice -/

theorem join_comm (a b : GroupLockMode) : a.join b = b.join a := by
  cases a <;> cases b <;> rfl

theorem join_assoc (a b c : GroupLockMode) : (a.join b).join c = a.join (b.join c) := by
  cases a <;> cases b <;> cases c <;> rfl

theorem join_idem (a : GroupLockMode) : a.join a = a := by
  cases a <;> rfl

theorem join_non_lock (a : GroupLockMode) : a.join .NON_LOCK = a := by
  cases a <;> rfl

theorem le_refl_mode (a : GroupLockMode) : a.le a = true := by
  cases a <;> rfl

theorem le_trans_mode {a b c : GroupLockMode} (h1 : a.le b = true) (h2 : b.le c = true) :
    a.le c = true := by
  cases a <;> cases b <;> cases c <;> first | rfl | exact h1 | exact h2

theorem le_antisymm_mode {a b : GroupLockMode} (h1 : a.le b = true) (h2 : b.le a = true) :
    a = b := by
  cases a <;> cases b <;> first | rfl | exact absurd h1 (by decide) | exact absurd h2 (by decide)

theorem le_join_left (a b : GroupLockMode) : a.le (a.join b) = true := by
  cases a <;> cases b <;> rfl

theorem le_join_right (a b : GroupLockMode) : b.le (a.join b) = true := by
  cases a <;> cases b <;> rfl

theorem join_le {a b c : GroupLockMode} (h1 : a.le c = true) (h2 : b.le c = true) :
    (a.join b).le c = true := by
  cases a <;> cases b <;> cases c <;> first | rfl | exact h1 | exact h2

theorem join_eq_right_of_le {a b : GroupLockMode} (h : a.le b = true) : a.join b = b := by
  cases a <;> cases b <;> first | rfl | exact absurd h (by decide)

theorem toGroup_join (a b : LockMode) : (a.join b).toGroup = a.toGroup.join b.toGroup := by
  cases a <;> cases b <;> rfl

theorem toGroup_injective {a b : LockMode} (h : a.toGroup = b.toGroup) : a = b := by
  cases a <;> cases b <;> first | rfl | exact absurd h (by decide)

theorem compatible_symm (a b : LockMode) : compatible a b = compatible b a := by
  cases a <;> cases b <;> rfl

theorem coexist_symm (a b : LockMode) : coexist a b = coexist b a := by
  cases a <;> cases b <;> rfl

theorem coexist_compatible {a b : LockMode} (h : coexist a b = true) : compatible a b = true := by
  cases a <;> cases b <;> first | rfl | exact absurd h (by decide)

/-! ## Lemmas on loops and on queues -/

theorem forQueue_ok {σ : Type} (body : Nat → LockRequest → σ → Except Outcome σ)
    (P : List LockRequest → σ → Prop)
    (hstep : ∀ pre it v v', P pre v → body pre.length it v = .ok v' → P (pre ++ [it]) v') :
    ∀ (rest pre : List LockRequest) (a a' : σ), P pre a →
      forQueue body rest pre.length a = .ok a' → P (pre ++ rest) a' := by
  intro rest
  induction rest with
  | nil =>
    intro pre a a' hP h
    simp only [forQueue, Except.ok.injEq] at h
    subst h
    simpa using hP
  | cons it rest ih =>
    intro pre a a' hP h
    unfold forQueue at h
    cases hb : body pre.length it a with
    | error o => rw [hb] at h; cases h
    | ok v =>
      rw [hb] at h
      have h2 := ih (pre ++ [it]) v a' (hstep pre it a v hP hb) (by simpa using h)
      simpa using h2

theorem forQueue_error {σ : Type} (body : Nat → LockRequest → σ → Except Outcome σ) :
    ∀ (rest : List LockRequest) (i : Nat) (a : σ) (o : Outcome),
      forQueue body rest i a = .error o → ∃ it ∈ rest, ∃ j v, body j it v = .error o := by
  intro rest
  induction rest with
  | nil => intro i a o h; simp [forQueue] at h
  | cons it rest ih =>
    intro i a o h
    unfold forQueue at h
    cases hb : body i it a with
    | error o2 =>
      rw [hb] at h
      simp only [Except.error.injEq] at h
      subst h
      exact ⟨it, List.mem_cons_self _ _, i, a, hb⟩
    | ok v =>
      rw [hb] at h
      obtain ⟨x, hx, j, w, hj⟩ := ih (i + 1) v o h
      exact ⟨x, List.mem_cons_of_mem _ hx, j, w, hj⟩

theorem setModeAt_map_txn (q : List LockRequest) (j : Nat) (m : LockMode) :
    (setModeAt q j m).map (fun r => r.txn_id_) = q.map (fun r => r.txn_id_) := by
  induction q generalizing j with
  | nil => rfl
  | cons r rs ih =>
    cases j with
    | zero => rfl
    | succ j => simp [setModeAt, ih]

theorem setModeAt_length (q : List LockRequest) (j : Nat) (m : LockMode) :
    (setModeAt q j m).length = q.length := by
  induction q generalizing j with
  | nil => rfl
  | cons r rs ih =>
    cases j with
    | zero => rfl
    | succ j => simp [setModeAt, ih]

/-- A request of the queue after `it->lock_mode_ = m` is a request of the queue before,
or the request the iterator pointed to, with the new mode. -/
theorem mem_setModeAt {q : List LockRequest} {j : Nat} {m : LockMode} {a : LockRequest}
    (h : a ∈ setModeAt q j m) :
    a ∈ q ∨ ∃ r0, q[j]? = some r0 ∧ a = { r0 with lock_mode_ := m } := by
  induction q generalizing j with
  | nil => simp [setModeAt] at h
  | cons r rs ih =>
    cases j with
    | zero =>
      simp only [setModeAt, List.mem_cons] at h
      rcases h with h | h
      · exact Or.inr ⟨r, by simp, h⟩
      · exact Or.inl (List.mem_cons_of_mem _ h)
    | succ j =>
      simp only [setModeAt, List.mem_cons] at h
      rcases h with h | h
      · exact Or.inl (by simp [h])
      · rcases ih h with h2 | ⟨r0, h2, h3⟩
        · exact Or.inl (List.mem_cons_of_mem _ h2)
        · exact Or.inr ⟨r0, by simpa using h2, h3⟩

theorem mem_setModeAt_new {q : List LockRequest} {j : Nat} {m : LockMode} {r0 : LockRequest}
    (h : q[j]? = some r0) : { r0 with lock_mode_ := m } ∈ setModeAt q j m := by
  induction q generalizing j with
  | nil => simp at h
  | cons r rs ih =>
    cases j with
    | zero =>
      simp only [List.getElem?_cons_zero, Option.some.injEq] at h
      subst h
      simp [setModeAt]
    | succ j =>
      simp only [List.getElem?_cons_succ] at h
      simp only [setModeAt, List.mem_cons]
      exact Or.inr (ih h)

theorem mem_setModeAt_old {q : List LockRequest} {j : Nat} {m : LockMode} {r0 a : LockRequest}
    (h : q[j]? = some r0) (ha : a ∈ q) (hne : a.txn_id_ ≠ r0.txn_id_) :
    a ∈ setModeAt q j m := by
  induction q generalizing j with
  | nil => simp at ha
  | cons r rs ih =>
    cases j with
    | zero =>
      simp only [List.getElem?_cons_zero, Option.some.injEq] at h
      subst h
      simp only [setModeAt, List.mem_cons]
      rcases List.mem_cons.mp ha with h1 | h1
      · subst h1; exact absurd rfl hne
      · exact Or.inr h1
    | succ j =>
      simp only [List.getElem?_cons_succ] at h
      simp only [setModeAt, List.mem_cons]
      rcases List.mem_cons.mp ha with h1 | h1
      · exact Or.inl h1
      · exact Or.inr (ih h h1)

/-! ## Lemmas on states -/

@[simp] theorem queue_set_state (s : State) (t : Nat) (st : TransactionState) (k : LockDataId) :
    (s.set_state t st).queue k = s.queue k := rfl

@[simp] theorem group_set_state (s : State) (t : Nat) (st : TransactionState) (k : LockDataId) :
    (s.set_state t st).group k = s.group k := rfl

@[simp] theorem lock_table_set_state (s : State) (t : Nat) (st : TransactionState) :
    (s.set_state t st).lock_table_ = s.lock_table_ := rfl

@[simp] theorem get_lock_set_set_state (s : State) (t : Nat) (st : TransactionState) (u : Nat) :
    (s.set_state t st).get_lock_set u = s.get_lock_set u := by
  by_cases h : u = t
  · subst h; simp [State.set_state, State.get_lock_set]
  · simp [State.set_state, State.get_lock_set, Function.update_noteq h]

theorem get_state_set_state (s : State) (t : Nat) (st : TransactionState) (u : Nat) :
    (s.set_state t st).get_state u = if u = t then st else s.get_state u := by
  by_cases h : u = t
  · subst h; simp [State.set_state, State.get_state]
  · simp [State.set_state, State.get_state, Function.update_noteq h, h]

@[simp] theorem get_state_set_state_self (s : State) (t : Nat) (st : TransactionState) :
    (s.set_state t st).get_state t = st := by
  simp [get_state_set_state]

theorem queue_put (s : State) (k : LockDataId) (q : List LockRequest) (g : GroupLockMode)
    (t : Nat) (tx : Transaction) (k2 : LockDataId) :
    (s.put k q g t tx).queue k2 = if k2 = k then q else s.queue k2 := by
  by_cases h : k2 = k
  · subst h; simp [State.put, State.queue]
  · simp [State.put, State.queue, Function.update_noteq h, h]

theorem group_put (s : State) (k : LockDataId) (q : List LockRequest) (g : GroupLockMode)
    (t : Nat) (tx : Transaction) (k2 : LockDataId) :
    (s.put k q g t tx).group k2 = if k2 = k then g else s.group k2 := by
  by_cases h : k2 = k
  · subst h; simp [State.put, State.group]
  · simp [State.put, State.group, Function.update_noteq h, h]

theorem get_lock_set_put (s : State) (k : LockDataId) (q : List LockRequest) (g : GroupLockMode)
    (t : Nat) (tx : Transaction) (u : Nat) :
    (s.put k q g t tx).get_lock_set u = if u = t then tx.lock_set_ else s.get_lock_set u := by
  by_cases h : u = t
  · subst h; simp [State.put, State.get_lock_set]
  · simp [State.put, State.get_lock_set, Function.update_noteq h, h]

theorem get_state_put (s : State) (k : LockDataId) (q : List LockRequest) (g : GroupLockMode)
    (t : Nat) (tx : Transaction) (u : Nat) :
    (s.put k q g t tx).get_state u = if u = t then tx.state_ else s.get_state u := by
  by_cases h : u = t
  · subst h; simp [State.put, State.get_state]
  · simp [State.put, State.get_state, Function.update_noteq h, h]

/-- The state after a grant of a new request: the four assignments of step 4 of a lock
operation, the last one being `group_lock_mode_ = g`. -/
theorem push_set_group_eq (s : State) (t : Nat) (k : LockDataId) (r : LockRequest)
    (g : GroupLockMode) :
    ((((s.set_state t .GROWING).lock_set_insert t k).push_back k r).set_group k g) =
      s.put k (s.queue k ++ [r]) g t ⟨.GROWING, (s.get_lock_set t).insert k⟩ := by
  simp [State.set_state, State.lock_set_insert, State.push_back, State.set_queue,
    State.set_group, State.put, State.queue, State.get_lock_set]

/-- The state after a grant of a new request when the group mode is left as it is. -/
theorem push_eq (s : State) (t : Nat) (k : LockDataId) (r : LockRequest) :
    (((s.set_state t .GROWING).lock_set_insert t k).push_back k r) =
      s.put k (s.queue k ++ [r]) (s.group k) t ⟨.GROWING, (s.get_lock_set t).insert k⟩ := by
  simp [State.set_state, State.lock_set_insert, State.push_back, State.set_queue,
    State.put, State.queue, State.get_lock_set, State.group]

/-- The state after an upgrade followed by `group_lock_mode_ = g`. -/
theorem upgrade_set_group_eq (s : State) (t : Nat) (k : LockDataId) (q : List LockRequest)
    (g : GroupLockMode) :
    (((s.set_state t .GROWING).set_queue k q).set_group k g) =
      s.put k q g t ⟨.GROWING, s.get_lock_set t⟩ := by
  simp [State.set_state, State.set_queue, State.set_group, State.put, State.get_lock_set]

/-- The state after an upgrade when the group mode is left as it is. -/
theorem upgrade_eq (s : State) (t : Nat) (k : LockDataId) (q : List LockRequest) :
    ((s.set_state t .GROWING).set_queue k q) =
      s.put k q (s.group k) t ⟨.GROWING, s.get_lock_set t⟩ := by
  simp [State.set_state, State.set_queue, State.put, State.get_lock_set, State.group]

@[simp] theorem group_push_back (s : State) (k : LockDataId) (r : LockRequest) :
    (s.push_back k r).group k = s.group k := by
  simp [State.push_back, State.set_queue, State.group]

@[simp] theorem group_set_queue (s : State) (k : LockDataId) (q : List LockRequest) :
    (s.set_queue k q).group k = s.group k := by
  simp [State.set_queue, State.group]

@[simp] theorem group_lock_set_insert (s : State) (t : Nat) (k k2 : LockDataId) :
    (s.lock_set_insert t k).group k2 = s.group k2 := rfl

@[simp] theorem queue_lock_set_insert (s : State) (t : Nat) (k k2 : LockDataId) :
    (s.lock_set_insert t k).queue k2 = s.queue k2 := rfl

/-! ## Lemmas on the join of a queue -/

/-- The fold that `groupJoin` starts at `NON_LOCK`, started at `g`. -/
theorem foldl_join_start (q : List LockRequest) (g : GroupLockMode) :
    q.foldl (fun g it => if it.granted_ then g.join it.lock_mode_.toGroup else g) g =
      g.join (groupJoin q) := by
  unfold groupJoin
  induction q using List.reverseRecOn with
  | nil => simp [join_non_lock]
  | append_singleton q a ih =>
    simp only [List.foldl_append, List.foldl_cons, List.foldl_nil]
    by_cases hg : a.granted_ = true
    · simp only [hg, if_true]
      rw [ih, join_assoc]
    · simp only [hg]
      exact ih

theorem groupJoin_nil : groupJoin [] = .NON_LOCK := rfl

theorem groupJoin_append_granted (q : List LockRequest) (a : LockRequest)
    (ha : a.granted_ = true) : groupJoin (q ++ [a]) = (groupJoin q).join a.lock_mode_.toGroup := by
  simp [groupJoin, List.foldl_append, ha]

theorem groupJoin_cons (a : LockRequest) (q : List LockRequest) :
    groupJoin (a :: q) =
      (if a.granted_ then a.lock_mode_.toGroup else .NON_LOCK).join (groupJoin q) := by
  have h := foldl_join_start q (if a.granted_ then a.lock_mode_.toGroup else .NON_LOCK)
  rw [← h]
  unfold groupJoin
  simp only [List.foldl_cons]
  by_cases hg : a.granted_ = true
  · simp [hg, GroupLockMode.join]
  · simp [hg]

theorem groupJoin_setModeAt {q : List LockRequest} {j : Nat} {m : LockMode} {r0 : LockRequest}
    (h : q[j]? = some r0) (hg : r0.granted_ = true)
    (hle : r0.lock_mode_.toGroup.le m.toGroup = true) :
    groupJoin (setModeAt q j m) = (groupJoin q).join m.toGroup := by
  induction q generalizing j with
  | nil => simp at h
  | cons r rs ih =>
    cases j with
    | zero =>
      simp only [List.getElem?_cons_zero, Option.some.injEq] at h
      subst h
      simp only [setModeAt, groupJoin_cons, hg, if_true]
      rw [join_comm (r.lock_mode_.toGroup.join (groupJoin rs)) m.toGroup, ← join_assoc,
        join_comm m.toGroup r.lock_mode_.toGroup, join_eq_right_of_le hle]
    | succ j =>
      simp only [List.getElem?_cons_succ] at h
      simp only [setModeAt, groupJoin_cons, ih h, join_assoc]

theorem groupJoin_isLub (q : List LockRequest) : IsGroupLub (groupJoin q) q := by
  induction q with
  | nil =>
    refine ⟨by simp, ?_⟩
    intro u _
    rfl
  | cons a q ih =>
    rw [groupJoin_cons]
    refine ⟨?_, ?_⟩
    · intro it hit hgr
      rcases List.mem_cons.mp hit with h | h
      · subst h
        simp only [hgr, if_true]
        exact le_join_left _ _
      · exact le_trans_mode (ih.1 it h hgr) (le_join_right _ _)
    · intro u hu
      apply join_le
      · by_cases hg : a.granted_ = true
        · simp only [hg, if_true]
          exact hu a (List.mem_cons_self _ _) hg
        · simp [hg, GroupLockMode.le]
      · exact ih.2 u (fun it hit hgr => hu it (List.mem_cons_of_mem _ hit) hgr)

/-- The least upper bound is unique. -/
theorem isGroupLub_unique {g h : GroupLockMode} {q : List LockRequest}
    (hg : IsGroupLub g q) (hh : IsGroupLub h q) : g = h :=
  le_antisymm_mode (hg.2 h hh.1) (hh.2 g hg.1)

/-- The join of a queue lies in every set of group modes that holds `NON_LOCK` and the
modes of the queue and is closed under joins. -/
theorem groupJoin_closed (P : GroupLockMode → Prop) (h0 : P .NON_LOCK)
    (hj : ∀ a b, P a → P b → P (a.join b)) (q : List LockRequest)
    (hq : ∀ it ∈ q, P it.lock_mode_.toGroup) : P (groupJoin q) := by
  induction q with
  | nil => exact h0
  | cons a q ih =>
    rw [groupJoin_cons]
    apply hj
    · by_cases hg : a.granted_ = true
      · simp only [hg, if_true]
        exact hq a (List.mem_cons_self _ _)
      · simpa [hg] using h0
    · exact ih (fun it hit => hq it (List.mem_cons_of_mem _ hit))

/-- One round of the second loop of `unlock` joins the mode of a granted request. -/
theorem unlock_mode_step_eq (g : GroupLockMode) (it : LockRequest) :
    unlock_mode_step g it = if it.granted_ then g.join it.lock_mode_.toGroup else g := by
  unfold unlock_mode_step
  by_cases hg : it.granted_ = true
  · simp only [hg, if_true]
    cases hm : it.lock_mode_ <;> cases g <;> rfl
  · simp [hg]

theorem unlock_fold_eq (q : List LockRequest) :
    q.foldl unlock_mode_step .NON_LOCK = groupJoin q := by
  unfold groupJoin
  congr 1
  funext g it
  exact unlock_mode_step_eq g it

/-! ## What each lock operation does -/

theorem getElem?_append_of_some {pre : List LockRequest} {i : Nat} {a : LockRequest}
    (h : pre[i]? = some a) (l : List LockRequest) : (pre ++ l)[i]? = some a := by
  have hi : i < pre.length := by
    by_contra hc
    rw [List.getElem?_eq_none (by omega)] at h
    cases h
  rw [List.getElem?_append_left hi, h]

theorem getElem?_concat_self (pre : List LockRequest) (a : LockRequest) :
    (pre ++ [a])[pre.length]? = some a := by
  simp

/-- A queue with one request per transaction: two requests of one transaction are the
same request. -/
theorem eq_of_txn_eq {q : List LockRequest} (hnd : (q.map (fun r => r.txn_id_)).Nodup)
    {a b : LockRequest} (ha : a ∈ q) (hb : b ∈ q) (h : a.txn_id_ = b.txn_id_) : a = b :=
  List.inj_on_of_nodup_map hnd ha hb h

/-- The group mode of a queue lies in every set that holds `NON_LOCK` and the modes of
the queue and is closed under joins. -/
theorem Inv.group_closed {s : State} (hI : Inv s) (k : LockDataId) (P : GroupLockMode → Prop)
    (h0 : P .NON_LOCK) (hj : ∀ a b, P a → P b → P (a.join b))
    (hq : ∀ it ∈ s.queue k, P it.lock_mode_.toGroup) : P (s.group k) := by
  rw [hI.group]
  exact groupJoin_closed P h0 hj _ hq

theorem table_key_ne_record (fd : Int) : (LockDataId.table fd).type_ = .RECORD → False := by
  intro h
  cases h

theorem is_table_ok {t : Nat} {q : List LockRequest} {v : Bool}
    (h : forQueue (is_table_body t) q 0 false = .ok v) :
    (∀ b ∈ q, ¬ (b.txn_id_ ≠ t ∧ b.lock_mode_ = .EXLUCSIVE)) ∧ (v = false → q = []) := by
  have := forQueue_ok (is_table_body t)
    (fun pre v => (∀ b ∈ pre, ¬ (b.txn_id_ ≠ t ∧ b.lock_mode_ = .EXLUCSIVE)) ∧ (v = false → pre = []))
    (by
      intro pre it v v' hP hb
      unfold is_table_body at hb
      split at hb
      · cases hb
      · simp only [Except.ok.injEq] at hb
        subst hb
        refine ⟨?_, by simp⟩
        intro b hb2
        rcases List.mem_append.mp hb2 with h1 | h1
        · exact hP.1 b h1
        · simp only [List.mem_singleton] at h1
          subst h1
          assumption)
    q [] false v (by simp) (by simpa using h)
  simpa using this

theorem is_table_error {t : Nat} {q : List LockRequest} {o : Outcome} {i : Nat} {a : Bool}
    (h : forQueue (is_table_body t) q i a = .error o) :
    o = .raise .DEADLOCK_PREVENTION ∧ ∃ b ∈ q, b.txn_id_ ≠ t ∧ b.lock_mode_ = .EXLUCSIVE := by
  obtain ⟨it, hit, j, v, hb⟩ := forQueue_error _ _ _ _ _ h
  unfold is_table_body at hb
  split at hb
  · simp only [Except.error.injEq] at hb
    exact ⟨hb.symm, it, hit, by assumption⟩
  · cases hb

theorem effect_IS_on_table {s : State} (hI : Inv s) (t : Nat) (fd : Int) :
    Effect s (.IS_on_table t fd) (lock_IS_on_table s t fd) := by
  by_cases h1 : s.get_state t = .SHRINKING
  · simp only [lock_IS_on_table, h1, if_true]
    exact Effect.shrinking h1
  by_cases h2 : s.get_state t = .ABORTED ∨ s.get_state t = .COMMITTED
  · simp only [lock_IS_on_table, h1, h2, if_true, if_false]
    exact Effect.terminal h2
  have hv : s.mayLock t := ⟨h1, fun h => h2 (Or.inl h), fun h => h2 (Or.inr h)⟩
  simp only [lock_IS_on_table, h1, h2, if_false, queue_set_state]
  rcases hres : forQueue (is_table_body t) (s.queue (LockDataId.table fd)) 0 false with o | v
  · obtain ⟨rfl, b, hb, hbt, hbm⟩ := is_table_error hres
    exact Effect.conflict b hv hb hbt (by simp [hbm, compatible])
  · obtain ⟨hno, hemp⟩ := is_table_ok hres
    by_cases h3 : v = true
    · simp only [h3, if_true]
      refine Effect.noop hv ?_ ?_ ?_
      · intro b hb hbt
        have := hno b hb
        simp only [LockCall.mode, LockCall.txn] at *
        cases hm : b.lock_mode_ <;> simp_all [compatible]
      · intro a _ _
        simp only [LockCall.mode]
        cases a.lock_mode_ <;> rfl
      · intro h; simp at h
    · have hq : s.queue (LockDataId.table fd) = [] := hemp (by simpa using h3)
      have hg : s.group (LockDataId.table fd) = .NON_LOCK := by
        rw [hI.group, hq]; rfl
      simp only [h3, if_false, group_push_back, group_lock_set_insert, group_set_state, hg]
      have := Effect.push (s := s) (c := .IS_on_table t fd) hv
        (by simp [hq]) (by simp [hq])
      simpa [hg, GroupLockMode.toNat,
        push_set_group_eq, GroupLockMode.join, LockMode.toGroup] using this


theorem ix_table_ok {t : Nat} {q : List LockRequest} {v : IXTableVars}
    (h : forQueue (ix_table_body t) q 0 ⟨false, 0, false, 0, false⟩ = .ok v) :
    (∀ b ∈ q, b.txn_id_ ≠ t →
      b.lock_mode_ ≠ .SHARED ∧ b.lock_mode_ ≠ .EXLUCSIVE ∧ b.lock_mode_ ≠ .S_IX) ∧
    (v.have_stronger = false →
      ∀ a ∈ q, a.lock_mode_ = .SHARED ∨ a.lock_mode_ = .INTENTION_SHARED) ∧
    (v.have_stronger = true →
      ∃ a ∈ q, a.lock_mode_ ≠ .SHARED ∧ a.lock_mode_ ≠ .INTENTION_SHARED) ∧
    (v.s_found = true → ∃ a, q[v.s_it]? = some a ∧ a.lock_mode_ = .SHARED) ∧
    (v.s_found = false → ∀ a ∈ q, a.lock_mode_ ≠ .SHARED) ∧
    (v.is_found = true → ∃ a, q[v.is_it]? = some a ∧ a.lock_mode_ = .INTENTION_SHARED) ∧
    (v.is_found = false → ∀ a ∈ q, a.lock_mode_ ≠ .INTENTION_SHARED) := by
  have := forQueue_ok (ix_table_body t)
    (fun pre v =>
      (∀ b ∈ pre, b.txn_id_ ≠ t →
        b.lock_mode_ ≠ .SHARED ∧ b.lock_mode_ ≠ .EXLUCSIVE ∧ b.lock_mode_ ≠ .S_IX) ∧
      (v.have_stronger = false →
        ∀ a ∈ pre, a.lock_mode_ = .SHARED ∨ a.lock_mode_ = .INTENTION_SHARED) ∧
      (v.have_stronger = true →
        ∃ a ∈ pre, a.lock_mode_ ≠ .SHARED ∧ a.lock_mode_ ≠ .INTENTION_SHARED) ∧
      (v.s_found = true → ∃ a, pre[v.s_it]? = some a ∧ a.lock_mode_ = .SHARED) ∧
      (v.s_found = false → ∀ a ∈ pre, a.lock_mode_ ≠ .SHARED) ∧
      (v.is_found = true → ∃ a, pre[v.is_it]? = some a ∧ a.lock_mode_ = .INTENTION_SHARED) ∧
      (v.is_found = false → ∀ a ∈ pre, a.lock_mode_ ≠ .INTENTION_SHARED))
    (by
      intro pre it v v' hP hb
      obtain ⟨hA, hB, hB2, hC, hC2, hD, hD2⟩ := hP
      unfold ix_table_body at hb
      split at hb
      · cases hb
      · rename_i hno
        have hA2 : ∀ b ∈ pre ++ [it], b.txn_id_ ≠ t →
            b.lock_mode_ ≠ .SHARED ∧ b.lock_mode_ ≠ .EXLUCSIVE ∧ b.lock_mode_ ≠ .S_IX := by
          intro b hb2 hbt
          rcases List.mem_append.mp hb2 with h1 | h1
          · exact hA b h1 hbt
          · simp only [List.mem_singleton] at h1
            subst h1
            simp only [not_and, not_or] at hno
            exact hno hbt
        split at hb
        · rename_i hm
          simp only [Except.ok.injEq] at hb
          subst hb
          refine ⟨hA2, ?_, ?_, ?_, ?_, ?_, ?_⟩
          · intro h a ha
            rcases List.mem_append.mp ha with h1 | h1
            · exact hB h a h1
            · simp only [List.mem_singleton] at h1
              subst h1
              exact Or.inl hm
          · intro h
            obtain ⟨a, ha, hh⟩ := hB2 h
            exact ⟨a, List.mem_append_left _ ha, hh⟩
          · intro _
            exact ⟨it, getElem?_concat_self pre it, hm⟩
          · intro h
            simp at h
          · intro h
            obtain ⟨a, ha, hh⟩ := hD h
            exact ⟨a, getElem?_append_of_some ha _, hh⟩
          · intro h a ha
            rcases List.mem_append.mp ha with h1 | h1
            · exact hD2 h a h1
            · simp only [List.mem_singleton] at h1
              subst h1
              simp [hm]
        · rename_i hm
          split at hb
          · rename_i hm2
            simp only [Except.ok.injEq] at hb
            subst hb
            refine ⟨hA2, ?_, ?_, ?_, ?_, ?_, ?_⟩
            · intro h a ha
              rcases List.mem_append.mp ha with h1 | h1
              · exact hB h a h1
              · simp only [List.mem_singleton] at h1
                subst h1
                exact Or.inr hm2
            · intro h
              obtain ⟨a, ha, hh⟩ := hB2 h
              exact ⟨a, List.mem_append_left _ ha, hh⟩
            · intro h
              obtain ⟨a, ha, hh⟩ := hC h
              exact ⟨a, getElem?_append_of_some ha _, hh⟩
            · intro h a ha
              rcases List.mem_append.mp ha with h1 | h1
              · exact hC2 h a h1
              · simp only [List.mem_singleton] at h1
                subst h1
                exact hm
            · intro _
              exact ⟨it, getElem?_concat_self pre it, hm2⟩
            · intro h
              simp at h
          · rename_i hm2
            simp only [Except.ok.injEq] at hb
            subst hb
            refine ⟨hA2, ?_, ?_, ?_, ?_, ?_, ?_⟩
            · intro h
              simp at h
            · intro _
              exact ⟨it, by simp, hm, hm2⟩
            · intro h
              obtain ⟨a, ha, hh⟩ := hC h
              exact ⟨a, getElem?_append_of_some ha _, hh⟩
            · intro h a ha
              rcases List.mem_append.mp ha with h1 | h1
              · exact hC2 h a h1
              · simp only [List.mem_singleton] at h1
                subst h1
                exact hm
            · intro h
              obtain ⟨a, ha, hh⟩ := hD h
              exact ⟨a, getElem?_append_of_some ha _, hh⟩
            · intro h a ha
              rcases List.mem_append.mp ha with h1 | h1
              · exact hD2 h a h1
              · simp only [List.mem_singleton] at h1
                subst h1
                exact hm2)
    q [] ⟨false, 0, false, 0, false⟩ v (by simp) (by simpa using h)
  simpa using this

theorem ix_table_error {t : Nat} {q : List LockRequest} {o : Outcome} {i : Nat}
    {a : IXTableVars} (h : forQueue (ix_table_body t) q i a = .error o) :
    o = .raise .DEADLOCK_PREVENTION ∧ ∃ b ∈ q, b.txn_id_ ≠ t ∧
      (b.lock_mode_ = .SHARED ∨ b.lock_mode_ = .EXLUCSIVE ∨ b.lock_mode_ = .S_IX) := by
  obtain ⟨it, hit, j, v, hb⟩ := forQueue_error _ _ _ _ _ h
  unfold ix_table_body at hb
  split at hb
  · rename_i hc
    simp only [Except.error.injEq] at hb
    exact ⟨hb.symm, it, hit, hc⟩
  · split at hb
    · cases hb
    · split at hb <;> cases hb

theorem set_group_put (s : State) (k : LockDataId) (q : List LockRequest) (g g2 : GroupLockMode)
    (t : Nat) (tx : Transaction) :
    (s.put k q g t tx).set_group k g2 = s.put k q g2 t tx := by
  simp [State.put, State.set_group]

theorem effect_IX_on_table {s : State} (hI : Inv s) (t : Nat) (fd : Int) :
    Effect s (.IX_on_table t fd) (lock_IX_on_table s t fd) := by
  by_cases h1 : s.get_state t = .SHRINKING
  · simp only [lock_IX_on_table, h1, if_true]
    exact Effect.shrinking h1
  by_cases h2 : s.get_state t = .ABORTED ∨ s.get_state t = .COMMITTED
  · simp only [lock_IX_on_table, h1, h2, if_true, if_false]
    exact Effect.terminal h2
  have hv : s.mayLock t := ⟨h1, fun h => h2 (Or.inl h), fun h => h2 (Or.inr h)⟩
  simp only [lock_IX_on_table, h1, h2, if_false, queue_set_state]
  rcases hres : forQueue (ix_table_body t) (s.queue (LockDataId.table fd)) 0
    ⟨false, 0, false, 0, false⟩ with o | v
  · obtain ⟨rfl, b, hb, hbt, hbm⟩ := ix_table_error hres
    refine Effect.conflict b hv hb hbt ?_
    rcases hbm with h | h | h <;> simp [h, compatible]
  · obtain ⟨hA, hB, hB2, hC, hC2, hD, hD2⟩ := ix_table_ok hres
    have hnc : s.noConflict t (LockDataId.table fd) .INTENTION_EXCLUSIVE := by
      intro b hb hbt
      obtain ⟨x1, x2, x3⟩ := hA b hb hbt
      cases hm : b.lock_mode_ <;> simp_all [compatible]
    by_cases h3 : v.have_stronger = true
    · simp only [h3, if_true]
      obtain ⟨a, ha, ham1, ham2⟩ := hB2 h3
      refine Effect.noop hv hnc ?_ ?_
      · intro a2 ha2 hat
        simp only [LockCall.key, LockCall.txn, LockCall.mode] at *
        by_cases hta : a2.txn_id_ = a.txn_id_
        · have := eq_of_txn_eq (hI.nodup _) ha2 ha hta
          subst this
          cases hm : a2.lock_mode_ <;> simp_all [LockMode.join]
        · have hco := hI.coexist _ a2 ha2 a ha hta
          have := hA a ha (by rw [← hat]; exact fun h => hta h.symm)
          cases hm : a.lock_mode_ <;> cases hm2 : a2.lock_mode_ <;> simp_all [coexist]
      · intro h; simp at h
    · simp only [h3, if_false]
      have hB' := hB (by simpa using h3)
      by_cases h4 : v.s_found = true
      · simp only [h4, if_true, group_set_queue, group_set_state]
        obtain ⟨a, ha, ham⟩ := hC h4
        have hamem := List.getElem?_mem ha
        have hat : a.txn_id_ = t := by
          by_contra hne
          exact (hA a hamem hne).1 ham
        have hup := Effect.upgrade (s := s) (c := .IX_on_table t fd) v.s_it a .S_IX hv hnc ha
          (by
            intro b hb hbt
            rw [hat] at hbt
            have := hA b hb hbt
            rcases hB' b hb with h | h
            · exact absurd h this.1
            · simp [h, coexist])
          (fun h => absurd h (by simp [LockDataId.table]))
          (by simp [ham, LockMode.toGroup, GroupLockMode.le])
          (by intro _; simp [ham, LockMode.join])
          (fun h => absurd hat h)
        cases hg : s.group (LockDataId.table fd) <;>
          simpa [hg, upgrade_eq, upgrade_set_group_eq, set_group_put, GroupLockMode.join, LockMode.toGroup]
            using hup
      · simp only [h4, if_false]
        have hC' := hC2 (by simpa using h4)
        have hall : ∀ b ∈ s.queue (LockDataId.table fd), b.lock_mode_ = .INTENTION_SHARED := by
          intro b hb
          rcases hB' b hb with h | h
          · exact absurd h (hC' b hb)
          · exact h
        by_cases h5 : v.is_found = true
        · simp only [h5, if_true, group_set_queue, group_set_state]
          obtain ⟨a, ha, ham⟩ := hD h5
          have hamem := List.getElem?_mem ha
          have hup := Effect.upgrade (s := s) (c := .IX_on_table t fd) v.is_it a
            .INTENTION_EXCLUSIVE hv hnc ha
            (by
              intro b hb hbt
              have hco := hI.coexist _ b hb a hamem hbt
              rw [hall b hb, ham] at hco
              simp [coexist] at hco)
            (fun h => absurd h (by simp [LockDataId.table]))
            (by simp [ham, LockMode.toGroup, GroupLockMode.le])
            (by intro _; simp [ham, LockMode.join])
            (fun _ => ⟨rfl, hall⟩)
          have hgP : s.group (LockDataId.table fd) = .NON_LOCK ∨
              s.group (LockDataId.table fd) = .IS := by
            apply hI.group_closed _ (fun g => g = .NON_LOCK ∨ g = .IS) (Or.inl rfl)
            · intro x y hx hy
              rcases hx with rfl | rfl <;> rcases hy with rfl | rfl <;> simp [GroupLockMode.join]
            · intro it hit
              simp [hall it hit, LockMode.toGroup]
          rcases hgP with hg | hg <;>
            simpa [hg, upgrade_eq, upgrade_set_group_eq, set_group_put, GroupLockMode.join, LockMode.toGroup,
              GroupLockMode.toNat] using hup
        · simp only [h5, if_false]
          have hD' := hD2 (by simpa using h5)
          have hq : s.queue (LockDataId.table fd) = [] := by
            apply List.eq_nil_iff_forall_not_mem.mpr
            intro b hb
            exact hD' b hb (hall b hb)
          have hg : s.group (LockDataId.table fd) = .NON_LOCK := by
            rw [hI.group, hq]; rfl
          simp only [group_push_back, group_lock_set_insert, group_set_state, hg]
          have := Effect.push (s := s) (c := .IX_on_table t fd) hv
            (by simp [hq]) (by simp [hq])
          simpa [hg, GroupLockMode.toNat,
            push_set_group_eq, GroupLockMode.join, LockMode.toGroup] using this

theorem shared_table_ok {t : Nat} {q : List LockRequest} {v : SharedTableVars}
    (h : forQueue (shared_table_body t) q 0 ⟨false, 0, false, 0, false⟩ = .ok v) :
    (∀ b ∈ q, b.txn_id_ ≠ t → b.lock_mode_ ≠ .EXLUCSIVE ∧
      b.lock_mode_ ≠ .INTENTION_EXCLUSIVE ∧ b.lock_mode_ ≠ .S_IX) ∧
    (v.stronger_found = true → ∃ a ∈ q, a.txn_id_ = t ∧
      a.lock_mode_ ≠ .INTENTION_SHARED ∧ a.lock_mode_ ≠ .INTENTION_EXCLUSIVE) ∧
    (v.is_found = true →
      ∃ a, q[v.is_it]? = some a ∧ a.txn_id_ = t ∧ a.lock_mode_ = .INTENTION_SHARED) ∧
    (v.ix_found = true →
      ∃ a, q[v.ix_it]? = some a ∧ a.txn_id_ = t ∧ a.lock_mode_ = .INTENTION_EXCLUSIVE) ∧
    (v.stronger_found = false → v.is_found = false → v.ix_found = false →
      ∀ a ∈ q, a.txn_id_ ≠ t) := by
  have := forQueue_ok (shared_table_body t)
    (fun pre v =>
      (∀ b ∈ pre, b.txn_id_ ≠ t → b.lock_mode_ ≠ .EXLUCSIVE ∧
        b.lock_mode_ ≠ .INTENTION_EXCLUSIVE ∧ b.lock_mode_ ≠ .S_IX) ∧
      (v.stronger_found = true → ∃ a ∈ pre, a.txn_id_ = t ∧
        a.lock_mode_ ≠ .INTENTION_SHARED ∧ a.lock_mode_ ≠ .INTENTION_EXCLUSIVE) ∧
      (v.is_found = true →
        ∃ a, pre[v.is_it]? = some a ∧ a.txn_id_ = t ∧ a.lock_mode_ = .INTENTION_SHARED) ∧
      (v.ix_found = true →
        ∃ a, pre[v.ix_it]? = some a ∧ a.txn_id_ = t ∧ a.lock_mode_ = .INTENTION_EXCLUSIVE) ∧
      (v.stronger_found = false → v.is_found = false → v.ix_found = false →
        ∀ a ∈ pre, a.txn_id_ ≠ t))
    (by
      intro pre it v v' hP hb
      obtain ⟨hA, hS, hI, hX, hN⟩ := hP
      have hS' : v.stronger_found = true → ∃ a ∈ pre ++ [it], a.txn_id_ = t ∧
          a.lock_mode_ ≠ .INTENTION_SHARED ∧ a.lock_mode_ ≠ .INTENTION_EXCLUSIVE := by
        intro h
        obtain ⟨a, ha, hh⟩ := hS h
        exact ⟨a, List.mem_append_left _ ha, hh⟩
      have hI' : v.is_found = true → ∃ a, (pre ++ [it])[v.is_it]? = some a ∧ a.txn_id_ = t ∧
          a.lock_mode_ = .INTENTION_SHARED := by
        intro h
        obtain ⟨a, ha, hh⟩ := hI h
        exact ⟨a, getElem?_append_of_some ha _, hh⟩
      have hX' : v.ix_found = true → ∃ a, (pre ++ [it])[v.ix_it]? = some a ∧ a.txn_id_ = t ∧
          a.lock_mode_ = .INTENTION_EXCLUSIVE := by
        intro h
        obtain ⟨a, ha, hh⟩ := hX h
        exact ⟨a, getElem?_append_of_some ha _, hh⟩
      unfold shared_table_body at hb
      split at hb
      · rename_i hother
        split at hb
        · cases hb
        · rename_i hm
          simp only [Except.ok.injEq] at hb
          subst hb
          refine ⟨?_, hS', hI', hX', ?_⟩
          · intro b hb2 hbt
            rcases List.mem_append.mp hb2 with h1 | h1
            · exact hA b h1 hbt
            · simp only [List.mem_singleton] at h1
              subst h1
              simpa [not_or] using hm
          · intro x1 x2 x3 a ha
            rcases List.mem_append.mp ha with h1 | h1
            · exact hN x1 x2 x3 a h1
            · simp only [List.mem_singleton] at h1
              subst h1
              exact hother
      · rename_i hown
        have hown' : it.txn_id_ = t := by simpa using hown
        have hA2 : ∀ b ∈ pre ++ [it], b.txn_id_ ≠ t → b.lock_mode_ ≠ .EXLUCSIVE ∧
            b.lock_mode_ ≠ .INTENTION_EXCLUSIVE ∧ b.lock_mode_ ≠ .S_IX := by
          intro b hb2 hbt
          rcases List.mem_append.mp hb2 with h1 | h1
          · exact hA b h1 hbt
          · simp only [List.mem_singleton] at h1
            subst h1
            exact absurd hown' hbt
        split at hb
        · rename_i hm
          simp only [Except.ok.injEq] at hb
          subst hb
          refine ⟨hA2, hS', ?_, hX', ?_⟩
          · intro _
            exact ⟨it, getElem?_concat_self pre it, hown', hm⟩
          · intro _ h
            simp at h
        · rename_i hm
          split at hb
          · rename_i hm2
            simp only [Except.ok.injEq] at hb
            subst hb
            refine ⟨hA2, hS', hI', ?_, ?_⟩
            · intro _
              exact ⟨it, getElem?_concat_self pre it, hown', hm2⟩
            · intro _ _ h
              simp at h
          · rename_i hm2
            simp only [Except.ok.injEq] at hb
            subst hb
            refine ⟨hA2, ?_, hI', hX', ?_⟩
            · intro _
              exact ⟨it, by simp, hown', hm, hm2⟩
            · intro h
              simp at h)
    q [] ⟨false, 0, false, 0, false⟩ v (by simp) (by simpa using h)
  simpa using this

theorem shared_table_error {t : Nat} {q : List LockRequest} {o : Outcome} {i : Nat}
    {a : SharedTableVars} (h : forQueue (shared_table_body t) q i a = .error o) :
    o = .raise .DEADLOCK_PREVENTION ∧ ∃ b ∈ q, b.txn_id_ ≠ t ∧
      (b.lock_mode_ = .EXLUCSIVE ∨ b.lock_mode_ = .INTENTION_EXCLUSIVE ∨ b.lock_mode_ = .S_IX) := by
  obtain ⟨it, hit, j, v, hb⟩ := forQueue_error _ _ _ _ _ h
  unfold shared_table_body at hb
  split at hb
  · rename_i hc
    split at hb
    · rename_i hm
      simp only [Except.error.injEq] at hb
      exact ⟨hb.symm, it, hit, hc, hm⟩
    · cases hb
  · split at hb
    · cases hb
    · split at hb <;> cases hb

theorem effect_shared_on_table {s : State} (hI : Inv s) (t : Nat) (fd : Int) :
    Effect s (.shared_on_table t fd) (lock_shared_on_table s t fd) := by
  by_cases h1 : s.get_state t = .SHRINKING
  · simp only [lock_shared_on_table, h1, if_true]
    exact Effect.shrinking h1
  by_cases h2 : s.get_state t = .ABORTED ∨ s.get_state t = .COMMITTED
  · simp only [lock_shared_on_table, h1, h2, if_true, if_false]
    exact Effect.terminal h2
  have hv : s.mayLock t := ⟨h1, fun h => h2 (Or.inl h), fun h => h2 (Or.inr h)⟩
  simp only [lock_shared_on_table, h1, h2, if_false, queue_set_state]
  rcases hres : forQueue (shared_table_body t) (s.queue (LockDataId.table fd)) 0
    ⟨false, 0, false, 0, false⟩ with o | v
  · obtain ⟨rfl, b, hb, hbt, hbm⟩ := shared_table_error hres
    refine Effect.conflict b hv hb hbt ?_
    rcases hbm with h | h | h <;> simp [h, compatible]
  · obtain ⟨hA, hS, hIs, hIx, hN⟩ := shared_table_ok hres
    have hothers : ∀ b ∈ s.queue (LockDataId.table fd), b.txn_id_ ≠ t →
        b.lock_mode_ = .INTENTION_SHARED ∨ b.lock_mode_ = .SHARED := by
      intro b hb hbt
      obtain ⟨x1, x2, x3⟩ := hA b hb hbt
      cases hm : b.lock_mode_ <;> simp_all
    have hnc : s.noConflict t (LockDataId.table fd) .SHARED := by
      intro b hb hbt
      rcases hothers b hb hbt with h | h <;> simp [h, compatible]
    by_cases h3 : v.stronger_found = true
    · simp only [h3, if_true]
      obtain ⟨a, ha, hat, ham1, ham2⟩ := hS h3
      refine Effect.noop hv hnc ?_ ?_
      · intro a2 ha2 hat2
        simp only [LockCall.key, LockCall.txn, LockCall.mode] at *
        have := eq_of_txn_eq (hI.nodup _) ha2 ha (hat2.trans hat.symm)
        subst this
        cases hm : a2.lock_mode_ <;> simp_all [LockMode.join]
      · intro _
        exact ⟨a, ha, hat⟩
    · simp only [h3, if_false]
      by_cases h4 : v.is_found = true
      · simp only [h4, if_true, group_set_queue, group_set_state]
        obtain ⟨a, ha, hat, ham⟩ := hIs h4
        have hamem := List.getElem?_mem ha
        have hothers2 : ∀ b ∈ s.queue (LockDataId.table fd), b.txn_id_ ≠ t →
            b.lock_mode_ = .SHARED := by
          intro b hb hbt
          have hco := hI.coexist _ b hb a hamem (by rw [hat]; exact hbt)
          rw [ham] at hco
          rcases hothers b hb hbt with h | h
          · rw [h] at hco; simp [coexist] at hco
          · exact h
        have hup := Effect.upgrade (s := s) (c := .shared_on_table t fd) v.is_it a .SHARED hv
          hnc ha
          (by
            intro b hb hbt
            rw [hat] at hbt
            simp [hothers2 b hb hbt, coexist])
          (fun h => absurd h (by simp [LockDataId.table]))
          (by simp [ham, LockMode.toGroup, GroupLockMode.le])
          (by intro _; simp [ham, LockMode.join])
          (fun h => absurd hat h)
        have hgP : s.group (LockDataId.table fd) = .NON_LOCK ∨
            s.group (LockDataId.table fd) = .IS ∨ s.group (LockDataId.table fd) = .S := by
          apply hI.group_closed _ (fun g => g = .NON_LOCK ∨ g = .IS ∨ g = .S) (Or.inl rfl)
          · intro x y hx hy
            rcases hx with rfl | rfl | rfl <;> rcases hy with rfl | rfl | rfl <;>
              simp [GroupLockMode.join]
          · intro it hit
            by_cases hit2 : it.txn_id_ = t
            · have := eq_of_txn_eq (hI.nodup _) hit hamem (hit2.trans hat.symm)
              subst this
              simp [ham, LockMode.toGroup]
            · simp [hothers2 it hit hit2, LockMode.toGroup]
        rcases hgP with hg | hg | hg <;>
          simpa [hg, upgrade_eq, upgrade_set_group_eq, set_group_put, GroupLockMode.join,
            LockMode.toGroup, GroupLockMode.toNat] using hup
      · simp only [h4, if_false]
        by_cases h5 : v.ix_found = true
        · simp only [h5, if_true, group_set_queue, group_set_state]
          obtain ⟨a, ha, hat, ham⟩ := hIx h5
          have hamem := List.getElem?_mem ha
          have hup := Effect.upgrade (s := s) (c := .shared_on_table t fd) v.ix_it a .S_IX hv
            hnc ha
            (by
              intro b hb hbt
              have hco := hI.coexist _ b hb a hamem hbt
              rw [ham] at hco
              cases hm : b.lock_mode_ <;> simp [hm, coexist] at hco)
            (fun h => absurd h (by simp [LockDataId.table]))
            (by simp [ham, LockMode.toGroup, GroupLockMode.le])
            (by intro _; simp [ham, LockMode.join])
            (fun h => absurd hat h)
          cases hg : s.group (LockDataId.table fd) <;>
            simpa [hg, upgrade_eq, upgrade_set_group_eq, set_group_put, GroupLockMode.join,
              LockMode.toGroup] using hup
        · simp only [h5, if_false, group_push_back, group_lock_set_insert, group_set_state]
          have hnone := hN (by simpa using h3) (by simpa using h4) (by simpa using h5)
          have hpush := Effect.push (s := s) (c := .shared_on_table t fd) hv hnone
            (by
              intro b hb
              rcases hothers b hb (hnone b hb) with h | h <;> simp [h, coexist])
          have hgP : s.group (LockDataId.table fd) = .NON_LOCK ∨
              s.group (LockDataId.table fd) = .IS ∨ s.group (LockDataId.table fd) = .S := by
            apply hI.group_closed _ (fun g => g = .NON_LOCK ∨ g = .IS ∨ g = .S) (Or.inl rfl)
            · intro x y hx hy
              rcases hx with rfl | rfl | rfl <;> rcases hy with rfl | rfl | rfl <;>
                simp [GroupLockMode.join]
            · intro it hit
              rcases hothers it hit (hnone it hit) with h | h <;> simp [h, LockMode.toGroup]
          rcases hgP with hg | hg | hg <;>
            simpa [hg, push_eq, push_set_group_eq, set_group_put, GroupLockMode.join,
              LockMode.toGroup, GroupLockMode.toNat] using hpush

theorem excl_table_ok {t : Nat} {q : List LockRequest} {v : ExclTableVars}
    (h : forQueue (excl_table_body t) q 0 ⟨false, 0, false⟩ = .ok v) :
    (∀ b ∈ q, b.txn_id_ = t) ∧
    (v.x_found = true → ∃ a ∈ q, a.lock_mode_ = .EXLUCSIVE) ∧
    (v.weaker_found = true → ∃ a, q[v.weaker_it]? = some a) ∧
    (v.x_found = false → v.weaker_found = false → q = []) := by
  have := forQueue_ok (excl_table_body t)
    (fun pre v =>
      (∀ b ∈ pre, b.txn_id_ = t) ∧
      (v.x_found = true → ∃ a ∈ pre, a.lock_mode_ = .EXLUCSIVE) ∧
      (v.weaker_found = true → ∃ a, pre[v.weaker_it]? = some a) ∧
      (v.x_found = false → v.weaker_found = false → pre = []))
    (by
      intro pre it v v' hP hb
      obtain ⟨hA, hX, hW, hN⟩ := hP
      unfold excl_table_body at hb
      split at hb
      · cases hb
      · rename_i hown
        have hown' : it.txn_id_ = t := by simpa using hown
        have hA2 : ∀ b ∈ pre ++ [it], b.txn_id_ = t := by
          intro b hb2
          rcases List.mem_append.mp hb2 with h1 | h1
          · exact hA b h1
          · simp only [List.mem_singleton] at h1
            subst h1
            exact hown'
        split at hb
        · rename_i hm
          simp only [Except.ok.injEq] at hb
          subst hb
          refine ⟨hA2, ?_, ?_, ?_⟩
          · intro _
            exact ⟨it, by simp, hm⟩
          · intro h
            obtain ⟨a, ha⟩ := hW h
            exact ⟨a, getElem?_append_of_some ha _⟩
          · intro h
            simp at h
        · simp only [Except.ok.injEq] at hb
          subst hb
          refine ⟨hA2, ?_, ?_, ?_⟩
          · intro h
            obtain ⟨a, ha, hh⟩ := hX h
            exact ⟨a, List.mem_append_left _ ha, hh⟩
          · intro _
            exact ⟨it, getElem?_concat_self pre it⟩
          · intro _ h
            simp at h)
    q [] ⟨false, 0, false⟩ v (by simp) (by simpa using h)
  simpa using this

theorem excl_table_error {t : Nat} {q : List LockRequest} {o : Outcome} {i : Nat}
    {a : ExclTableVars} (h : forQueue (excl_table_body t) q i a = .error o) :
    o = .raise .DEADLOCK_PREVENTION ∧ ∃ b ∈ q, b.txn_id_ ≠ t := by
  obtain ⟨it, hit, j, v, hb⟩ := forQueue_error _ _ _ _ _ h
  unfold excl_table_body at hb
  split at hb
  · rename_i hc
    simp only [Except.error.injEq] at hb
    exact ⟨hb.symm, it, hit, hc⟩
  · split at hb <;> cases hb

theorem compatible_exclusive (m : LockMode) : compatible m .EXLUCSIVE = false := by
  cases m <;> rfl

theorem join_exclusive (m : LockMode) : m.join .EXLUCSIVE = .EXLUCSIVE := by
  cases m <;> rfl

theorem le_exclusive (m : LockMode) : m.toGroup.le LockMode.EXLUCSIVE.toGroup = true := by
  cases m <;> rfl

theorem group_join_exclusive (g : GroupLockMode) : g.join .X = .X := by
  cases g <;> rfl

theorem effect_exclusive_on_table {s : State} (hI : Inv s) (t : Nat) (fd : Int) :
    Effect s (.exclusive_on_table t fd) (lock_exclusive_on_table s t fd) := by
  by_cases h1 : s.get_state t = .SHRINKING
  · simp only [lock_exclusive_on_table, h1, if_true]
    exact Effect.shrinking h1
  by_cases h2 : s.get_state t = .ABORTED ∨ s.get_state t = .COMMITTED
  · simp only [lock_exclusive_on_table, h1, h2, if_true, if_false]
    exact Effect.terminal h2
  have hv : s.mayLock t := ⟨h1, fun h => h2 (Or.inl h), fun h => h2 (Or.inr h)⟩
  simp only [lock_exclusive_on_table, h1, h2, if_false, queue_set_state]
  rcases hres : forQueue (excl_table_body t) (s.queue (LockDataId.table fd)) 0
    ⟨false, 0, false⟩ with o | v
  · obtain ⟨rfl, b, hb, hbt⟩ := excl_table_error hres
    exact Effect.conflict b hv hb hbt (compatible_exclusive _)
  · obtain ⟨hA, hX, hW, hN⟩ := excl_table_ok hres
    have hnc : s.noConflict t (LockDataId.table fd) .EXLUCSIVE := by
      intro b hb hbt
      exact absurd (hA b hb) hbt
    by_cases h3 : v.x_found = true
    · simp only [h3, if_true]
      obtain ⟨a, ha, ham⟩ := hX h3
      refine Effect.noop hv hnc ?_ ?_
      · intro a2 ha2 _
        have := eq_of_txn_eq (hI.nodup _) ha2 ha ((hA a2 ha2).trans (hA a ha).symm)
        subst this
        simp [ham, LockMode.join]
      · intro _
        exact ⟨a, ha, hA a ha⟩
    · simp only [h3, if_false]
      by_cases h4 : v.weaker_found = true
      · simp only [h4, if_true]
        obtain ⟨a, ha⟩ := hW h4
        have hamem := List.getElem?_mem ha
        have hup := Effect.upgrade (s := s) (c := .exclusive_on_table t fd) v.weaker_it a
          .EXLUCSIVE hv hnc ha
          (by
            intro b hb hbt
            exact absurd ((hA b hb).trans (hA a hamem).symm) hbt)
          (fun h => absurd h (by simp [LockDataId.table]))
          (le_exclusive _)
          (by intro _; exact (join_exclusive _).symm)
          (fun h => absurd (hA a hamem) h)
        simpa [upgrade_set_group_eq, group_join_exclusive, LockMode.toGroup] using hup
      · simp only [h4, if_false, group_push_back, group_lock_set_insert, group_set_state]
        have hq : s.queue (LockDataId.table fd) = [] :=
          hN (by simpa using h3) (by simpa using h4)
        have hg : s.group (LockDataId.table fd) = .NON_LOCK := by
          rw [hI.group, hq]; rfl
        have := Effect.push (s := s) (c := .exclusive_on_table t fd) hv
          (by simp [hq]) (by simp [hq])
        simpa [hg, push_set_group_eq, GroupLockMode.join, LockMode.toGroup] using this
theorem excl_record_ok {t : Nat} {q : List LockRequest} {v : ExclRecordVars}
    (h : forQueue (excl_record_body t) q 0 ⟨0, false⟩ = .ok v) :
    (∀ b ∈ q, b.txn_id_ = t) ∧
    (v.lock_found = true → ∃ a, q[v.lock_it]? = some a) ∧
    (v.lock_found = false → q = []) := by
  have := forQueue_ok (excl_record_body t)
    (fun pre v =>
      (∀ b ∈ pre, b.txn_id_ = t) ∧
      (v.lock_found = true → ∃ a, pre[v.lock_it]? = some a) ∧
      (v.lock_found = false → pre = []))
    (by
      intro pre it v v' hP hb
      obtain ⟨hA, hF, hN⟩ := hP
      unfold excl_record_body at hb
      split at hb
      · cases hb
      · rename_i hown
        have hown' : it.txn_id_ = t := by simpa using hown
        split at hb
        · cases hb
        · simp only [Except.ok.injEq] at hb
          subst hb
          refine ⟨?_, ?_, ?_⟩
          · intro b hb2
            rcases List.mem_append.mp hb2 with h1 | h1
            · exact hA b h1
            · simp only [List.mem_singleton] at h1
              subst h1
              exact hown'
          · intro _
            exact ⟨it, getElem?_concat_self pre it⟩
          · intro h
            simp at h)
    q [] ⟨0, false⟩ v (by simp) (by simpa using h)
  simpa using this

theorem excl_record_error {t : Nat} {q : List LockRequest} {o : Outcome} {i : Nat}
    {a : ExclRecordVars} (h : forQueue (excl_record_body t) q i a = .error o) :
    (o = .raise .DEADLOCK_PREVENTION ∧ ∃ b ∈ q, b.txn_id_ ≠ t) ∨
    (o = .ret true ∧ ∃ b ∈ q, b.txn_id_ = t ∧ b.lock_mode_ = .EXLUCSIVE) := by
  obtain ⟨it, hit, j, v, hb⟩ := forQueue_error _ _ _ _ _ h
  unfold excl_record_body at hb
  split at hb
  · rename_i hc
    simp only [Except.error.injEq] at hb
    exact Or.inl ⟨hb.symm, it, hit, hc⟩
  · rename_i hown
    split at hb
    · rename_i hm
      simp only [Except.error.injEq] at hb
      exact Or.inr ⟨hb.symm, it, hit, by simpa using hown, hm⟩
    · cases hb

theorem effect_exclusive_on_record {s : State} (hI : Inv s) (t : Nat) (rid : Rid) (fd : Int) :
    Effect s (.exclusive_on_record t rid fd) (lock_exclusive_on_record s t rid fd) := by
  by_cases h1 : s.get_state t = .SHRINKING
  · simp only [lock_exclusive_on_record, h1, if_true]
    exact Effect.shrinking h1
  by_cases h2 : s.get_state t = .ABORTED ∨ s.get_state t = .COMMITTED
  · simp only [lock_exclusive_on_record, h1, h2, if_true, if_false]
    exact Effect.terminal h2
  have hv : s.mayLock t := ⟨h1, fun h => h2 (Or.inl h), fun h => h2 (Or.inr h)⟩
  simp only [lock_exclusive_on_record, h1, h2, if_false, queue_set_state]
  rcases hres : forQueue (excl_record_body t) (s.queue (LockDataId.record fd rid)) 0
    ⟨0, false⟩ with o | v
  · rcases excl_record_error hres with ⟨rfl, b, hb, hbt⟩ | ⟨rfl, a, ha, hat, ham⟩
    · exact Effect.conflict b hv hb hbt (compatible_exclusive _)
    · refine Effect.noop hv ?_ ?_ ?_
      · intro b hb hbt
        have hco := hI.coexist _ b hb a ha (by rw [hat]; exact hbt)
        rw [ham] at hco
        cases hm : b.lock_mode_ <;> simp [hm, coexist] at hco
      · intro a2 ha2 hat2
        have := eq_of_txn_eq (hI.nodup _) ha2 ha (hat2.trans hat.symm)
        subst this
        simp [ham, LockMode.join]
      · intro _
        exact ⟨a, ha, hat⟩
  · obtain ⟨hA, hF, hN⟩ := excl_record_ok hres
    have hnc : s.noConflict t (LockDataId.record fd rid) .EXLUCSIVE := by
      intro b hb hbt
      exact absurd (hA b hb) hbt
    have hgP : s.group (LockDataId.record fd rid) = .NON_LOCK ∨
        s.group (LockDataId.record fd rid) = .S ∨ s.group (LockDataId.record fd rid) = .X := by
      apply hI.group_closed _ (fun g => g = .NON_LOCK ∨ g = .S ∨ g = .X) (Or.inl rfl)
      · intro x y hx hy
        rcases hx with rfl | rfl | rfl <;> rcases hy with rfl | rfl | rfl <;>
          simp [GroupLockMode.join]
      · intro it hit
        rcases hI.recordModes _ rfl it hit with h | h <;> simp [h, LockMode.toGroup]
    by_cases h3 : v.lock_found = true
    · simp only [h3, if_true, group_set_queue, group_set_state]
      obtain ⟨a, ha⟩ := hF h3
      have hamem := List.getElem?_mem ha
      have hup := Effect.upgrade (s := s) (c := .exclusive_on_record t rid fd) v.lock_it a
        .EXLUCSIVE hv hnc ha
        (by
          intro b hb hbt
          exact absurd ((hA b hb).trans (hA a hamem).symm) hbt)
        (fun _ => Or.inr rfl)
        (le_exclusive _)
        (by intro _; exact (join_exclusive _).symm)
        (fun h => absurd (hA a hamem) h)
      rcases hgP with hg | hg | hg <;>
        simpa [hg, upgrade_eq, upgrade_set_group_eq, set_group_put, GroupLockMode.join,
          LockMode.toGroup, GroupLockMode.toNat] using hup
    · simp only [h3, if_false, group_push_back, group_lock_set_insert, group_set_state]
      have hq : s.queue (LockDataId.record fd rid) = [] := hN (by simpa using h3)
      have hg : s.group (LockDataId.record fd rid) = .NON_LOCK := by
        rw [hI.group, hq]; rfl
      have := Effect.push (s := s) (c := .exclusive_on_record t rid fd) hv
        (by simp [hq]) (by simp [hq])
      simpa [hg, push_set_group_eq, GroupLockMode.join, LockMode.toGroup,
        GroupLockMode.toNat] using this

theorem shared_record_ok {t : Nat} {q : List LockRequest} {v : Unit}
    (h : forQueue (shared_record_body t) q 0 () = .ok v) :
    ∀ b ∈ q, ¬ (b.txn_id_ ≠ t ∧ b.lock_mode_ = .EXLUCSIVE) := by
  have := forQueue_ok (shared_record_body t)
    (fun pre _ => ∀ b ∈ pre, ¬ (b.txn_id_ ≠ t ∧ b.lock_mode_ = .EXLUCSIVE))
    (by
      intro pre it v v' hP hb
      unfold shared_record_body at hb
      split at hb
      · cases hb
      · intro b hb2
        rcases List.mem_append.mp hb2 with h1 | h1
        · exact hP b h1
        · simp only [List.mem_singleton] at h1
          subst h1
          assumption)
    q [] () v (by simp) (by simpa using h)
  simpa using this

theorem shared_record_error {t : Nat} {q : List LockRequest} {o : Outcome} {i : Nat} {a : Unit}
    (h : forQueue (shared_record_body t) q i a = .error o) :
    o = .raise .DEADLOCK_PREVENTION ∧ ∃ b ∈ q, b.txn_id_ ≠ t ∧ b.lock_mode_ = .EXLUCSIVE := by
  obtain ⟨it, hit, j, v, hb⟩ := forQueue_error _ _ _ _ _ h
  unfold shared_record_body at hb
  split at hb
  · simp only [Except.error.injEq] at hb
    exact ⟨hb.symm, it, hit, by assumption⟩
  · cases hb

theorem effect_shared_on_record {s : State} (hI : Inv s) (t : Nat) (rid : Rid) (fd : Int) :
    Effect s (.shared_on_record t rid fd) (lock_shared_on_record s t rid fd) := by
  by_cases h1 : s.get_state t = .SHRINKING
  · simp only [lock_shared_on_record, h1, if_true]
    exact Effect.shrinking h1
  by_cases h2 : s.get_state t = .ABORTED ∨ s.get_state t = .COMMITTED
  · simp only [lock_shared_on_record, h1, h2, if_true, if_false]
    exact Effect.terminal h2
  have hv : s.mayLock t := ⟨h1, fun h => h2 (Or.inl h), fun h => h2 (Or.inr h)⟩
  simp only [lock_shared_on_record, h1, h2, if_false, queue_set_state, get_lock_set_set_state]
  have hrec := hI.recordModes (LockDataId.record fd rid) rfl
  by_cases h3 : LockDataId.record fd rid ∈ s.get_lock_set t
  · simp only [h3, if_true]
    obtain ⟨a, ha, hat⟩ := hI.held t _ h3 h1
    refine Effect.noop hv ?_ ?_ ?_
    · intro b hb hbt
      have hco := hI.coexist _ b hb a ha (by rw [hat]; exact hbt)
      rcases hrec b hb with h | h <;> rcases hrec a ha with h' | h' <;>
        simp_all [coexist, compatible]
    · intro a2 ha2 _
      rcases hrec a2 ha2 with h | h <;> simp [h, LockMode.join]
    · intro _
      exact ⟨a, ha, hat⟩
  · simp only [h3, if_false]
    rcases hres : forQueue (shared_record_body t) (s.queue (LockDataId.record fd rid)) 0 ()
      with o | v
    · obtain ⟨rfl, b, hb, hbt, hbm⟩ := shared_record_error hres
      exact Effect.conflict b hv hb hbt (by simp [hbm, compatible])
    · have hno := shared_record_ok hres
      simp only [group_push_back, group_lock_set_insert, group_set_state]
      have hnone : ∀ a ∈ s.queue (LockDataId.record fd rid), a.txn_id_ ≠ t := by
        intro a ha hat
        have := hI.owned _ a ha
        rw [hat] at this
        exact h3 this
      have hall : ∀ a ∈ s.queue (LockDataId.record fd rid), a.lock_mode_ = .SHARED := by
        intro a ha
        rcases hrec a ha with h | h
        · exact h
        · exact absurd ⟨hnone a ha, h⟩ (hno a ha)
      have hpush := Effect.push (s := s) (c := .shared_on_record t rid fd) hv hnone
        (by
          intro b hb
          simp [hall b hb, coexist])
      have hgP : s.group (LockDataId.record fd rid) = .NON_LOCK ∨
          s.group (LockDataId.record fd rid) = .S := by
        apply hI.group_closed _ (fun g => g = .NON_LOCK ∨ g = .S) (Or.inl rfl)
        · intro x y hx hy
          rcases hx with rfl | rfl <;> rcases hy with rfl | rfl <;> simp [GroupLockMode.join]
        · intro it hit
          simp [hall it hit, LockMode.toGroup]
      rcases hgP with hg | hg <;>
        simpa [hg, push_eq, push_set_group_eq, set_group_put, GroupLockMode.join,
          LockMode.toGroup, GroupLockMode.toNat] using hpush

/-- Every lock call, run on a state that satisfies the invariant, falls under one of the
cases of `Effect`. -/
theorem effect_of_run {s : State} (hI : Inv s) (c : LockCall) : Effect s c (c.run s) := by
  cases c with
  | shared_on_record t rid fd => exact effect_shared_on_record hI t rid fd
  | exclusive_on_record t rid fd => exact effect_exclusive_on_record hI t rid fd
  | shared_on_table t fd => exact effect_shared_on_table hI t fd
  | exclusive_on_table t fd => exact effect_exclusive_on_table hI t fd
  | IS_on_table t fd => exact effect_IS_on_table hI t fd
  | IX_on_table t fd => exact effect_IX_on_table hI t fd

/-! ## The invariant is kept by every call -/

theorem set_queue_set_group_eq (s : State) (t : Nat) (st : TransactionState) (k : LockDataId)
    (q : List LockRequest) (g : GroupLockMode) :
    (((s.set_state t st).set_queue k q).set_group k g) =
      s.put k q g t ⟨st, s.get_lock_set t⟩ := by
  simp [State.set_state, State.set_queue, State.set_group, State.put, State.get_lock_set]

theorem Inv.init (st : Nat → TransactionState) : Inv (State.init st) where
  coexist := by intro k a ha; simp [State.init, State.queue, LockRequestQueue.empty] at ha
  recordModes := by intro k _ a ha; simp [State.init, State.queue, LockRequestQueue.empty] at ha
  owned := by intro k a ha; simp [State.init, State.queue, LockRequestQueue.empty] at ha
  held := by intro t k hk; simp [State.init, State.get_lock_set] at hk
  nodup := by intro k; simp [State.init, State.queue, LockRequestQueue.empty]
  granted := by intro k a ha; simp [State.init, State.queue, LockRequestQueue.empty] at ha
  group := by intro k; rfl

theorem Inv.set_state {s : State} (hI : Inv s) (t : Nat) (st : TransactionState)
    (h : st ≠ .SHRINKING → s.get_state t ≠ .SHRINKING) : Inv (s.set_state t st) where
  coexist := hI.coexist
  recordModes := hI.recordModes
  owned := by
    intro k a ha
    rw [get_lock_set_set_state]
    exact hI.owned k a ha
  held := by
    intro u k hk hs
    rw [get_lock_set_set_state] at hk
    rw [get_state_set_state] at hs
    by_cases hu : u = t
    · subst hu
      simp only [if_true] at hs
      exact hI.held u k hk (h hs)
    · simp only [hu, if_false] at hs
      exact hI.held u k hk hs
  nodup := hI.nodup
  granted := hI.granted
  group := hI.group

/-- The invariant after the queue of one key and the transaction of the caller have
changed. -/
theorem Inv.put {s : State} (hI : Inv s) (k : LockDataId) (q : List LockRequest)
    (g : GroupLockMode) (t : Nat) (st : TransactionState) (ls : List LockDataId)
    (hst : st ≠ .SHRINKING → s.get_state t ≠ .SHRINKING)
    (h1 : ∀ a ∈ q, ∀ b ∈ q, a.txn_id_ ≠ b.txn_id_ →
      Rucbase.coexist a.lock_mode_ b.lock_mode_ = true)
    (h2 : k.type_ = .RECORD → ∀ a ∈ q, a.lock_mode_ = .SHARED ∨ a.lock_mode_ = .EXLUCSIVE)
    (h3 : ∀ a ∈ q, k ∈ (if a.txn_id_ = t then ls else s.get_lock_set a.txn_id_))
    (h4 : ∀ x ∈ s.get_lock_set t, x ∈ ls)
    (h5 : ∀ u, (u = t → st ≠ .SHRINKING) → (∃ a ∈ s.queue k, a.txn_id_ = u) →
      ∃ a ∈ q, a.txn_id_ = u)
    (h6 : ∀ x ∈ ls, x ∈ s.get_lock_set t ∨ (x = k ∧ ∃ a ∈ q, a.txn_id_ = t))
    (h7 : (q.map (fun r => r.txn_id_)).Nodup)
    (h8 : ∀ a ∈ q, a.granted_ = true)
    (h9 : g = groupJoin q) : Inv (s.put k q g t ⟨st, ls⟩) where
  coexist := by
    intro k2 a ha b hb
    rw [queue_put] at ha hb
    by_cases hk : k2 = k
    · simp only [hk, if_true] at ha hb
      exact h1 a ha b hb
    · simp only [hk, if_false] at ha hb
      exact hI.coexist k2 a ha b hb
  recordModes := by
    intro k2 hty a ha
    rw [queue_put] at ha
    by_cases hk : k2 = k
    · simp only [hk, if_true] at ha
      exact h2 (hk ▸ hty) a ha
    · simp only [hk, if_false] at ha
      exact hI.recordModes k2 hty a ha
  owned := by
    intro k2 a ha
    rw [queue_put] at ha
    rw [get_lock_set_put]
    by_cases hk : k2 = k
    · simp only [hk, if_true] at ha
      rw [hk]
      exact h3 a ha
    · simp only [hk, if_false] at ha
      have := hI.owned k2 a ha
      by_cases hu : a.txn_id_ = t
      · simp only [hu, if_true]
        exact h4 _ (hu ▸ this)
      · simp only [hu, if_false]
        exact this
  held := by
    intro u k2 hk2 hs
    rw [get_lock_set_put] at hk2
    rw [get_state_put] at hs
    rw [queue_put]
    have key : (∃ a ∈ s.queue k2, a.txn_id_ = u) → (u = t → st ≠ .SHRINKING) →
        ∃ a ∈ (if k2 = k then q else s.queue k2), a.txn_id_ = u := by
      intro hex hu
      by_cases hk : k2 = k
      · simp only [hk, if_true]
        exact h5 u hu (hk ▸ hex)
      · simp only [hk, if_false]
        exact hex
    by_cases hu : u = t
    · simp only [hu, if_true] at hk2 hs
      rcases h6 k2 hk2 with h | ⟨h, hex⟩
      · exact key (hI.held u k2 (hu ▸ h) (hu ▸ hst hs)) (fun _ => hs)
      · simp only [h, if_true]
        rw [hu]
        exact hex
    · simp only [hu, if_false] at hk2 hs
      exact key (hI.held u k2 hk2 hs) (fun h => absurd h hu)
  nodup := by
    intro k2
    rw [queue_put]
    by_cases hk : k2 = k
    · simp only [hk, if_true]
      exact h7
    · simp only [hk, if_false]
      exact hI.nodup k2
  granted := by
    intro k2 a ha
    rw [queue_put] at ha
    by_cases hk : k2 = k
    · simp only [hk, if_true] at ha
      exact h8 a ha
    · simp only [hk, if_false] at ha
      exact hI.granted k2 a ha
  group := by
    intro k2
    rw [queue_put, group_put]
    by_cases hk : k2 = k
    · simp only [hk, if_true]
      exact h9
    · simp only [hk, if_false]
      exact hI.group k2

theorem record_key_mode (c : LockCall) (h : c.key.type_ = .RECORD) :
    c.mode = .SHARED ∨ c.mode = .EXLUCSIVE := by
  cases c <;> simp_all [LockDataId.table, LockDataId.record]

theorem Inv.of_effect {s : State} {c : LockCall} {res : Outcome × State} (hI : Inv s)
    (h : Effect s c res) : Inv res.2 := by
  cases h with
  | shrinking _ => exact hI
  | terminal _ => exact hI
  | conflict b hv _ _ _ => exact hI.set_state _ _ (fun _ => hv.1)
  | noop hv _ _ _ => exact hI.set_state _ _ (fun _ => hv.1)
  | push hv hp1 hp2 =>
    apply hI.put _ _ _ _ _ _ (fun _ => hv.1)
    · intro a ha b hb hab
      rcases List.mem_append.mp ha with ha | ha <;> rcases List.mem_append.mp hb with hb | hb
      · exact hI.coexist _ a ha b hb hab
      · simp only [List.mem_singleton] at hb
        subst hb
        exact hp2 a ha
      · simp only [List.mem_singleton] at ha
        subst ha
        rw [coexist_symm]
        exact hp2 b hb
      · simp only [List.mem_singleton] at ha hb
        subst ha hb
        exact absurd rfl hab
    · intro hty a ha
      rcases List.mem_append.mp ha with ha | ha
      · exact hI.recordModes _ hty a ha
      · simp only [List.mem_singleton] at ha
        subst ha
        exact record_key_mode c hty
    · intro a ha
      rcases List.mem_append.mp ha with ha | ha
      · simp only [hp1 a ha, if_false]
        exact hI.owned _ a ha
      · simp only [List.mem_singleton] at ha
        subst ha
        simp
    · intro x hx
      exact List.mem_insert_of_mem hx
    · intro u _ hex
      obtain ⟨a, ha, hau⟩ := hex
      exact ⟨a, List.mem_append_left _ ha, hau⟩
    · intro x hx
      rcases List.mem_insert_iff.mp hx with h | h
      · exact Or.inr ⟨h, _, List.mem_append_right _ (List.mem_singleton_self _), rfl⟩
      · exact Or.inl h
    · rw [List.map_append, List.nodup_append]
      refine ⟨hI.nodup _, by simp, ?_⟩
      intro x hx hx2
      simp only [List.map_cons, List.map_nil, List.mem_singleton] at hx2
      obtain ⟨a, ha, hax⟩ := List.mem_map.mp hx
      exact hp1 a ha (hax.trans hx2)
    · intro a ha
      rcases List.mem_append.mp ha with ha | ha
      · exact hI.granted _ a ha
      · simp only [List.mem_singleton] at ha
        subst ha
        rfl
    · rw [groupJoin_append_granted _ _ rfl, hI.group]
  | upgrade j r0 m hv _ hj hu1 hu2 hu4 _ _ =>
    have hr0 := List.getElem?_mem hj
    apply hI.put _ _ _ _ _ _ (fun _ => hv.1)
    · intro a ha b hb hab
      rcases mem_setModeAt ha with ha | ⟨ra, hra, rfl⟩ <;>
        rcases mem_setModeAt hb with hb | ⟨rb, hrb, rfl⟩
      · exact hI.coexist _ a ha b hb hab
      · rw [hj] at hrb
        cases hrb
        exact hu1 a ha hab
      · rw [hj] at hra
        cases hra
        rw [coexist_symm]
        exact hu1 b hb (fun h => hab h.symm)
      · rw [hj] at hra hrb
        cases hra
        cases hrb
        exact absurd rfl hab
    · intro hty a ha
      rcases mem_setModeAt ha with ha | ⟨ra, _, rfl⟩
      · exact hI.recordModes _ hty a ha
      · exact hu2 hty
    · intro a ha
      have hold : ∃ a0 ∈ s.queue c.key, a0.txn_id_ = a.txn_id_ := by
        rcases mem_setModeAt ha with ha | ⟨ra, hra, rfl⟩
        · exact ⟨a, ha, rfl⟩
        · exact ⟨ra, List.getElem?_mem hra, rfl⟩
      obtain ⟨a0, ha0, hat⟩ := hold
      have := hI.owned _ a0 ha0
      rw [hat] at this
      by_cases hu : a.txn_id_ = c.txn
      · simp only [hu, if_true]
        exact hu ▸ this
      · simp only [hu, if_false]
        exact this
    · intro x hx
      exact hx
    · intro u _ hex
      obtain ⟨a, ha, hau⟩ := hex
      have : u ∈ (setModeAt (s.queue c.key) j m).map (fun r => r.txn_id_) := by
        rw [setModeAt_map_txn]
        exact List.mem_map.mpr ⟨a, ha, hau⟩
      obtain ⟨a2, ha2, hau2⟩ := List.mem_map.mp this
      exact ⟨a2, ha2, hau2⟩
    · intro x hx
      exact Or.inl hx
    · rw [setModeAt_map_txn]
      exact hI.nodup _
    · intro a ha
      rcases mem_setModeAt ha with ha | ⟨ra, hra, rfl⟩
      · exact hI.granted _ a ha
      · exact hI.granted _ ra (List.getElem?_mem hra)
    · rw [groupJoin_setModeAt hj (hI.granted _ r0 hr0) hu4, hI.group]

theorem Inv.unlock {s : State} (hI : Inv s) (t : Nat) (k : LockDataId) :
    Inv (unlock s t k).2 := by
  by_cases h1 : s.get_state t = .ABORTED ∨ s.get_state t = .COMMITTED
  · simp only [Rucbase.unlock, h1, if_true]
    exact hI
  simp only [Rucbase.unlock, h1, if_false, get_lock_set_set_state]
  by_cases h2 : k ∈ s.get_lock_set t
  · simp only [h2, not_true_eq_false, if_false]
    have hq : ((s.set_state t .SHRINKING).set_queue k
        (List.filter (fun it => decide (it.txn_id_ ≠ t)) ((s.set_state t .SHRINKING).queue k))).queue k
        = List.filter (fun it => decide (it.txn_id_ ≠ t)) (s.queue k) := by
      simp [State.set_queue, State.queue, State.set_state]
    rw [hq, set_queue_set_group_eq, queue_set_state, unlock_fold_eq]
    apply hI.put _ _ _ _ _ _ (fun h => absurd rfl h)
    · intro a ha b hb hab
      exact hI.coexist _ a (List.mem_of_mem_filter ha) b (List.mem_of_mem_filter hb) hab
    · intro hty a ha
      exact hI.recordModes _ hty a (List.mem_of_mem_filter ha)
    · intro a ha
      have := hI.owned _ a (List.mem_of_mem_filter ha)
      by_cases hu : a.txn_id_ = t
      · simp only [hu, if_true]
        exact hu ▸ this
      · simp only [hu, if_false]
        exact this
    · intro x hx
      exact hx
    · intro u hu hex
      obtain ⟨a, ha, hau⟩ := hex
      have hne : u ≠ t := fun h => hu h rfl
      exact ⟨a, List.mem_filter.mpr ⟨ha, by simpa [hau] using hne⟩, hau⟩
    · intro x hx
      exact Or.inl hx
    · exact (hI.nodup k).sublist ((List.filter_sublist _).map _)
    · intro a ha
      exact hI.granted _ a (List.mem_of_mem_filter ha)
    · rfl
  · simp only [h2, not_false_eq_true, if_true]
    exact hI.set_state _ _ (fun h => absurd rfl h)

/-- Every call keeps the invariant. -/
theorem Inv.step {s : State} (hI : Inv s) (c : Call) : Inv (c.run s).2 := by
  cases c with
  | lock c => exact hI.of_effect (effect_of_run hI c)
  | unlock t k => exact hI.unlock t k

/-- Every reachable state satisfies the invariant. -/
theorem Reachable.inv {s : State} (h : Reachable s) : Inv s := by
  induction h with
  | init st => exact Inv.init st
  | step c _ ih => exact ih.step c

/-! ## What a lock call does in any state -/

theorem shape_IS_on_table (s : State) (t : Nat) (fd : Int) :
    Shape s (.IS_on_table t fd) (lock_IS_on_table s t fd) := by
  by_cases h1 : s.get_state t = .SHRINKING
  · simp only [lock_IS_on_table, h1, if_true]
    exact Or.inl ⟨h1, rfl⟩
  by_cases h2 : s.get_state t = .ABORTED ∨ s.get_state t = .COMMITTED
  · simp only [lock_IS_on_table, h1, h2, if_true, if_false]
    exact Or.inr (Or.inl ⟨h2, rfl⟩)
  have hv : s.mayLock t := ⟨h1, fun h => h2 (Or.inl h), fun h => h2 (Or.inr h)⟩
  simp only [lock_IS_on_table, h1, h2, if_false, queue_set_state]
  rcases hres : forQueue (is_table_body t) (s.queue (LockDataId.table fd)) 0 false with o | v
  · obtain ⟨rfl, _⟩ := is_table_error hres
    exact Or.inr (Or.inr (Or.inl ⟨hv, _, Or.inr rfl, rfl⟩))
  · simp only []
    split_ifs
    · exact Or.inr (Or.inr (Or.inl ⟨hv, _, Or.inl rfl, rfl⟩))
    · exact Or.inr (Or.inr (Or.inr ⟨hv, _, _, _, by rw [push_set_group_eq]; rfl⟩))
    · exact Or.inr (Or.inr (Or.inr ⟨hv, _, _, _, by rw [push_eq]; rfl⟩))

theorem shape_IX_on_table (s : State) (t : Nat) (fd : Int) :
    Shape s (.IX_on_table t fd) (lock_IX_on_table s t fd) := by
  by_cases h1 : s.get_state t = .SHRINKING
  · simp only [lock_IX_on_table, h1, if_true]
    exact Or.inl ⟨h1, rfl⟩
  by_cases h2 : s.get_state t = .ABORTED ∨ s.get_state t = .COMMITTED
  · simp only [lock_IX_on_table, h1, h2, if_true, if_false]
    exact Or.inr (Or.inl ⟨h2, rfl⟩)
  have hv : s.mayLock t := ⟨h1, fun h => h2 (Or.inl h), fun h => h2 (Or.inr h)⟩
  simp only [lock_IX_on_table, h1, h2, if_false, queue_set_state]
  rcases hres : forQueue (ix_table_body t) (s.queue (LockDataId.table fd)) 0
    ⟨false, 0, false, 0, false⟩ with o | v
  · obtain ⟨rfl, _⟩ := ix_table_error hres
    exact Or.inr (Or.inr (Or.inl ⟨hv, _, Or.inr rfl, rfl⟩))
  · simp only []
    split_ifs
    all_goals first
      | exact Or.inr (Or.inr (Or.inl ⟨hv, _, Or.inl rfl, rfl⟩))
      | exact Or.inr (Or.inr (Or.inr ⟨hv, _, _, _, by rw [push_set_group_eq]; rfl⟩))
      | exact Or.inr (Or.inr (Or.inr ⟨hv, _, _, _, by rw [push_eq]; rfl⟩))
      | exact Or.inr (Or.inr (Or.inr ⟨hv, _, _, _, by rw [upgrade_set_group_eq]; rfl⟩))
      | exact Or.inr (Or.inr (Or.inr ⟨hv, _, _, _, by rw [upgrade_eq]; rfl⟩))

theorem shape_shared_on_table (s : State) (t : Nat) (fd : Int) :
    Shape s (.shared_on_table t fd) (lock_shared_on_table s t fd) := by
  by_cases h1 : s.get_state t = .SHRINKING
  · simp only [lock_shared_on_table, h1, if_true]
    exact Or.inl ⟨h1, rfl⟩
  by_cases h2 : s.get_state t = .ABORTED ∨ s.get_state t = .COMMITTED
  · simp only [lock_shared_on_table, h1, h2, if_true, if_false]
    exact Or.inr (Or.inl ⟨h2, rfl⟩)
  have hv : s.mayLock t := ⟨h1, fun h => h2 (Or.inl h), fun h => h2 (Or.inr h)⟩
  simp only [lock_shared_on_table, h1, h2, if_false, queue_set_state]
  rcases hres : forQueue (shared_table_body t) (s.queue (LockDataId.table fd)) 0
    ⟨false, 0, false, 0, false⟩ with o | v
  · obtain ⟨rfl, _⟩ := shared_table_error hres
    exact Or.inr (Or.inr (Or.inl ⟨hv, _, Or.inr rfl, rfl⟩))
  · simp only []
    split_ifs
    all_goals first
      | exact Or.inr (Or.inr (Or.inl ⟨hv, _, Or.inl rfl, rfl⟩))
      | exact Or.inr (Or.inr (Or.inr ⟨hv, _, _, _, by rw [push_set_group_eq]; rfl⟩))
      | exact Or.inr (Or.inr (Or.inr ⟨hv, _, _, _, by rw [push_eq]; rfl⟩))
      | exact Or.inr (Or.inr (Or.inr ⟨hv, _, _, _, by rw [upgrade_set_group_eq]; rfl⟩))
      | exact Or.inr (Or.inr (Or.inr ⟨hv, _, _, _, by rw [upgrade_eq]; rfl⟩))

theorem shape_exclusive_on_table (s : State) (t : Nat) (fd : Int) :
    Shape s (.exclusive_on_table t fd) (lock_exclusive_on_table s t fd) := by
  by_cases h1 : s.get_state t = .SHRINKING
  · simp only [lock_exclusive_on_table, h1, if_true]
    exact Or.inl ⟨h1, rfl⟩
  by_cases h2 : s.get_state t = .ABORTED ∨ s.get_state t = .COMMITTED
  · simp only [lock_exclusive_on_table, h1, h2, if_true, if_false]
    exact Or.inr (Or.inl ⟨h2, rfl⟩)
  have hv : s.mayLock t := ⟨h1, fun h => h2 (Or.inl h), fun h => h2 (Or.inr h)⟩
  simp only [lock_exclusive_on_table, h1, h2, if_false, queue_set_state]
  rcases hres : forQueue (excl_table_body t) (s.queue (LockDataId.table fd)) 0
    ⟨false, 0, false⟩ with o | v
  · obtain ⟨rfl, _⟩ := excl_table_error hres
    exact Or.inr (Or.inr (Or.inl ⟨hv, _, Or.inr rfl, rfl⟩))
  · simp only []
    split_ifs
    all_goals first
      | exact Or.inr (Or.inr (Or.inl ⟨hv, _, Or.inl rfl, rfl⟩))
      | exact Or.inr (Or.inr (Or.inr ⟨hv, _, _, _, by rw [push_set_group_eq]; rfl⟩))
      | exact Or.inr (Or.inr (Or.inr ⟨hv, _, _, _, by rw [push_eq]; rfl⟩))
      | exact Or.inr (Or.inr (Or.inr ⟨hv, _, _, _, by rw [upgrade_set_group_eq]; rfl⟩))

theorem shape_exclusive_on_record (s : State) (t : Nat) (rid : Rid) (fd : Int) :
    Shape s (.exclusive_on_record t rid fd) (lock_exclusive_on_record s t rid fd) := by
  by_cases h1 : s.get_state t = .SHRINKING
  · simp only [lock_exclusive_on_record, h1, if_true]
    exact Or.inl ⟨h1, rfl⟩
  by_cases h2 : s.get_state t = .ABORTED ∨ s.get_state t = .COMMITTED
  · simp only [lock_exclusive_on_record, h1, h2, if_true, if_false]
    exact Or.inr (Or.inl ⟨h2, rfl⟩)
  have hv : s.mayLock t := ⟨h1, fun h => h2 (Or.inl h), fun h => h2 (Or.inr h)⟩
  simp only [lock_exclusive_on_record, h1, h2, if_false, queue_set_state]
  rcases hres : forQueue (excl_record_body t) (s.queue (LockDataId.record fd rid)) 0
    ⟨0, false⟩ with o | v
  · rcases excl_record_error hres with ⟨rfl, _⟩ | ⟨rfl, _⟩
    · exact Or.inr (Or.inr (Or.inl ⟨hv, _, Or.inr rfl, rfl⟩))
    · exact Or.inr (Or.inr (Or.inl ⟨hv, _, Or.inl rfl, rfl⟩))
  · simp only []
    split_ifs
    all_goals first
      | exact Or.inr (Or.inr (Or.inl ⟨hv, _, Or.inl rfl, rfl⟩))
      | exact Or.inr (Or.inr (Or.inr ⟨hv, _, _, _, by rw [push_set_group_eq]; rfl⟩))
      | exact Or.inr (Or.inr (Or.inr ⟨hv, _, _, _, by rw [push_eq]; rfl⟩))
      | exact Or.inr (Or.inr (Or.inr ⟨hv, _, _, _, by rw [upgrade_set_group_eq]; rfl⟩))
      | exact Or.inr (Or.inr (Or.inr ⟨hv, _, _, _, by rw [upgrade_eq]; rfl⟩))

theorem shape_shared_on_record (s : State) (t : Nat) (rid : Rid) (fd : Int) :
    Shape s (.shared_on_record t rid fd) (lock_shared_on_record s t rid fd) := by
  by_cases h1 : s.get_state t = .SHRINKING
  · simp only [lock_shared_on_record, h1, if_true]
    exact Or.inl ⟨h1, rfl⟩
  by_cases h2 : s.get_state t = .ABORTED ∨ s.get_state t = .COMMITTED
  · simp only [lock_shared_on_record, h1, h2, if_true, if_false]
    exact Or.inr (Or.inl ⟨h2, rfl⟩)
  have hv : s.mayLock t := ⟨h1, fun h => h2 (Or.inl h), fun h => h2 (Or.inr h)⟩
  simp only [lock_shared_on_record, h1, h2, if_false, queue_set_state, get_lock_set_set_state]
  by_cases h3 : LockDataId.record fd rid ∈ s.get_lock_set t
  · simp only [h3, if_true]
    exact Or.inr (Or.inr (Or.inl ⟨hv, _, Or.inl rfl, rfl⟩))
  simp only [h3, if_false]
  rcases hres : forQueue (shared_record_body t) (s.queue (LockDataId.record fd rid)) 0 ()
    with o | v
  · obtain ⟨rfl, _⟩ := shared_record_error hres
    exact Or.inr (Or.inr (Or.inl ⟨hv, _, Or.inr rfl, rfl⟩))
  · simp only []
    split_ifs
    all_goals first
      | exact Or.inr (Or.inr (Or.inr ⟨hv, _, _, _, by rw [push_set_group_eq]; rfl⟩))
      | exact Or.inr (Or.inr (Or.inr ⟨hv, _, _, _, by rw [push_eq]; rfl⟩))

/-- Every lock call ends in one of the four ways of `Shape`. -/
theorem shape_of_run (s : State) (c : LockCall) : Shape s c (c.run s) := by
  cases c with
  | shared_on_record t rid fd => exact shape_shared_on_record s t rid fd
  | exclusive_on_record t rid fd => exact shape_exclusive_on_record s t rid fd
  | shared_on_table t fd => exact shape_shared_on_table s t fd
  | exclusive_on_table t fd => exact shape_exclusive_on_table s t fd
  | IS_on_table t fd => exact shape_IS_on_table s t fd
  | IX_on_table t fd => exact shape_IX_on_table s t fd

/-- The state of a transaction after a lock call: `GROWING` for the caller if it may
lock, unchanged otherwise. -/
theorem get_state_run (s : State) (c : LockCall) (u : Nat) :
    (c.run s).2.get_state u =
      if u = c.txn ∧ s.mayLock c.txn then .GROWING else s.get_state u := by
  rcases shape_of_run s c with ⟨h, hr⟩ | ⟨h, hr⟩ | ⟨hv, o, _, hr⟩ | ⟨hv, q, g, ls, hr⟩
  · rw [hr]
    have : ¬ s.mayLock c.txn := fun hv => hv.1 h
    simp [this]
  · rw [hr]
    have : ¬ s.mayLock c.txn := fun hv => by
      rcases h with h | h
      · exact hv.2.1 h
      · exact hv.2.2 h
    simp [this]
  · rw [hr]
    simp [get_state_set_state, hv]
  · rw [hr]
    simp [get_state_put, hv]

/-- The state of a transaction after `unlock`: `SHRINKING` for the caller unless it is
finished, unchanged otherwise. -/
theorem get_state_unlock (s : State) (t : Nat) (k : LockDataId) (u : Nat) :
    (unlock s t k).2.get_state u =
      if u = t ∧ ¬ (s.get_state t = .ABORTED ∨ s.get_state t = .COMMITTED) then .SHRINKING
      else s.get_state u := by
  by_cases h1 : s.get_state t = .ABORTED ∨ s.get_state t = .COMMITTED
  · simp [Rucbase.unlock, h1]
  · simp only [Rucbase.unlock, h1, if_false, get_lock_set_set_state]
    by_cases h2 : k ∈ s.get_lock_set t
    · simp only [h2, not_true_eq_false, if_false, set_queue_set_group_eq, get_state_put]
      by_cases hu : u = t <;> simp [hu, h1]
    · simp only [h2, not_false_eq_true, if_true, get_state_set_state]
      by_cases hu : u = t <;> simp [hu, h1]

/-! ## Reachable example states -/

theorem reachable_runAll {s : State} (h : Reachable s) (cs : List Call) :
    Reachable (runAll s cs) := by
  induction cs generalizing s with
  | nil => exact h
  | cons c cs ih => exact ih (Reachable.step c h)

theorem exInit_reachable : Reachable exInit := Reachable.init _

theorem exSharedTable_reachable : Reachable exSharedTable :=
  reachable_runAll exInit_reachable _

theorem exTableSIX_reachable : Reachable exTableSIX :=
  reachable_runAll exInit_reachable _

theorem exRecordS_reachable : Reachable exRecordS :=
  reachable_runAll exInit_reachable _

theorem exRecordX_reachable : Reachable exRecordX :=
  reachable_runAll exInit_reachable _

theorem exTableIS_reachable : Reachable exTableIS :=
  reachable_runAll exInit_reachable _

/-! ## The claims -/

/-- C1. Lock compatibility invariant: in every state reachable from the empty table by
calls of the six lock operations and `unlock`, two requests that sit in the queue of one
key and belong to different transactions have modes that are compatible under the table
of spec section 4.10. -/
theorem lock_compatibility_invariant {s : State} (h : Reachable s) (k : LockDataId)
    (a b : LockRequest) (ha : a ∈ s.queue k) (hb : b ∈ s.queue k)
    (hab : a.txn_id_ ≠ b.txn_id_) : compatible a.lock_mode_ b.lock_mode_ = true :=
  coexist_compatible (h.inv.coexist k a ha b hb hab)

/-- Witness of C1: on table 7, after `IS` by transaction 1 and `S` by transaction 2, the
two requests of the queue are compatible. -/
theorem lock_compatibility_invariant_witness :
    Reachable exSharedTable ∧
    (⟨1, .INTENTION_SHARED, true⟩ : LockRequest) ∈ exSharedTable.queue (.table 7) ∧
    (⟨2, .SHARED, true⟩ : LockRequest) ∈ exSharedTable.queue (.table 7) ∧
    (1 : Nat) ≠ 2 ∧
    compatible .INTENTION_SHARED .SHARED = true :=
  ⟨exSharedTable_reachable, by decide, by decide, by decide,
    lock_compatibility_invariant exSharedTable_reachable (.table 7)
      ⟨1, .INTENTION_SHARED, true⟩ ⟨2, .SHARED, true⟩ (by decide) (by decide) (by decide)⟩

/-- C2. Group mode invariant: in every reachable state the `group_lock_mode_` of every
queue is the least upper bound, in the lattice `NONE < IS < {IX, S} < SIX < X`, of the
modes of the granted requests of the queue; it is the join of these modes, and `NON_LOCK`
for an empty queue. -/
theorem group_mode_invariant {s : State} (h : Reachable s) (k : LockDataId) :
    IsGroupLub (s.group k) (s.queue k) ∧ s.group k = groupJoin (s.queue k) ∧
    (s.queue k = [] → s.group k = .NON_LOCK) := by
  have hg := h.inv.group k
  refine ⟨hg ▸ groupJoin_isLub _, hg, ?_⟩
  intro hq
  rw [hg, hq]
  rfl

/-- Witness of C2: on table 7, after `S` and then `IX` by transaction 1, the queue holds
one `SIX` request and the group mode is `SIX`. -/
theorem group_mode_invariant_witness :
    Reachable exTableSIX ∧
    exTableSIX.queue (.table 7) = [⟨1, .S_IX, true⟩] ∧
    exTableSIX.group (.table 7) = .SIX ∧
    IsGroupLub (exTableSIX.group (.table 7)) (exTableSIX.queue (.table 7)) :=
  ⟨exTableSIX_reachable, by decide, by decide,
    (group_mode_invariant exTableSIX_reachable (.table 7)).1⟩

/-- A transaction that is `SHRINKING`, `ABORTED` or `COMMITTED` stays so under every
call. -/
theorem get_state_stays (s : State) (c : Call) (u : Nat)
    (h : s.get_state u = .SHRINKING ∨ s.get_state u = .ABORTED ∨ s.get_state u = .COMMITTED) :
    (c.run s).2.get_state u = s.get_state u := by
  cases c with
  | lock c =>
    show (c.run s).2.get_state u = s.get_state u
    rw [get_state_run]
    by_cases hu : u = c.txn
    · subst hu
      have : ¬ s.mayLock c.txn := by
        intro hv
        rcases h with h | h | h
        · exact hv.1 h
        · exact hv.2.1 h
        · exact hv.2.2 h
      simp [this]
    · simp [hu]
  | unlock t k =>
    show (unlock s t k).2.get_state u = s.get_state u
    rw [get_state_unlock]
    by_cases hu : u = t
    · subst hu
      rcases h with h | h | h <;> simp [h]
    · simp [hu]

theorem get_state_stays_runAll (cs : List Call) (s : State) (u : Nat)
    (h : s.get_state u = .SHRINKING ∨ s.get_state u = .ABORTED ∨ s.get_state u = .COMMITTED) :
    (runAll s cs).get_state u = s.get_state u := by
  induction cs generalizing s with
  | nil => rfl
  | cons c cs ih =>
    have h1 := get_state_stays s c u h
    show (runAll (c.run s).2 cs).get_state u = s.get_state u
    rw [ih (c.run s).2 (h1 ▸ h), h1]

theorem get_state_after_unlock (s : State) (t : Nat) (k : LockDataId) :
    (unlock s t k).2.get_state t = .SHRINKING ∨ (unlock s t k).2.get_state t = .ABORTED ∨
      (unlock s t k).2.get_state t = .COMMITTED := by
  rw [get_state_unlock]
  by_cases h : s.get_state t = .ABORTED ∨ s.get_state t = .COMMITTED
  · rw [if_neg (fun hh => hh.2 h)]
    exact Or.inr h
  · simp [h]

/-- A lock call of a transaction that may not lock does not return `true`. -/
theorem run_not_true (s : State) (c : LockCall) (h : ¬ s.mayLock c.txn) :
    (c.run s).1 ≠ .ret true := by
  rcases shape_of_run s c with ⟨_, hr⟩ | ⟨_, hr⟩ | ⟨hv, _⟩ | ⟨hv, _⟩
  · rw [hr]; simp
  · rw [hr]; simp
  · exact absurd hv h
  · exact absurd hv h

/-- C3. Two-phase locking is monotone: once `unlock` has been called on a transaction,
whatever it returned, the transaction is `SHRINKING` (or still `ABORTED` or `COMMITTED`)
after any further sequence of calls and none of its later lock calls returns `true`; no
call moves a `SHRINKING` transaction to another state; and a `GROWING` transaction is
`SHRINKING` after `unlock` and its next lock call raises `LOCK_ON_SHIRINKING`. -/
theorem two_phase_monotonic :
    (∀ (s : State) (t : Nat) (k : LockDataId) (cs : List Call),
      ((runAll (unlock s t k).2 cs).get_state t = .SHRINKING ∨
        (runAll (unlock s t k).2 cs).get_state t = .ABORTED ∨
        (runAll (unlock s t k).2 cs).get_state t = .COMMITTED) ∧
      ∀ c : LockCall, c.txn = t → (c.run (runAll (unlock s t k).2 cs)).1 ≠ .ret true) ∧
    (∀ (s : State) (c : Call) (u : Nat), s.get_state u = .SHRINKING →
      (c.run s).2.get_state u = .SHRINKING) ∧
    (∀ (s : State) (t : Nat) (k : LockDataId), s.get_state t = .GROWING →
      (unlock s t k).2.get_state t = .SHRINKING ∧
      ∀ c : LockCall, c.txn = t →
        c.run (unlock s t k).2 = (.raise .LOCK_ON_SHIRINKING, (unlock s t k).2)) := by
  refine ⟨?_, ?_, ?_⟩
  · intro s t k cs
    have h1 := get_state_after_unlock s t k
    have h2 := get_state_stays_runAll cs _ t h1
    have h3 : (runAll (unlock s t k).2 cs).get_state t = .SHRINKING ∨
        (runAll (unlock s t k).2 cs).get_state t = .ABORTED ∨
        (runAll (unlock s t k).2 cs).get_state t = .COMMITTED := by
      rw [h2]
      exact h1
    refine ⟨h3, ?_⟩
    intro c hc
    apply run_not_true
    rw [hc]
    intro hv
    rcases h3 with h | h | h
    · exact hv.1 h
    · exact hv.2.1 h
    · exact hv.2.2 h
  · intro s c u h
    rw [get_state_stays s c u (Or.inl h), h]
  · intro s t k h
    have h1 : (unlock s t k).2.get_state t = .SHRINKING := by
      rw [get_state_unlock]
      simp [h]
    refine ⟨h1, ?_⟩
    intro c hc
    rcases shape_of_run (unlock s t k).2 c with ⟨_, hr⟩ | ⟨h2, _⟩ | ⟨hv, _⟩ | ⟨hv, _⟩
    · exact hr
    · rw [hc, h1] at h2
      simp at h2
    · rw [hc] at hv
      exact absurd h1 hv.1
    · rw [hc] at hv
      exact absurd h1 hv.1

/-- Witness of C3: transaction 1 is `GROWING` and holds `S` on record `(3, 4)` of table 7;
after `unlock` it is `SHRINKING` and its next `lock_shared_on_record` raises
`LOCK_ON_SHIRINKING`. -/
theorem two_phase_monotonic_witness :
    exRecordS.get_state 1 = .GROWING ∧
    exRecordS.queue (.record 7 ⟨3, 4⟩) = [⟨1, .SHARED, true⟩] ∧
    (unlock exRecordS 1 (.record 7 ⟨3, 4⟩)).1 = .ret true ∧
    (unlock exRecordS 1 (.record 7 ⟨3, 4⟩)).2.get_state 1 = .SHRINKING ∧
    (lock_shared_on_record (unlock exRecordS 1 (.record 7 ⟨3, 4⟩)).2 1 ⟨3, 5⟩ 7).1 =
      .raise .LOCK_ON_SHIRINKING :=
  ⟨by decide, by decide, by decide,
    (two_phase_monotonic.2.2 exRecordS 1 (.record 7 ⟨3, 4⟩) (by decide)).1,
    congrArg Prod.fst
      ((two_phase_monotonic.2.2 exRecordS 1 (.record 7 ⟨3, 4⟩) (by decide)).2
        (.shared_on_record 1 ⟨3, 5⟩ 7) rfl)⟩

/-- C4. No-wait conflict detection: in every reachable state, when a transaction that
may lock calls one of the six lock operations and the queue of the key holds a request of
another transaction whose mode is incompatible with the requested mode, the call raises
`DEADLOCK_PREVENTION`; the lock table and the lock sets are as before. -/
theorem no_wait_conflict {s : State} (h : Reachable s) (c : LockCall)
    (hv : s.mayLock c.txn) (b : LockRequest) (hb : b ∈ s.queue c.key)
    (hbt : b.txn_id_ ≠ c.txn) (hinc : compatible b.lock_mode_ c.mode = false) :
    (c.run s).1 = .raise .DEADLOCK_PREVENTION ∧
    (c.run s).2.lock_table_ = s.lock_table_ ∧
    ∀ u, (c.run s).2.get_lock_set u = s.get_lock_set u := by
  have he := effect_of_run h.inv c
  generalize c.run s = res at he
  cases he with
  | shrinking h1 => exact absurd h1 hv.1
  | terminal h1 =>
    rcases h1 with h1 | h1
    · exact absurd h1 hv.2.1
    · exact absurd h1 hv.2.2
  | conflict b2 _ _ _ _ => exact ⟨rfl, rfl, fun u => get_lock_set_set_state _ _ _ _⟩
  | noop _ hnc _ _ =>
    rw [hnc b hb hbt] at hinc
    cases hinc
  | push _ _ hp2 =>
    rw [coexist_compatible (hp2 b hb)] at hinc
    cases hinc
  | upgrade j r0 m _ hnc _ _ _ _ _ _ =>
    rw [hnc b hb hbt] at hinc
    cases hinc

/-- Witness of C4: transaction 1 holds `X` on record `(3, 4)` of table 7; the request of
`S` by transaction 2 raises `DEADLOCK_PREVENTION`. -/
theorem no_wait_conflict_witness :
    Reachable exRecordX ∧ exRecordX.mayLock 2 ∧
    (⟨1, .EXLUCSIVE, true⟩ : LockRequest) ∈ exRecordX.queue (.record 7 ⟨3, 4⟩) ∧
    (1 : Nat) ≠ 2 ∧ compatible .EXLUCSIVE .SHARED = false ∧
    (lock_shared_on_record exRecordX 2 ⟨3, 4⟩ 7).1 = .raise .DEADLOCK_PREVENTION :=
  ⟨exRecordX_reachable, by decide, by decide, by decide, by decide,
    (no_wait_conflict exRecordX_reachable (.shared_on_record 2 ⟨3, 4⟩ 7) (by decide)
      ⟨1, .EXLUCSIVE, true⟩ (by decide) (by decide) (by decide)).1⟩

/-- C5. A refused lock changes nothing: whenever one of the six lock operations raises
`DEADLOCK_PREVENTION`, in any state, the whole lock table (every queue with its requests
and its group mode) and the lock set of every transaction are as they were before the
call. -/
theorem refused_lock_atomic (s : State) (c : LockCall)
    (h : (c.run s).1 = .raise .DEADLOCK_PREVENTION) :
    (c.run s).2.lock_table_ = s.lock_table_ ∧
    ∀ u, (c.run s).2.get_lock_set u = s.get_lock_set u := by
  rcases shape_of_run s c with ⟨_, hr⟩ | ⟨_, hr⟩ | ⟨_, o, _, hr⟩ | ⟨_, q, g, ls, hr⟩
  · rw [hr]
    exact ⟨rfl, fun _ => rfl⟩
  · rw [hr]
    exact ⟨rfl, fun _ => rfl⟩
  · rw [hr]
    exact ⟨rfl, fun u => get_lock_set_set_state _ _ _ _⟩
  · rw [hr] at h
    cases h

/-- Witness of C5: transaction 1 holds `X` on record `(3, 4)` of table 7; the request of
`S` by transaction 2 is refused and the queue still holds the request of transaction 1,
unchanged. -/
theorem refused_lock_atomic_witness :
    (lock_shared_on_record exRecordX 2 ⟨3, 4⟩ 7).1 = .raise .DEADLOCK_PREVENTION ∧
    exRecordX.queue (.record 7 ⟨3, 4⟩) = [⟨1, .EXLUCSIVE, true⟩] ∧
    (lock_shared_on_record exRecordX 2 ⟨3, 4⟩ 7).2.lock_table_ = exRecordX.lock_table_ ∧
    (lock_shared_on_record exRecordX 2 ⟨3, 4⟩ 7).2.queue (.record 7 ⟨3, 4⟩) =
      [⟨1, .EXLUCSIVE, true⟩] :=
  ⟨by decide, by decide,
    (refused_lock_atomic exRecordX (.shared_on_record 2 ⟨3, 4⟩ 7) (by decide)).1,
    by decide⟩

/-- C6. Validation of the two-phase-locking state, for each of the six lock operations and
every state: for a `SHRINKING` transaction the call raises `LOCK_ON_SHIRINKING`, for an
`ABORTED` or `COMMITTED` one it returns `false`, and in both cases the state (lock table,
lock sets, transaction states) is as before; in any other state of the transaction, the
transaction is `GROWING` after the call. -/
theorem state_validation (s : State) (c : LockCall) :
    (s.get_state c.txn = .SHRINKING → c.run s = (.raise .LOCK_ON_SHIRINKING, s)) ∧
    (s.get_state c.txn = .ABORTED ∨ s.get_state c.txn = .COMMITTED →
      c.run s = (.ret false, s)) ∧
    (s.mayLock c.txn → (c.run s).2.get_state c.txn = .GROWING) := by
  refine ⟨?_, ?_, ?_⟩
  · intro h
    rcases shape_of_run s c with ⟨_, hr⟩ | ⟨h2, _⟩ | ⟨hv, _⟩ | ⟨hv, _⟩
    · exact hr
    · rw [h] at h2
      simp at h2
    · exact absurd h hv.1
    · exact absurd h hv.1
  · intro h
    rcases shape_of_run s c with ⟨h2, _⟩ | ⟨_, hr⟩ | ⟨hv, _⟩ | ⟨hv, _⟩
    · rw [h2] at h
      simp at h
    · exact hr
    · rcases h with h | h
      · exact absurd h hv.2.1
      · exact absurd h hv.2.2
    · rcases h with h | h
      · exact absurd h hv.2.1
      · exact absurd h hv.2.2
  · intro hv
    rw [get_state_run]
    simp [hv]

/-- Witness of C6: after its `unlock`, transaction 1 is `SHRINKING` and `lock_IX_on_table`
raises `LOCK_ON_SHIRINKING` and leaves the state as it is; transaction 2, in state
`DEFAULT`, is `GROWING` after `lock_IX_on_table`. -/
theorem state_validation_witness :
    (unlock exRecordS 1 (.record 7 ⟨3, 4⟩)).2.get_state 1 = .SHRINKING ∧
    lock_IX_on_table (unlock exRecordS 1 (.record 7 ⟨3, 4⟩)).2 1 7 =
      (.raise .LOCK_ON_SHIRINKING, (unlock exRecordS 1 (.record 7 ⟨3, 4⟩)).2) ∧
    exRecordS.get_state 2 = .DEFAULT ∧
    (lock_IX_on_table exRecordS 2 7).2.get_state 2 = .GROWING :=
  ⟨by decide,
    (state_validation (unlock exRecordS 1 (.record 7 ⟨3, 4⟩)).2 (.IX_on_table 1 7)).1
      (by decide),
    by decide,
    (state_validation exRecordS (.IX_on_table 2 7)).2.2 (by decide)⟩

/-- The join of two request modes is the first one exactly when the second one is below
the first one in the lattice. -/
theorem le_of_join_eq {a r : LockMode} (h : a.join r = a) : r.toGroup.le a.toGroup = true := by
  cases a <;> cases r <;> first | rfl | exact absurd h (by decide)

theorem le_join_mode (a r : LockMode) : r.toGroup.le (a.join r).toGroup = true := by
  cases a <;> cases r <;> rfl

/-- C7, counterexample. Transaction 1 holds `IX` on table 7; its `lock_shared_on_table`
returns `true` and its request in the queue has mode `SIX` afterwards: the queue holds no
request of the transaction with mode `S` or `X`. -/
theorem shared_table_grant_SIX :
    Reachable exTableIX ∧
    (lock_shared_on_table exTableIX 1 7).1 = .ret true ∧
    (lock_shared_on_table exTableIX 1 7).2.queue (.table 7) = [⟨1, .S_IX, true⟩] ∧
    ¬ ∃ a ∈ (lock_shared_on_table exTableIX 1 7).2.queue (.table 7),
      a.txn_id_ = 1 ∧ (a.lock_mode_ = .SHARED ∨ a.lock_mode_ = .EXLUCSIVE) :=
  ⟨reachable_runAll exInit_reachable _, by decide, by decide, by decide⟩

/-- C7, amended. Grant postcondition for `S` and `X` locks: in every reachable state,
whenever `lock_shared_on_record`, `lock_exclusive_on_record`, `lock_shared_on_table` or
`lock_exclusive_on_table` returns `true`, the queue of the key afterwards holds a granted
request of the caller whose mode is at least the requested mode in the lattice (`S`, `SIX`
or `X` for a shared request, and `S` or `X` if the key is a record; `X` for an exclusive
request), and the key is in the lock set of the caller. -/
theorem grant_postcondition_SX {s : State} (h : Reachable s) (c : LockCall)
    (hsx : c.isSX = true) (hret : (c.run s).1 = .ret true) :
    (∃ a ∈ (c.run s).2.queue c.key, a.txn_id_ = c.txn ∧ a.granted_ = true ∧
      c.mode.toGroup.le a.lock_mode_.toGroup = true ∧
      (c.mode = .SHARED →
        a.lock_mode_ = .SHARED ∨ a.lock_mode_ = .S_IX ∨ a.lock_mode_ = .EXLUCSIVE) ∧
      (c.mode = .EXLUCSIVE → a.lock_mode_ = .EXLUCSIVE) ∧
      (c.key.type_ = .RECORD → a.lock_mode_ = .SHARED ∨ a.lock_mode_ = .EXLUCSIVE)) ∧
    c.key ∈ (c.run s).2.get_lock_set c.txn := by
  have hI := h.inv
  have hI2 : Inv (c.run s).2 := hI.of_effect (effect_of_run hI c)
  have he := effect_of_run hI c
  suffices hex : ∃ a ∈ (c.run s).2.queue c.key, a.txn_id_ = c.txn ∧
      c.mode.toGroup.le a.lock_mode_.toGroup = true by
    obtain ⟨a, ha, hat, hle⟩ := hex
    refine ⟨⟨a, ha, hat, hI2.granted _ a ha, hle, ?_, ?_,
      fun hty => hI2.recordModes _ hty a ha⟩, ?_⟩
    · intro hm
      rw [hm] at hle
      cases hm2 : a.lock_mode_ <;> simp_all [LockMode.toGroup, GroupLockMode.le]
    · intro hm
      rw [hm] at hle
      cases hm2 : a.lock_mode_ <;> simp_all [LockMode.toGroup, GroupLockMode.le]
    · rw [← hat]
      exact hI2.owned _ a ha
  generalize c.run s = res at he hret ⊢
  cases he with
  | shrinking _ => cases hret
  | terminal _ => cases hret
  | conflict _ _ _ _ _ => cases hret
  | noop _ _ hn2 hn1 =>
    obtain ⟨a, ha, hat⟩ := hn1 hsx
    exact ⟨a, ha, hat, le_of_join_eq (hn2 a ha hat)⟩
  | push _ _ _ =>
    refine ⟨⟨c.txn, c.mode, true⟩, ?_, rfl, le_refl_mode _⟩
    simp [queue_put]
  | upgrade j r0 m _ _ hj _ _ _ hu6 hu7 =>
    have hown : r0.txn_id_ = c.txn := by
      by_contra hne
      have := (hu7 hne).1
      cases c <;> simp_all
    refine ⟨{ r0 with lock_mode_ := m }, ?_, hown, ?_⟩
    · simp only [queue_put, if_true]
      exact mem_setModeAt_new hj
    · rw [hu6 hown]
      exact le_join_mode _ _

/-- Witness of C7: on the empty table, `lock_shared_on_record` of transaction 1 on record
`(3, 4)` of table 7 returns `true`; afterwards the queue holds its granted `S` request and
the key is in its lock set. -/
theorem grant_postcondition_SX_witness :
    Reachable exInit ∧
    (lock_shared_on_record exInit 1 ⟨3, 4⟩ 7).1 = .ret true ∧
    (lock_shared_on_record exInit 1 ⟨3, 4⟩ 7).2.queue (.record 7 ⟨3, 4⟩) =
      [⟨1, .SHARED, true⟩] ∧
    LockDataId.record 7 ⟨3, 4⟩ ∈ (lock_shared_on_record exInit 1 ⟨3, 4⟩ 7).2.get_lock_set 1 :=
  ⟨exInit_reachable, by decide, by decide,
    (grant_postcondition_SX exInit_reachable (.shared_on_record 1 ⟨3, 4⟩ 7) rfl
      (by decide)).2⟩

/-- C8. The code at the failing input: transaction 1 holds `IS` on table 7. Then
`lock_IS_on_table` of transaction 2 returns `true`, but the queue holds no request of
transaction 2 and its lock set is empty; and `lock_IX_on_table` of transaction 2 returns
`true`, but it is the request of transaction 1 that has become `IX`, the queue holds no
request of transaction 2 and its lock set is empty. -/
theorem intention_lock_granted_to_nobody :
    exTableIS.queue (.table 7) = [⟨1, .INTENTION_SHARED, true⟩] ∧
    (lock_IS_on_table exTableIS 2 7).1 = .ret true ∧
    (lock_IS_on_table exTableIS 2 7).2.queue (.table 7) = [⟨1, .INTENTION_SHARED, true⟩] ∧
    (lock_IS_on_table exTableIS 2 7).2.get_lock_set 2 = [] ∧
    (lock_IX_on_table exTableIS 2 7).1 = .ret true ∧
    (lock_IX_on_table exTableIS 2 7).2.queue (.table 7) =
      [⟨1, .INTENTION_EXCLUSIVE, true⟩] ∧
    (lock_IX_on_table exTableIS 2 7).2.get_lock_set 2 = [] := by
  decide

/-- C9. Upgrade of a sole holder: in every reachable state, when a `GROWING` transaction
owns the only request of the queue of a key, with mode `m`, its lock call on this key
with requested mode `r` returns `true` and leaves the queue with exactly one request, the
one of the transaction with mode `join m r`, and with this mode as group mode. -/
theorem sole_holder_upgrade {s : State} (h : Reachable s) (c : LockCall) (r0 : LockRequest)
    (hst : s.get_state c.txn = .GROWING) (hq : s.queue c.key = [r0])
    (hown : r0.txn_id_ = c.txn) :
    (c.run s).1 = .ret true ∧
    (c.run s).2.queue c.key = [{ r0 with lock_mode_ := r0.lock_mode_.join c.mode }] ∧
    (c.run s).2.group c.key = (r0.lock_mode_.join c.mode).toGroup := by
  have hI := h.inv
  have he := effect_of_run hI c
  have hr0 : r0 ∈ s.queue c.key := by simp [hq]
  have hgr : s.group c.key = r0.lock_mode_.toGroup := by
    rw [hI.group, hq, groupJoin_cons, hI.granted _ r0 hr0]
    simp [groupJoin_nil, join_non_lock]
  generalize c.run s = res at he ⊢
  cases he with
  | shrinking h1 => rw [hst] at h1; cases h1
  | terminal h1 => rw [hst] at h1; simp at h1
  | conflict b _ hb hbt _ =>
    rw [hq, List.mem_singleton] at hb
    subst hb
    exact absurd hown hbt
  | noop _ _ hn2 _ =>
    have hj := hn2 r0 hr0 hown
    refine ⟨rfl, ?_, ?_⟩
    · rw [hj]
      exact hq
    · rw [hj]
      exact hgr
  | push _ hp1 _ => exact absurd hown (hp1 r0 hr0)
  | upgrade j r1 m _ _ hj _ _ hu4 hu6 _ =>
    have hj0 : j = 0 ∧ r1 = r0 := by
      rw [hq] at hj
      cases j with
      | zero => simpa using hj.symm
      | succ j => simp at hj
    obtain ⟨rfl, rfl⟩ := hj0
    have hm := hu6 hown
    refine ⟨rfl, ?_, ?_⟩
    · simp only [queue_put, if_true, hq, setModeAt, hm]
    · simp only [group_put, if_true, hgr]
      rw [← hm]
      exact join_eq_right_of_le hu4

/-- Witness of C9: transaction 1 holds `S` on record `(3, 4)` of table 7 and is alone in
the queue; `lock_exclusive_on_record` returns `true` and leaves one request, of mode `X`,
with group mode `X`. Transaction 1 holds `S` on table 7 and is alone in the queue;
`lock_IX_on_table` returns `true` and leaves one request, of mode `SIX`, with group mode
`SIX`. -/
theorem sole_holder_upgrade_witness :
    (Reachable exRecordS ∧ exRecordS.get_state 1 = .GROWING ∧
      exRecordS.queue (.record 7 ⟨3, 4⟩) = [⟨1, .SHARED, true⟩] ∧
      (lock_exclusive_on_record exRecordS 1 ⟨3, 4⟩ 7).1 = .ret true ∧
      (lock_exclusive_on_record exRecordS 1 ⟨3, 4⟩ 7).2.queue (.record 7 ⟨3, 4⟩) =
        [⟨1, .EXLUCSIVE, true⟩] ∧
      (lock_exclusive_on_record exRecordS 1 ⟨3, 4⟩ 7).2.group (.record 7 ⟨3, 4⟩) = .X) ∧
    (Reachable exTableS ∧ exTableS.get_state 1 = .GROWING ∧
      exTableS.queue (.table 7) = [⟨1, .SHARED, true⟩] ∧
      (lock_IX_on_table exTableS 1 7).1 = .ret true ∧
      (lock_IX_on_table exTableS 1 7).2.queue (.table 7) = [⟨1, .S_IX, true⟩] ∧
      (lock_IX_on_table exTableS 1 7).2.group (.table 7) = .SIX) :=
  ⟨⟨exRecordS_reachable, by decide, by decide,
    sole_holder_upgrade exRecordS_reachable (.exclusive_on_record 1 ⟨3, 4⟩ 7)
      ⟨1, .SHARED, true⟩ (by decide) (by decide) rfl⟩,
   ⟨reachable_runAll exInit_reachable _, by decide, by decide,
    sole_holder_upgrade (reachable_runAll exInit_reachable _) (.IX_on_table 1 7)
      ⟨1, .SHARED, true⟩ (by decide) (by decide) rfl⟩⟩

/-- In a reachable state no queue holds `IS` requests of two transactions: `IS` is only
granted on an empty queue. -/
theorem no_two_IS {s : State} (h : Reachable s) (k : LockDataId) (a b : LockRequest)
    (ha : a ∈ s.queue k) (hb : b ∈ s.queue k) (hab : a.txn_id_ ≠ b.txn_id_)
    (hma : a.lock_mode_ = .INTENTION_SHARED) : b.lock_mode_ ≠ .INTENTION_SHARED := by
  intro hmb
  have := h.inv.coexist k a ha b hb hab
  rw [hma, hmb] at this
  cases this

/-- The upgrade of a request that is in the queue: in every reachable state in which a
transaction owns a request of mode `m` on a key, also when other transactions own
requests on this key too, whenever a lock call of the transaction with requested mode `r`
returns `true`, the request of the transaction has mode `join m r` afterwards, and it is
still its only request in the queue. With requests of other transactions in the queue, only
the upgrades `IS` to `S` and `S` to `SIX` are reached. -/
theorem shared_queue_upgrade {s : State} (h : Reachable s) (c : LockCall) (r0 : LockRequest)
    (hr0 : r0 ∈ s.queue c.key) (hown : r0.txn_id_ = c.txn)
    (hret : (c.run s).1 = .ret true) :
    { r0 with lock_mode_ := r0.lock_mode_.join c.mode } ∈ (c.run s).2.queue c.key ∧
    ∀ a ∈ (c.run s).2.queue c.key, a.txn_id_ = c.txn →
      a = { r0 with lock_mode_ := r0.lock_mode_.join c.mode } := by
  have hI := h.inv
  have hI2 : Inv (c.run s).2 := hI.of_effect (effect_of_run hI c)
  have he := effect_of_run hI c
  suffices hmem : { r0 with lock_mode_ := r0.lock_mode_.join c.mode } ∈
      (c.run s).2.queue c.key by
    refine ⟨hmem, ?_⟩
    intro a ha hat
    exact eq_of_txn_eq (hI2.nodup _) ha hmem (hat.trans hown.symm)
  generalize c.run s = res at he hret ⊢
  cases he with
  | shrinking _ => cases hret
  | terminal _ => cases hret
  | conflict _ _ _ _ _ => cases hret
  | noop _ _ hn2 _ =>
    rw [hn2 r0 hr0 hown]
    exact hr0
  | push _ hp1 _ => exact absurd hown (hp1 r0 hr0)
  | upgrade j r1 m _ _ hj _ _ _ hu6 hu7 =>
    have hr1 := List.getElem?_mem hj
    by_cases hown1 : r1.txn_id_ = c.txn
    · have : r1 = r0 := eq_of_txn_eq (hI.nodup _) hr1 hr0 (hown1.trans hown.symm)
      subst this
      rw [← hu6 hown1]
      simp only [queue_put, if_true]
      exact mem_setModeAt_new hj
    · have hall := (hu7 hown1).2
      have hco := hI.coexist _ r1 hr1 r0 hr0 (fun h => hown1 (h.trans hown))
      rw [hall r1 hr1, hall r0 hr0] at hco
      cases hco

/-- The upgrade of a request in a shared queue at an example: on table 7 transaction 1 holds
`IS` and transaction 2 holds `S`; `lock_shared_on_table` of transaction 1 returns `true` and
its request has mode `S` afterwards. -/
theorem shared_queue_upgrade_witness :
    Reachable exSharedTable ∧
    exSharedTable.queue (.table 7) = [⟨1, .INTENTION_SHARED, true⟩, ⟨2, .SHARED, true⟩] ∧
    (lock_shared_on_table exSharedTable 1 7).1 = .ret true ∧
    (⟨1, .SHARED, true⟩ : LockRequest) ∈
      (lock_shared_on_table exSharedTable 1 7).2.queue (.table 7) :=
  ⟨exSharedTable_reachable, by decide, by decide,
    (shared_queue_upgrade exSharedTable_reachable (.shared_on_table 1 7)
      ⟨1, .INTENTION_SHARED, true⟩ (by decide) rfl (by decide)).1⟩

/-- C10. The code at the failing input, the example of the claim: from the empty lock table,
`lock_IS_on_table` on table 7 by transaction 1 and then by transaction 2 both return `true`,
a reachable state, in which the queue of the table holds one request, the `IS` request of
transaction 1. Then `lock_IX_on_table` by transaction 2 returns `true`; afterwards the queue
holds no request of transaction 2, so none with mode `IX`, the lock set of transaction 2 is
empty, and the request of transaction 1 has mode `IX`. -/
theorem shared_IS_upgrade_hits_other :
    Reachable exTwoIS ∧
    (lock_IS_on_table exInit 1 7).1 = .ret true ∧
    (lock_IS_on_table exTableIS 2 7).1 = .ret true ∧
    exTwoIS.queue (.table 7) = [⟨1, .INTENTION_SHARED, true⟩] ∧
    exTwoIS.get_lock_set 2 = [] ∧
    (lock_IX_on_table exTwoIS 2 7).1 = .ret true ∧
    (∀ a ∈ (lock_IX_on_table exTwoIS 2 7).2.queue (.table 7), a.txn_id_ ≠ 2) ∧
    (⟨2, .INTENTION_EXCLUSIVE, true⟩ : LockRequest) ∉
      (lock_IX_on_table exTwoIS 2 7).2.queue (.table 7) ∧
    (lock_IX_on_table exTwoIS 2 7).2.queue (.table 7) = [⟨1, .INTENTION_EXCLUSIVE, true⟩] ∧
    (lock_IX_on_table exTwoIS 2 7).2.get_lock_set 2 = [] :=
  ⟨reachable_runAll exInit_reachable _, by decide, by decide, by decide, by decide, by decide,
    by decide, by decide, by decide, by decide⟩

/-! ## Re-requests and `unlock` -/

theorem compatible_of_coexist_le {b a r : LockMode} (h1 : coexist b a = true)
    (h2 : r.toGroup.le a.toGroup = true) : compatible b r = true := by
  cases b <;> cases a <;> cases r <;>
    first | rfl | exact absurd h1 (by decide) | exact absurd h2 (by decide)

theorem join_eq_left_of_le {a r : LockMode} (h : r.toGroup.le a.toGroup = true) :
    a.join r = a := by
  cases a <;> cases r <;> first | rfl | exact absurd h (by decide)

theorem setModeAt_same {q : List LockRequest} {j : Nat} {r0 : LockRequest}
    (h : q[j]? = some r0) : setModeAt q j r0.lock_mode_ = q := by
  induction q generalizing j with
  | nil => rfl
  | cons r rs ih =>
    cases j with
    | zero =>
      simp only [List.getElem?_cons_zero, Option.some.injEq] at h
      subst h
      rfl
    | succ j =>
      simp only [List.getElem?_cons_succ] at h
      simp only [setModeAt, ih h]

theorem lock_table_put_self (s : State) (k : LockDataId) (t : Nat) (tx : Transaction) :
    (s.put k (s.queue k) (s.group k) t tx).lock_table_ = s.lock_table_ := by
  show Function.update s.lock_table_ k ⟨s.queue k, s.group k⟩ = s.lock_table_
  exact Function.update_eq_self k s.lock_table_

/-- C11. Re-request of a held lock: in every reachable state, when a `GROWING` transaction
owns a request on a key whose mode is at least the requested mode in the lattice, the lock
call returns `true`, and the lock table (every queue with its requests, their modes and
its group mode), the lock set of every transaction and the state of the caller are as
before. -/
theorem rerequest_noop {s : State} (h : Reachable s) (c : LockCall) (a : LockRequest)
    (hst : s.get_state c.txn = .GROWING) (ha : a ∈ s.queue c.key)
    (hown : a.txn_id_ = c.txn) (hle : c.mode.toGroup.le a.lock_mode_.toGroup = true) :
    (c.run s).1 = .ret true ∧ (c.run s).2.lock_table_ = s.lock_table_ ∧
    (∀ u, (c.run s).2.get_lock_set u = s.get_lock_set u) ∧
    (c.run s).2.get_state c.txn = .GROWING := by
  have hI := h.inv
  have he := effect_of_run hI c
  have hstate : (c.run s).2.get_state c.txn = .GROWING := by
    rw [get_state_run]
    simp [hst]
  refine ⟨?_, ?_, ?_, hstate⟩
  all_goals
    generalize c.run s = res at he
    cases he with
    | shrinking h1 => exact absurd (hst.symm.trans h1) (by decide)
    | terminal h1 =>
      rcases h1 with h1 | h1 <;> exact absurd (hst.symm.trans h1) (by decide)
    | conflict b _ hb hbt hinc =>
      have hco := hI.coexist _ b hb a ha (by rw [hown]; exact hbt)
      rw [compatible_of_coexist_le hco hle] at hinc
      cases hinc
    | noop _ _ _ _ => first | rfl | exact fun u => get_lock_set_set_state _ _ _ _
    | push _ hp1 _ => exact absurd hown (hp1 a ha)
    | upgrade j r1 m _ _ hj _ _ _ hu6 hu7 =>
      have hr1 := List.getElem?_mem hj
      have hown1 : r1.txn_id_ = c.txn := by
        by_contra hne
        obtain ⟨hm, hall⟩ := hu7 hne
        rw [hm, hall a ha] at hle
        cases hle
      have hra : r1 = a := eq_of_txn_eq (hI.nodup _) hr1 ha (hown1.trans hown.symm)
      subst hra
      have hm : m = r1.lock_mode_ := by
        rw [hu6 hown1]
        exact join_eq_left_of_le hle
      subst hm
      first
        | rfl
        | (rw [setModeAt_same hj]
           have hg : (s.group c.key).join r1.lock_mode_.toGroup = s.group c.key := by
             rw [join_comm]
             apply join_eq_right_of_le
             rw [hI.group]
             exact (groupJoin_isLub _).1 r1 hr1 (hI.granted _ r1 hr1)
           rw [hg]
           exact lock_table_put_self s c.key c.txn _)
        | (intro u
           rw [get_lock_set_put]
           by_cases hu : u = c.txn
           · simp [hu]
           · simp [hu])

/-- Witness of C11: transaction 1 holds `X` on record `(3, 4)` of table 7; its
`lock_shared_on_record` on this record returns `true` and leaves the lock table as it
is. -/
theorem rerequest_noop_witness :
    Reachable exRecordX ∧ exRecordX.get_state 1 = .GROWING ∧
    (⟨1, .EXLUCSIVE, true⟩ : LockRequest) ∈ exRecordX.queue (.record 7 ⟨3, 4⟩) ∧
    LockMode.SHARED.toGroup.le LockMode.EXLUCSIVE.toGroup = true ∧
    (lock_shared_on_record exRecordX 1 ⟨3, 4⟩ 7).1 = .ret true ∧
    (lock_shared_on_record exRecordX 1 ⟨3, 4⟩ 7).2.lock_table_ = exRecordX.lock_table_ :=
  ⟨exRecordX_reachable, by decide, by decide, by decide,
    (rerequest_noop exRecordX_reachable (.shared_on_record 1 ⟨3, 4⟩ 7)
      ⟨1, .EXLUCSIVE, true⟩ (by decide) (by decide) rfl (by decide)).1,
    (rerequest_noop exRecordX_reachable (.shared_on_record 1 ⟨3, 4⟩ 7)
      ⟨1, .EXLUCSIVE, true⟩ (by decide) (by decide) rfl (by decide)).2.1⟩

theorem queue_set_queue (s : State) (k : LockDataId) (q : List LockRequest) (k2 : LockDataId) :
    (s.set_queue k q).queue k2 = if k2 = k then q else s.queue k2 := by
  by_cases h : k2 = k
  · subst h; simp [State.set_queue, State.queue]
  · simp [State.set_queue, State.queue, Function.update_noteq h, h]

/-- The result of `unlock` for a transaction that is not finished and holds the key. -/
theorem unlock_held (s : State) (t : Nat) (k : LockDataId)
    (h1 : ¬ (s.get_state t = .ABORTED ∨ s.get_state t = .COMMITTED))
    (h2 : k ∈ s.get_lock_set t) :
    unlock s t k = (.ret true,
      s.put k ((s.queue k).filter (fun it => decide (it.txn_id_ ≠ t)))
        (groupJoin ((s.queue k).filter (fun it => decide (it.txn_id_ ≠ t))))
        t ⟨.SHRINKING, s.get_lock_set t⟩) := by
  simp only [Rucbase.unlock, h1, if_false, get_lock_set_set_state, h2, not_true_eq_false]
  have hq : ((s.set_state t .SHRINKING).set_queue k
      (List.filter (fun it => decide (it.txn_id_ ≠ t)) ((s.set_state t .SHRINKING).queue k))).queue k
      = List.filter (fun it => decide (it.txn_id_ ≠ t)) (s.queue k) := by
    simp [queue_set_queue]
  rw [hq, set_queue_set_group_eq, queue_set_state, unlock_fold_eq]

/-- The result of `unlock` for a finished transaction. -/
theorem unlock_finished (s : State) (t : Nat) (k : LockDataId)
    (h1 : s.get_state t = .ABORTED ∨ s.get_state t = .COMMITTED) :
    unlock s t k = (.ret false, s) := by
  simp only [Rucbase.unlock, h1, if_true]

/-- The result of `unlock` for a transaction that is not finished and does not hold the
key. -/
theorem unlock_not_held (s : State) (t : Nat) (k : LockDataId)
    (h1 : ¬ (s.get_state t = .ABORTED ∨ s.get_state t = .COMMITTED))
    (h2 : k ∉ s.get_lock_set t) :
    unlock s t k = (.ret false, s.set_state t .SHRINKING) := by
  simp only [Rucbase.unlock, h1, if_false, get_lock_set_set_state, h2, not_false_eq_true,
    if_true]

/-- C12. Unlock completeness: in every state, for a transaction that is neither `ABORTED`
nor `COMMITTED` and a key of its lock set, `unlock` returns `true`; afterwards the queue of
the key holds no request of the transaction, the requests of the other transactions are
those of before in the same order, and the queues of all other keys are as before. -/
theorem unlock_completeness (s : State) (t : Nat) (k : LockDataId)
    (h1 : s.get_state t ≠ .ABORTED ∧ s.get_state t ≠ .COMMITTED)
    (h2 : k ∈ s.get_lock_set t) :
    (unlock s t k).1 = .ret true ∧
    (∀ a ∈ (unlock s t k).2.queue k, a.txn_id_ ≠ t) ∧
    (unlock s t k).2.queue k = (s.queue k).filter (fun it => decide (it.txn_id_ ≠ t)) ∧
    (∀ k2, k2 ≠ k → (unlock s t k).2.queue k2 = s.queue k2) := by
  have h1' : ¬ (s.get_state t = .ABORTED ∨ s.get_state t = .COMMITTED) := by
    intro h
    rcases h with h | h
    · exact h1.1 h
    · exact h1.2 h
  rw [unlock_held s t k h1' h2]
  refine ⟨rfl, ?_, ?_, ?_⟩
  · intro a ha
    simp only [queue_put, if_true] at ha
    simpa using (List.mem_filter.mp ha).2
  · simp only [queue_put, if_true]
  · intro k2 hk
    simp only [queue_put, hk, if_false]

/-- Witness of C12: on table 7 transaction 1 holds `IS` and transaction 2 holds `S`;
`unlock` of transaction 1 returns `true` and leaves the request of transaction 2. -/
theorem unlock_completeness_witness :
    (exSharedTable.get_state 1 ≠ .ABORTED ∧ exSharedTable.get_state 1 ≠ .COMMITTED) ∧
    LockDataId.table 7 ∈ exSharedTable.get_lock_set 1 ∧
    (unlock exSharedTable 1 (.table 7)).1 = .ret true ∧
    (unlock exSharedTable 1 (.table 7)).2.queue (.table 7) = [⟨2, .SHARED, true⟩] :=
  ⟨by decide, by decide,
    (unlock_completeness exSharedTable 1 (.table 7) (by decide) (by decide)).1,
    by decide⟩

/-- C13. Unlock failure: in every state `unlock` returns `false` exactly when the
transaction is `ABORTED` or `COMMITTED` or the key is not in its lock set, and it never
raises; when the transaction is `ABORTED` or `COMMITTED` the state is as before; when the
transaction is not finished and the key is not held, the lock table and the lock sets are
as before and the transaction is `SHRINKING`. -/
theorem unlock_failure (s : State) (t : Nat) (k : LockDataId) :
    ((unlock s t k).1 = .ret false ↔
      ((s.get_state t = .ABORTED ∨ s.get_state t = .COMMITTED) ∨ k ∉ s.get_lock_set t)) ∧
    (∀ r, (unlock s t k).1 ≠ .raise r) ∧
    ((s.get_state t = .ABORTED ∨ s.get_state t = .COMMITTED) → (unlock s t k).2 = s) ∧
    (¬ (s.get_state t = .ABORTED ∨ s.get_state t = .COMMITTED) → k ∉ s.get_lock_set t →
      (unlock s t k).2.lock_table_ = s.lock_table_ ∧
      (∀ u, (unlock s t k).2.get_lock_set u = s.get_lock_set u) ∧
      (unlock s t k).2.get_state t = .SHRINKING) := by
  by_cases h1 : s.get_state t = .ABORTED ∨ s.get_state t = .COMMITTED
  · rw [unlock_finished s t k h1]
    refine ⟨by simp [h1], by simp, fun _ => rfl, fun h => absurd h1 h⟩
  · by_cases h2 : k ∈ s.get_lock_set t
    · rw [unlock_held s t k h1 h2]
      refine ⟨by simp [h1, h2], by simp, fun h => absurd h h1, fun _ h => absurd h2 h⟩
    · rw [unlock_not_held s t k h1 h2]
      refine ⟨by simp [h2], by simp, fun h => absurd h h1, fun _ _ => ?_⟩
      exact ⟨rfl, fun u => get_lock_set_set_state _ _ _ _, get_state_set_state_self _ _ _⟩

/-- Witness of C13: transaction 2 holds nothing on record `(3, 4)` of table 7; its
`unlock` returns `false`, leaves the lock table as it is and makes it `SHRINKING`. -/
theorem unlock_failure_witness :
    ¬ (exRecordS.get_state 2 = .ABORTED ∨ exRecordS.get_state 2 = .COMMITTED) ∧
    LockDataId.record 7 ⟨3, 4⟩ ∉ exRecordS.get_lock_set 2 ∧
    (unlock exRecordS 2 (.record 7 ⟨3, 4⟩)).1 = .ret false ∧
    (unlock exRecordS 2 (.record 7 ⟨3, 4⟩)).2.lock_table_ = exRecordS.lock_table_ ∧
    (unlock exRecordS 2 (.record 7 ⟨3, 4⟩)).2.get_state 2 = .SHRINKING :=
  ⟨by decide, by decide,
    (unlock_failure exRecordS 2 (.record 7 ⟨3, 4⟩)).1.mpr (Or.inr (by decide)),
    ((unlock_failure exRecordS 2 (.record 7 ⟨3, 4⟩)).2.2.2 (by decide) (by decide)).1,
    ((unlock_failure exRecordS 2 (.record 7 ⟨3, 4⟩)).2.2.2 (by decide) (by decide)).2.2⟩

theorem countP_le_one_of_nodup_map (q : List LockRequest) (t : Nat)
    (h : (q.map (fun r => r.txn_id_)).Nodup) :
    q.countP (fun r => decide (r.txn_id_ = t)) ≤ 1 := by
  induction q with
  | nil => simp
  | cons a q ih =>
    simp only [List.map_cons, List.nodup_cons] at h
    rw [List.countP_cons]
    by_cases hat : a.txn_id_ = t
    · have hz : q.countP (fun r => decide (r.txn_id_ = t)) = 0 := by
        rw [List.countP_eq_zero]
        intro b hb hbt
        apply h.1
        rw [hat]
        exact List.mem_map.mpr ⟨b, hb, by simpa using hbt⟩
      simp [hz, hat]
    · simpa [hat] using ih h.2

/-- C14. Single request per transaction: in every reachable state, each queue holds at
most one request per transaction id: the transaction ids of the requests of a queue are
pairwise different. -/
theorem single_request_per_txn {s : State} (h : Reachable s) (k : LockDataId) :
    ((s.queue k).map (fun r => r.txn_id_)).Nodup ∧
    ∀ t, (s.queue k).countP (fun r => decide (r.txn_id_ = t)) ≤ 1 :=
  ⟨h.inv.nodup k, fun t => countP_le_one_of_nodup_map _ t (h.inv.nodup k)⟩

/-- Witness of C14: on table 7, after `S` and then `IX` by transaction 1, the queue holds
one request of transaction 1. -/
theorem single_request_per_txn_witness :
    Reachable exTableSIX ∧ exTableSIX.queue (.table 7) = [⟨1, .S_IX, true⟩] ∧
    (exTableSIX.queue (.table 7)).countP (fun r => decide (r.txn_id_ = 1)) ≤ 1 :=
  ⟨exTableSIX_reachable, by decide,
    (single_request_per_txn exTableSIX_reachable (.table 7)).2 1⟩

/-! ## The record scan -/

/-- The scan of a file with only the header page starts at the rid `(0, -1)`, which
`is_end` does not take for the end. -/
theorem RmScan.is_end_new_of_one_page (fh : RmFileHandle) (h : fh.num_pages = 1) :
    (RmScan.new fh).rid = ⟨0, -1⟩ ∧ (RmScan.new fh).is_end = false := by
  have h1 : ¬ fh.num_pages > 1 := by omega
  have h2 : ¬ ((-1 : Int) = fh.num_records_per_page ∧ (0 : Int) ≥ fh.num_pages) := by
    intro hh
    omega
  constructor
  · simp only [RmScan.new, h1, if_false, RmScan.rid]
  · simp only [RmScan.new, h1, if_false, RmScan.is_end, h2]

/-- C15. The code at the failing inputs. On a file whose page 1 is empty and whose page 2
holds a record in slot 0, the scan starts at `(1, 2)`, the rid of no slot, which `is_end`
does not take for the end: the rids read are `(1, 2)` and `(2, 0)`, the occupied slots are
`(2, 0)` only. On a file with only the header page the scan starts at `(0, -1)`: the rids
read are `(0, -1)`, and no slot is occupied. On a file whose page 1 holds a record, the
rids read are the occupied slots. -/
theorem scan_starts_on_empty_slot :
    (∀ fuel, (RmScan.new exFileGap).rids (fuel + 2) = [⟨1, 2⟩, ⟨2, 0⟩]) ∧
    exFileGap.occupied = [⟨2, 0⟩] ∧
    (∀ fuel, (RmScan.new exFileEmpty).rids (fuel + 1) = [⟨0, -1⟩]) ∧
    exFileEmpty.occupied = [] ∧
    (∀ fuel, (RmScan.new exFileTwo).rids (fuel + 2) = [⟨1, 1⟩, ⟨2, 0⟩]) ∧
    exFileTwo.occupied = [⟨1, 1⟩, ⟨2, 0⟩] := by
  refine ⟨?_, by decide, ?_, by decide, ?_, by decide⟩
  · intro fuel
    have h1 : (RmScan.new exFileGap).is_end = false := by decide
    have h2 : (RmScan.new exFileGap).next.is_end = false := by decide
    have h3 : (RmScan.new exFileGap).next.next.is_end = true := by decide
    have h4 : (RmScan.new exFileGap).rid = ⟨1, 2⟩ := by decide
    have h5 : (RmScan.new exFileGap).next.rid = ⟨2, 0⟩ := by decide
    cases fuel <;> simp [RmScan.rids, h1, h2, h3, h4, h5]
  · intro fuel
    have h1 : (RmScan.new exFileEmpty).is_end = false := by decide
    have h3 : (RmScan.new exFileEmpty).next.is_end = true := by decide
    have h4 : (RmScan.new exFileEmpty).rid = ⟨0, -1⟩ := by decide
    cases fuel <;> simp [RmScan.rids, h1, h3, h4]
  · intro fuel
    have h1 : (RmScan.new exFileTwo).is_end = false := by decide
    have h2 : (RmScan.new exFileTwo).next.is_end = false := by decide
    have h3 : (RmScan.new exFileTwo).next.next.is_end = true := by decide
    have h4 : (RmScan.new exFileTwo).rid = ⟨1, 1⟩ := by decide
    have h5 : (RmScan.new exFileTwo).next.rid = ⟨2, 0⟩ := by decide
    cases fuel <;> simp [RmScan.rids, h1, h2, h3, h4, h5]


/-! ## The predicate evaluator -/

/-- A condition resolves on a schema when `get_col` finds its left column and, if the right
side is a column, its right column. -/
theorem check_cond_isSome_iff (ix_compare : Comparator) (cols : List ColMeta) (c : Condition)
    (r : RmRecord) :
    (∃ b, check_cond ix_compare cols c r = some b) ↔
      (get_col cols c.lhs_col).isSome = true ∧
        (c.is_rhs_val = true ∨ (get_col cols c.rhs_col).isSome = true) := by
  unfold check_cond check_cond_rhs
  rcases hl : get_col cols c.lhs_col with _ | ⟨p, lhs⟩
  · simp
  · rcases hv : c.is_rhs_val with _ | _
    · rcases hr : get_col cols c.rhs_col with _ | ⟨q, rhs⟩ <;> simp
    · simp

/-- The switch of `check_cond` is the table of the spec. -/
theorem check_op_eq_true_iff (op : CompOp) (cmp : Int) :
    check_op op cmp = true ↔
      (match op with
        | .OP_EQ => cmp = 0
        | .OP_NE => cmp ≠ 0
        | .OP_LT => cmp = -1
        | .OP_GT => cmp = 1
        | .OP_LE => cmp ≠ 1
        | .OP_GE => cmp ≠ -1) := by
  cases op <;> simp [check_op]

/-- The function `check_cond` returns true exactly when the condition holds. -/
theorem check_cond_eq_true_iff (ix_compare : Comparator) (cols : List ColMeta) (c : Condition)
    (r : RmRecord) :
    check_cond ix_compare cols c r = some true ↔ c.holds ix_compare cols r := by
  unfold check_cond check_cond_rhs Condition.holds
  rcases hl : get_col cols c.lhs_col with _ | ⟨p, lhs⟩
  · simp
  · rcases hv : c.is_rhs_val with _ | _
    · rcases hr : get_col cols c.rhs_col with _ | ⟨q, rhs⟩
      · simp
      · simp only [Bool.false_eq_true, ↓reduceIte, Option.some.injEq, false_and, false_or,
          true_and, Prod.mk.injEq, exists_and_left, check_op_eq_true_iff]
        constructor
        · intro h
          exact ⟨p, lhs, ⟨rfl, rfl⟩, _, _, ⟨q, rhs, ⟨rfl, rfl⟩, rfl, rfl⟩, h⟩
        · rintro ⟨p2, lhs2, ⟨-, rfl⟩, rv, ty, ⟨q2, rhs2, ⟨-, rfl⟩, rfl, rfl⟩, h⟩
          exact h
    · simp only [↓reduceIte, Option.some.injEq, true_and, Bool.true_eq_false, false_and,
        or_false, Prod.mk.injEq, check_op_eq_true_iff]
      constructor
      · intro h
        exact ⟨p, lhs, ⟨rfl, rfl⟩, _, _, ⟨rfl, rfl⟩, h⟩
      · rintro ⟨p2, lhs2, ⟨-, rfl⟩, rv, ty, ⟨rfl, rfl⟩, h⟩
        exact h

/-- The loop of `check_conds` returns true exactly when `found` is true on entry and every
condition left returns true. -/
theorem check_conds_loop_eq_true_iff (ix_compare : Comparator) (cols : List ColMeta)
    (r : RmRecord) (rest : List Condition) (found : Bool) :
    check_conds_loop ix_compare cols r rest found = some true ↔
      found = true ∧ ∀ c ∈ rest, check_cond ix_compare cols c r = some true := by
  induction rest generalizing found with
  | nil => simp [check_conds_loop]
  | cons c rest ih =>
    unfold check_conds_loop
    rcases hc : check_cond ix_compare cols c r with _ | b
    · simp [hc]
    · cases found <;> cases b <;> simp [ih, hc]

/-- The loop of `check_conds` returns when every condition left resolves. -/
theorem check_conds_loop_isSome (ix_compare : Comparator) (cols : List ColMeta)
    (r : RmRecord) (rest : List Condition) (found : Bool)
    (h : ∀ c ∈ rest, ∃ b, check_cond ix_compare cols c r = some b) :
    ∃ b, check_conds_loop ix_compare cols r rest found = some b := by
  induction rest generalizing found with
  | nil => exact ⟨found, rfl⟩
  | cons c rest ih =>
    unfold check_conds_loop
    obtain ⟨b, hb⟩ := h c (List.mem_cons_self _ _)
    rw [hb]
    have ih2 := fun f => ih f fun c2 hc2 => h c2 (List.mem_cons_of_mem _ hc2)
    cases found <;> cases b <;> simp [ih2]

/-- The function `check_conds` returns true exactly when every condition returns true. -/
theorem check_conds_eq_true_iff (ix_compare : Comparator) (cols : List ColMeta)
    (conds : List Condition) (r : RmRecord) :
    check_conds ix_compare cols conds r = some true ↔
      ∀ c ∈ conds, check_cond ix_compare cols c r = some true := by
  cases conds with
  | nil => simp [check_conds]
  | cons c rest =>
    unfold check_conds
    rcases hc : check_cond ix_compare cols c r with _ | b
    · simp [hc]
    · cases b <;> simp [hc, check_conds_loop_eq_true_iff]

/-- The function `check_conds` returns when every condition resolves. -/
theorem check_conds_isSome (ix_compare : Comparator) (cols : List ColMeta)
    (conds : List Condition) (r : RmRecord)
    (h : ∀ c ∈ conds, ∃ b, check_cond ix_compare cols c r = some b) :
    ∃ b, check_conds ix_compare cols conds r = some b := by
  cases conds with
  | nil => exact ⟨true, rfl⟩
  | cons c rest =>
    obtain ⟨b, hb⟩ := h c (List.mem_cons_self _ _)
    simp only [check_conds, hb]
    exact check_conds_loop_isSome ix_compare cols r rest b
      fun c2 hc2 => h c2 (List.mem_cons_of_mem _ hc2)

/-- C18. Predicate soundness. For every comparator, schema, condition list and record:
`check_conds` returns true exactly when every condition of the list holds, where a condition
holds when its operator holds of the comparator result of the resolved left column bytes
against the right literal or right column bytes (`EQ` iff `c = 0`, `NE` iff `c ≠ 0`, `LT` iff
`c = -1`, `GT` iff `c = 1`, `LE` iff `c ≠ 1`, `GE` iff `c ≠ -1`); it returns true for the
empty list; and it returns, true or false, whenever the columns of every condition are in the
schema. -/
theorem predicate_soundness (ix_compare : Comparator) (cols : List ColMeta)
    (conds : List Condition) (r : RmRecord) :
    (check_conds ix_compare cols conds r = some true ↔
      ∀ c ∈ conds, c.holds ix_compare cols r) ∧
    check_conds ix_compare cols [] r = some true ∧
    ((∀ c ∈ conds, (get_col cols c.lhs_col).isSome = true ∧
        (c.is_rhs_val = true ∨ (get_col cols c.rhs_col).isSome = true)) →
      ∃ b, check_conds ix_compare cols conds r = some b ∧
        (b = false ↔ ∃ c ∈ conds, ¬ c.holds ix_compare cols r)) := by
  have h1 : check_conds ix_compare cols conds r = some true ↔
      ∀ c ∈ conds, c.holds ix_compare cols r := by
    rw [check_conds_eq_true_iff]
    exact forall₂_congr fun c _ => check_cond_eq_true_iff ix_compare cols c r
  refine ⟨h1, rfl, fun hres => ?_⟩
  obtain ⟨b, hb⟩ := check_conds_isSome ix_compare cols conds r
    fun c hc => (check_cond_isSome_iff ix_compare cols c r).mpr (hres c hc)
  refine ⟨b, hb, ?_⟩
  rw [hb] at h1
  cases b
  · simp only [Option.some.injEq, Bool.false_eq_true, false_iff] at h1
    simp only [true_iff]
    push_neg at h1
    exact h1
  · simp only [true_iff] at h1
    simp only [Bool.true_eq_false, false_iff]
    push_neg
    exact h1

/-- C18 at the example table: on the row with name `a` the condition `name EQ "a"` holds and
`check_conds` returns true; on the row with name `b` it returns false. -/
theorem predicate_soundness_witness :
    (check_conds exCompare exCols [exCondNameA] ⟨[1, 0, 0, 0, 97]⟩ = some true ↔
      ∀ c ∈ [exCondNameA], c.holds exCompare exCols ⟨[1, 0, 0, 0, 97]⟩) ∧
    check_conds exCompare exCols [exCondNameA] ⟨[1, 0, 0, 0, 97]⟩ = some true ∧
    (∃ b, check_conds exCompare exCols [exCondNameA] ⟨[2, 0, 0, 0, 98]⟩ = some b ∧
      (b = false ↔ ∃ c ∈ [exCondNameA], ¬ c.holds exCompare exCols ⟨[2, 0, 0, 0, 98]⟩)) ∧
    check_conds exCompare exCols [exCondNameA] ⟨[2, 0, 0, 0, 98]⟩ = some false :=
  ⟨(predicate_soundness exCompare exCols [exCondNameA] ⟨[1, 0, 0, 0, 97]⟩).1, by decide,
    (predicate_soundness exCompare exCols [exCondNameA] ⟨[2, 0, 0, 0, 98]⟩).2.2 (by decide),
    by decide⟩

/-! ## The scan executors -/

/-- The rids of the first `n + 1` positions of a cursor. -/
theorem RecScan.rids_succ {σ : Type} (ops : RecScan σ) (n : Nat) (sc : σ) :
    ops.rids (n + 1) sc = ops.rid sc :: ops.rids n (ops.next sc) := by
  simp [RecScan.rids, List.range_succ_eq_map, List.map_map, Function.comp_def,
    Function.iterate_succ_apply]

/-- A record on which `check_conds` returns `b` satisfies every condition exactly when `b`
is true. -/
theorem ScanExecutor.satisfies_of_check_conds (ix_compare : Comparator)
    (get_record : Rid → Option RmRecord) (cols : List ColMeta) (conds : List Condition)
    (r : Rid) (record : RmRecord) (b : Bool) (h1 : get_record r = some record)
    (h2 : check_conds ix_compare cols conds record = some b) :
    ScanExecutor.satisfies ix_compare get_record cols conds r = b := by
  have h3 := check_conds_eq_true_iff ix_compare cols conds record
  rw [h2] at h3
  simp only [ScanExecutor.satisfies, h1]
  cases b
  · simp only [Option.some.injEq, Bool.false_eq_true, false_iff] at h3
    rw [Bool.eq_false_iff]
    intro h4
    apply h3
    intro c hc
    exact of_decide_eq_true (List.all_eq_true.mp h4 c hc)
  · simp only [true_iff] at h3
    exact List.all_eq_true.mpr fun c hc => decide_eq_true (h3 c hc)

/-- The loop of `beginTuple` and `nextTuple`, followed by the calls of `nextTuple` up to the
end: on a cursor that ends after `n` positions, on each of which the record is fetched and
`check_conds` returns, the loop stops and the executor rests on the rids of the cursor that
satisfy every condition. -/
theorem ScanExecutor.scan_loop_rests {σ : Type} (ops : RecScan σ) (ix_compare : Comparator)
    (get_record : Rid → Option RmRecord) (cols : List ColMeta) (conds : List Condition)
    (n : Nat) : ∀ (sc : σ) (rid0 : Rid) (f1 f2 f3 : Nat), n < f1 → n < f2 → n ≤ f3 →
    ops.is_end (ops.next^[n] sc) = true →
    (∀ i < n, ops.is_end (ops.next^[i] sc) = false) →
    (∀ i < n, ∃ record b, get_record (ops.rid (ops.next^[i] sc)) = some record ∧
      check_conds ix_compare cols conds record = some b) →
    ∃ r sc2, ScanExecutor.scan_loop ops ix_compare get_record cols conds f1 rid0 sc =
        .ok (r, sc2) ∧
      ScanExecutor.rests ops ix_compare get_record f3 f2 ⟨cols, conds, r, some sc2⟩ =
        .ok ((ops.rids n sc).filter
          (ScanExecutor.satisfies ix_compare get_record cols conds)) := by
  induction n with
  | zero =>
    intro sc rid0 f1 f2 f3 h1 h2 _ hend _ _
    obtain ⟨g1, rfl⟩ : ∃ g, f1 = g + 1 := ⟨f1 - 1, by omega⟩
    obtain ⟨g2, rfl⟩ : ∃ g, f2 = g + 1 := ⟨f2 - 1, by omega⟩
    have hend2 : ops.is_end sc = true := hend
    refine ⟨rid0, sc, ?_, ?_⟩
    · simp only [ScanExecutor.scan_loop, hend2, if_true]
    · simp only [ScanExecutor.rests, hend2, if_true, RecScan.rids, List.range_zero,
        List.map_nil, List.filter_nil]
  | succ n ih =>
    intro sc rid0 f1 f2 f3 h1 h2 h3 hend hnot hres
    obtain ⟨g1, rfl⟩ : ∃ g, f1 = g + 1 := ⟨f1 - 1, by omega⟩
    obtain ⟨g2, rfl⟩ : ∃ g, f2 = g + 1 := ⟨f2 - 1, by omega⟩
    have h0 : ops.is_end sc = false := hnot 0 (by omega)
    obtain ⟨record, b, hrec, hb⟩ := hres 0 (by omega)
    simp only [Function.iterate_zero, id_eq] at hrec
    have hend2 : ops.is_end (ops.next^[n] (ops.next sc)) = true := by
      rw [← Function.iterate_succ_apply]
      exact hend
    have hnot2 : ∀ i < n, ops.is_end (ops.next^[i] (ops.next sc)) = false := by
      intro i hi
      rw [← Function.iterate_succ_apply]
      exact hnot (i + 1) (by omega)
    have hres2 : ∀ i < n, ∃ record b,
        get_record (ops.rid (ops.next^[i] (ops.next sc))) = some record ∧
        check_conds ix_compare cols conds record = some b := by
      intro i hi
      rw [← Function.iterate_succ_apply]
      exact hres (i + 1) (by omega)
    have hsat := ScanExecutor.satisfies_of_check_conds ix_compare get_record cols conds
      (ops.rid sc) record b hrec hb
    rw [RecScan.rids_succ]
    cases b
    · obtain ⟨r, sc2, e1, e2⟩ := ih (ops.next sc) (ops.rid sc) g1 (g2 + 1) f3 (by omega)
        (by omega) (by omega) hend2 hnot2 hres2
      refine ⟨r, sc2, ?_, ?_⟩
      · simp only [ScanExecutor.scan_loop, h0, Bool.false_eq_true, if_false, hrec, hb]
        exact e1
      · rw [e2, List.filter_cons_of_neg (by simp [hsat])]
    · obtain ⟨r, sc2, e1, e2⟩ := ih (ops.next sc) (ops.rid sc) f3 g2 f3 (by omega)
        (by omega) (by omega) hend2 hnot2 hres2
      refine ⟨ops.rid sc, sc, ?_, ?_⟩
      · simp only [ScanExecutor.scan_loop, h0, Bool.false_eq_true, if_false, hrec, hb]
      · simp only [ScanExecutor.rests, ScanExecutor.nextTuple, h0, Bool.false_eq_true,
          if_false, e1, e2]
        rw [List.filter_cons_of_pos (by simp [hsat])]

/-- C17. Scan filtering. For every cursor that ends after `n` positions, for every condition
list: if the record of each of the `n` rids is fetched and `check_conds` returns on it, then
`beginTuple()` returns, and the rids at which the executor rests after it and after each
`nextTuple()` while `is_end()` is false are the rids of the cursor whose record satisfies
every condition, in the order of the cursor, each as often as the cursor gives it. The loops
of the model have enough rounds when `fuel` is above `n`. -/
theorem scan_filtering {σ : Type} (ops : RecScan σ) (ix_compare : Comparator)
    (get_record : Rid → Option RmRecord) (fresh : σ) (e : ScanExecutor σ) (n fuel : Nat)
    (hfuel : n < fuel)
    (hend : ops.is_end (ops.next^[n] fresh) = true)
    (hnot : ∀ i < n, ops.is_end (ops.next^[i] fresh) = false)
    (hres : ∀ i < n, ∃ record b, get_record (ops.rid (ops.next^[i] fresh)) = some record ∧
      check_conds ix_compare e.cols_ e.fed_conds_ record = some b) :
    ∃ e1, ScanExecutor.beginTuple ops ix_compare get_record fresh fuel e = .ok e1 ∧
      ScanExecutor.rests ops ix_compare get_record fuel fuel e1 =
        .ok ((ops.rids n fresh).filter
          (ScanExecutor.satisfies ix_compare get_record e.cols_ e.fed_conds_)) := by
  obtain ⟨r, sc2, e1, e2⟩ := ScanExecutor.scan_loop_rests ops ix_compare get_record e.cols_
    e.fed_conds_ n fresh e.rid_ fuel fuel fuel hfuel hfuel (by omega) hend hnot hres
  by_cases h0 : ops.is_end fresh = true
  · have hn : n = 0 := by
      by_contra hne
      have := hnot 0 (by omega)
      simp only [Function.iterate_zero, id_eq, h0] at this
      cases this
    subst hn
    obtain ⟨g, rfl⟩ : ∃ g, fuel = g + 1 := ⟨fuel - 1, by omega⟩
    refine ⟨⟨e.cols_, e.fed_conds_, e.rid_, some fresh⟩, ?_, ?_⟩
    · simp only [ScanExecutor.beginTuple, h0, if_true]
    · simp only [ScanExecutor.rests, h0, if_true, RecScan.rids, List.range_zero,
        List.map_nil, List.filter_nil]
  · have h1 : ops.is_end fresh = false := by simpa using h0
    refine ⟨⟨e.cols_, e.fed_conds_, r, some sc2⟩, ?_, e2⟩
    simp only [ScanExecutor.beginTuple, h1, Bool.false_eq_true, if_false, e1]

/-- C17 at the example of the spec: rows with ids 1, 2, 3 and names `a`, `b`, `a` in slots
0, 1, 2 of page 1; under `name EQ "a"` the scan rests on the rids of ids 1 and 3. -/
theorem scan_filtering_witness :
    ∃ e1, ScanExecutor.beginTuple RmScan.recScan exCompare exRecords (RmScan.new exFileThree) 4
        (SeqScanExecutor.new exCols [exCondNameA] ⟨0, 0⟩) = .ok e1 ∧
      ScanExecutor.rests RmScan.recScan exCompare exRecords 4 4 e1 = .ok [⟨1, 0⟩, ⟨1, 2⟩] := by
  obtain ⟨e1, h1, h2⟩ := scan_filtering RmScan.recScan exCompare exRecords
    (RmScan.new exFileThree) (SeqScanExecutor.new exCols [exCondNameA] ⟨0, 0⟩) 3 4
    (by decide) (by decide) (by decide)
    (by
      intro i hi
      interval_cases i
      · exact ⟨⟨[1, 0, 0, 0, 97]⟩, true, by decide, by decide⟩
      · exact ⟨⟨[2, 0, 0, 0, 98]⟩, false, by decide, by decide⟩
      · exact ⟨⟨[3, 0, 0, 0, 97]⟩, true, by decide, by decide⟩)
  exact ⟨e1, h1, h2.trans (congrArg Except.ok (by decide))⟩

/-! ## The conditions that a scan stores -/

/-- The loop of the constructor of `IndexScanExecutor` stores the normalized form of every
condition, when every condition has its left column on the table, or a column of the table
on its right: the `assert` holds. -/
theorem IndexScanExecutor.new_loop_normalizes (t : String) (conds : List Condition)
    (h : ∀ c ∈ conds, c.lhs_col.tab_name = t ∨
      (c.is_rhs_val = false ∧ c.rhs_col.tab_name = t)) :
    IndexScanExecutor.new_loop t conds = some (conds.map (Condition.normalized t)) := by
  induction conds with
  | nil => rfl
  | cons c rest ih =>
    have hstep : IndexScanExecutor.new_step t c = some (c.normalized t) := by
      unfold IndexScanExecutor.new_step Condition.normalized
      by_cases hl : c.lhs_col.tab_name = t
      · simp [hl]
      · rcases h c (List.mem_cons_self _ _) with h1 | ⟨h1, h2⟩
        · exact absurd h1 hl
        · have hm : IndexScanExecutor.swap_op c.op = c.op.mirror := by cases c.op <;> rfl
          simp [hl, h1, h2, hm]
    simp only [IndexScanExecutor.new_loop, hstep,
      ih fun c2 hc2 => h c2 (List.mem_cons_of_mem _ hc2), List.map_cons]

/-- The constructor of `IndexScanExecutor` on table `t` stores conditions whose left column
is on `t`: the normalized form of each condition, in the same order, when every condition has
its left column on `t`, or a column of `t` on its right. -/
theorem IndexScanExecutor.new_normalizes {σ : Type} (t : String) (cols : List ColMeta)
    (conds : List Condition) (rid_ : Rid)
    (h : ∀ c ∈ conds, c.lhs_col.tab_name = t ∨
      (c.is_rhs_val = false ∧ c.rhs_col.tab_name = t)) :
    ∃ e : ScanExecutor σ, IndexScanExecutor.new t cols conds rid_ = some e ∧
      e.fed_conds_ = conds.map (Condition.normalized t) ∧
      ∀ c ∈ e.fed_conds_, c.lhs_col.tab_name = t := by
  refine ⟨⟨cols, conds.map (Condition.normalized t), rid_, none⟩, ?_, rfl, ?_⟩
  · simp only [IndexScanExecutor.new, IndexScanExecutor.new_loop_normalizes t conds h]
  · intro c hc
    obtain ⟨c0, hc0, rfl⟩ := List.mem_map.mp hc
    unfold Condition.normalized
    by_cases hl : c0.lhs_col.tab_name = t
    · simp [hl]
    · rcases h c0 hc0 with h1 | ⟨_, h2⟩
      · exact absurd h1 hl
      · simp [hl, h2]

/-- The constructor of `SeqScanExecutor` stores the conditions as they are given. -/
theorem SeqScanExecutor.new_fed_conds {σ : Type} (cols : List ColMeta)
    (conds : List Condition) (rid_ : Rid) :
    (SeqScanExecutor.new cols conds rid_ : ScanExecutor σ).fed_conds_ = conds :=
  rfl

/-- C19. The code at the failing input: a scan of table `t` given the condition
`u.a LT t.id`, which has one side on `t`. `SeqScanExecutor` stores the condition as it is,
with its left column on `u`; the normalized condition is `t.id GT u.a`, which is what
`IndexScanExecutor` stores; and `check_conds` of the sequential scan throws on every record,
as `u.a` is no column of `t`. -/
theorem seq_scan_stores_foreign_column :
    (SeqScanExecutor.new exCols [exCondForeign] ⟨0, 0⟩ : ScanExecutor RmScan).fed_conds_ =
      [⟨⟨"u", "a"⟩, .OP_LT, false, ⟨"t", "id"⟩, ⟨.TYPE_INT, []⟩⟩] ∧
    [exCondForeign].map (Condition.normalized "t") =
      [⟨⟨"t", "id"⟩, .OP_GT, false, ⟨"u", "a"⟩, ⟨.TYPE_INT, []⟩⟩] ∧
    (IndexScanExecutor.new "t" exCols [exCondForeign] ⟨0, 0⟩ :
        Option (ScanExecutor RmScan)).map (fun e => e.fed_conds_) =
      some [⟨⟨"t", "id"⟩, .OP_GT, false, ⟨"u", "a"⟩, ⟨.TYPE_INT, []⟩⟩] ∧
    (∀ record, check_conds exCompare exCols
      (SeqScanExecutor.new exCols [exCondForeign] ⟨0, 0⟩ : ScanExecutor RmScan).fed_conds_
      record = none) := by
  refine ⟨by decide, by decide, by decide, ?_⟩
  intro record
  have h : get_col exCols ⟨"u", "a"⟩ = none := by decide
  simp [SeqScanExecutor.new, check_conds, check_cond, exCondForeign, h]

/-- C16. The code at the failing input: on a heap file with the header page only, a fresh
`RmScan` rests on the rid `(0, -1)` and `is_end()` is `false`; `beginTuple()` of a sequential
scan of that file does not return at its test of `is_end()` and fetches the record at
`(0, -1)`: when the file handle throws there, `beginTuple()` throws. -/
theorem empty_file_scan_not_at_end :
    exFileEmpty.num_pages = 1 ∧ (RmScan.new exFileEmpty).rid = ⟨0, -1⟩ ∧
    (RmScan.new exFileEmpty).is_end = false ∧
    (∀ (get_record : Rid → Option RmRecord) (fuel : Nat) (rid_ : Rid),
      get_record ⟨0, -1⟩ = none →
      ScanExecutor.beginTuple RmScan.recScan exCompare get_record (RmScan.new exFileEmpty)
        (fuel + 1) (SeqScanExecutor.new exCols [] rid_) = .error .raised) := by
  refine ⟨by decide, by decide, by decide, ?_⟩
  intro get_record fuel rid_ hget
  have h1 : RmScan.recScan.is_end (RmScan.new exFileEmpty) = false := by decide
  have h2 : RmScan.recScan.rid (RmScan.new exFileEmpty) = ⟨0, -1⟩ := by decide
  simp only [ScanExecutor.beginTuple, ScanExecutor.scan_loop, h1, h2, hget,
    Bool.false_eq_true, if_false]

/-! ## The projection executor -/

/-- The column that `get_col` returns is at the position that it returns. -/
theorem get_col_getElem (cols : List ColMeta) (c : TabCol) (pos : Nat) (col : ColMeta)
    (h : get_col cols c = some (pos, col)) : cols[pos]? = some col := by
  unfold get_col at h
  simp only at h
  split at h
  · cases h
  · rename_i col2 hcol
    simp only [Option.some.injEq, Prod.mk.injEq] at h
    obtain ⟨rfl, rfl⟩ := h
    exact hcol

/-- The loop of the constructor: the positions of the selected columns are added to
`sel_idxs_`, the selected columns with their new offsets to `cols_`, and their lengths to
`curr_offset`. -/
theorem ProjectionExecutor.new_loop_eq (prev_cols : List ColMeta) (sel_cols : List TabCol)
    (h : ∀ c ∈ sel_cols, (get_col prev_cols c).isSome = true) :
    ∀ (off : Nat) (idxs : List Nat) (cols : List ColMeta),
    ∃ idxs2 cols2, ProjectionExecutor.new_loop prev_cols sel_cols off idxs cols =
        some (off + ((ProjectionExecutor.selected prev_cols sel_cols).map fun c => c.len).sum,
          idxs ++ idxs2, cols ++ cols2) ∧
      idxs2.length = sel_cols.length ∧
      (∀ i : Nat, idxs2[i]?.bind (fun p => prev_cols[p]?) =
        (ProjectionExecutor.selected prev_cols sel_cols)[i]?) ∧
      (∀ i : Nat, cols2[i]? = (ProjectionExecutor.selected prev_cols sel_cols)[i]?.map fun c =>
        (⟨c.tab_name, c.name, c.type, c.len,
          off + (((ProjectionExecutor.selected prev_cols sel_cols).take i).map
            fun c => c.len).sum⟩ : ColMeta)) := by
  induction sel_cols with
  | nil =>
    intro off idxs cols
    exact ⟨[], [], by simp [ProjectionExecutor.new_loop, ProjectionExecutor.selected],
      rfl, by simp [ProjectionExecutor.selected], by simp [ProjectionExecutor.selected]⟩
  | cons c rest ih =>
    intro off idxs cols
    have hc := h c (List.mem_cons_self _ _)
    rcases hg : get_col prev_cols c with _ | ⟨pos, col⟩
    · rw [hg] at hc
      cases hc
    · have hsel : ProjectionExecutor.selected prev_cols (c :: rest) =
          col :: ProjectionExecutor.selected prev_cols rest := by
        simp [ProjectionExecutor.selected, hg]
      obtain ⟨idxs2, cols2, e1, e2, e3, e4⟩ :=
        ih (fun c2 hc2 => h c2 (List.mem_cons_of_mem _ hc2)) (off + col.len) (idxs ++ [pos])
          (cols ++ [⟨col.tab_name, col.name, col.type, col.len, off⟩])
      refine ⟨pos :: idxs2, ⟨col.tab_name, col.name, col.type, col.len, off⟩ :: cols2,
        ?_, ?_, ?_, ?_⟩
      · simp only [ProjectionExecutor.new_loop, hg, e1, hsel, List.map_cons, List.sum_cons,
          List.append_assoc, List.singleton_append, Nat.add_assoc]
      · simp [e2]
      · intro i
        cases i with
        | zero => simp [hsel, get_col_getElem prev_cols c pos col hg]
        | succ i => simpa [hsel] using e3 i
      · intro i
        cases i with
        | zero => simp [hsel]
        | succ i =>
          simp only [List.getElem?_cons_succ, hsel, e4 i, List.take_succ_cons, List.map_cons,
            List.sum_cons, Nat.add_assoc]

/-- The bytes of a column that lies within the row are as many as its length. -/
theorem ProjectionExecutor.length_field (row : List Nat) (col : ColMeta)
    (h : col.offset + col.len ≤ row.length) :
    (ProjectionExecutor.field row col).length = col.len := by
  simp only [ProjectionExecutor.field, List.length_take, List.length_drop]
  omega

/-- The bytes of columns that lie within the row are as many as the sum of their lengths. -/
theorem ProjectionExecutor.length_flatMap_field (row : List Nat) (sel : List ColMeta)
    (h : ∀ col ∈ sel, col.offset + col.len ≤ row.length) :
    (sel.flatMap (ProjectionExecutor.field row)).length = (sel.map fun c => c.len).sum := by
  induction sel with
  | nil => rfl
  | cons c rest ih =>
    simp only [List.flatMap_cons, List.length_append, List.map_cons, List.sum_cons,
      ProjectionExecutor.length_field row c (h c (List.mem_cons_self _ _)),
      ih fun c2 hc2 => h c2 (List.mem_cons_of_mem _ hc2)]

/-- The sum of the lengths of the first `i` columns is at most the sum of all lengths. -/
theorem ProjectionExecutor.sum_take_le (sel : List ColMeta) (i : Nat) :
    ((sel.take i).map fun c => c.len).sum ≤ (sel.map fun c => c.len).sum := by
  induction sel generalizing i with
  | nil => simp
  | cons c rest ih =>
    cases i with
    | zero => simp
    | succ i =>
      simp only [List.take_succ_cons, List.map_cons, List.sum_cons]
      exact Nat.add_le_add_left (ih i) _

/-- The first `i + 1` columns are the first `i` columns and column `i`. -/
theorem ProjectionExecutor.take_succ_of_getElem (sel : List ColMeta) (i : Nat) (col : ColMeta)
    (h : sel[i]? = some col) : sel.take (i + 1) = sel.take i ++ [col] := by
  rw [List.take_succ, h]
  rfl

/-- The loop of `Next`: when the positions in `sel_idxs_` are those of the columns `sel` in
the child schema, `cols_` holds the columns `sel` at consecutive offsets, and the child row
covers each column of `sel`, the loop returns the bytes of the columns of `sel`, one after
the other. -/
theorem ProjectionExecutor.Next_loop_eq (e : ProjectionExecutor) (child_rec : RmRecord)
    (sel : List ColMeta)
    (h1 : ∀ i : Nat, e.sel_idxs_[i]?.bind (fun p => e.prev_cols[p]?) = sel[i]?)
    (h2 : ∀ i : Nat, e.cols_[i]? = sel[i]?.map fun c =>
      (⟨c.tab_name, c.name, c.type, c.len, ((sel.take i).map fun c => c.len).sum⟩ : ColMeta))
    (hrow : ∀ col ∈ sel, col.offset + col.len ≤ child_rec.data.length) :
    ∀ (k i : Nat) (ret : List Nat), i + k = sel.length →
      ret.length = (sel.map fun c => c.len).sum →
      ret.take ((sel.take i).map fun c => c.len).sum =
        (sel.take i).flatMap (ProjectionExecutor.field child_rec.data) →
      ProjectionExecutor.Next_loop e child_rec k i ret =
        some (sel.flatMap (ProjectionExecutor.field child_rec.data)) := by
  intro k
  induction k with
  | zero =>
    intro i ret hi hlen htake
    have hi2 : sel.length ≤ i := by omega
    rw [List.take_of_length_le hi2] at htake
    rw [← hlen, List.take_length] at htake
    simp only [ProjectionExecutor.Next_loop, htake]
  | succ k ih =>
    intro i ret hi hlen htake
    have hi2 : i < sel.length := by omega
    have hcol : sel[i]? = some sel[i] := List.getElem?_eq_getElem hi2
    have hmem : sel[i] ∈ sel := List.getElem_mem hi2
    generalize sel[i] = col at hcol hmem
    have hidx := h1 i
    rw [hcol] at hidx
    obtain ⟨idx, hidx1, hidx2⟩ := Option.bind_eq_some.mp hidx
    have hcur := h2 i
    rw [hcol] at hcur
    simp only [Option.map_some'] at hcur
    have hsucc := ProjectionExecutor.take_succ_of_getElem sel i col hcol
    have hpre : ((sel.take (i + 1)).map fun c => c.len).sum =
        ((sel.take i).map fun c => c.len).sum + col.len := by
      rw [hsucc]
      simp
    have hle := ProjectionExecutor.sum_take_le sel (i + 1)
    rw [hpre] at hle
    have hr := hrow col hmem
    have hfield := ProjectionExecutor.length_field child_rec.data col hr
    have hcopy : memcpy ret ((sel.take i).map fun c => c.len).sum child_rec.data col.offset
        col.len = some (ret.take ((sel.take i).map fun c => c.len).sum ++
          (child_rec.data.drop col.offset).take col.len ++
          ret.drop (((sel.take i).map fun c => c.len).sum + col.len)) := by
      unfold memcpy
      rw [if_pos ⟨hr, by omega⟩]
    simp only [ProjectionExecutor.Next_loop, hidx1, hidx2, hcur, hcopy]
    apply ih (i + 1) _ (by omega)
    · simp only [List.length_append, List.length_take, List.length_drop]
      omega
    · rw [htake, hpre]
      have hlen2 : ((sel.take i).flatMap (ProjectionExecutor.field child_rec.data) ++
          (child_rec.data.drop col.offset).take col.len).length =
          ((sel.take i).map fun c => c.len).sum + col.len := by
        rw [List.length_append, ← htake, List.length_take]
        have := hfield
        simp only [ProjectionExecutor.field] at this
        rw [this]
        omega
      rw [List.take_left' hlen2, hsucc, List.flatMap_append]
      simp [ProjectionExecutor.field]

/-- The selected columns are the columns that `get_col` finds for the names of the
projection list, one for each name, when each name is in the child schema. -/
theorem ProjectionExecutor.selected_eq (prev_cols : List ColMeta) (sel_cols : List TabCol)
    (h : ∀ c ∈ sel_cols, (get_col prev_cols c).isSome = true) :
    sel_cols.map (fun c => (get_col prev_cols c).map Prod.snd) =
      (ProjectionExecutor.selected prev_cols sel_cols).map some := by
  induction sel_cols with
  | nil => rfl
  | cons c rest ih =>
    have hc := h c (List.mem_cons_self _ _)
    rcases hg : get_col prev_cols c with _ | ⟨pos, col⟩
    · rw [hg] at hc
      cases hc
    · have ih2 := ih fun c2 hc2 => h c2 (List.mem_cons_of_mem _ hc2)
      simp only [ProjectionExecutor.selected] at ih2 ⊢
      simp [hg, ih2]

/-- C20. Projection layout. For every child schema, every projection list of columns that
are in the child schema (repeats allowed) and every child row that covers the selected
columns: the constructor returns; the selected columns are those of the names of the list,
one for each name; column `i` of the output schema has the table, name, type and length of
selected column `i`, and as offset the sum of the lengths of the selected columns before it;
`tupleLen()` is the sum of the selected lengths; and `Next()` returns a record of
`tupleLen()` bytes, the bytes of the selected columns in the child row, one column after the
other in the order of the list, whatever the allocated buffer held. -/
theorem projection_layout (prev_cols : List ColMeta) (sel_cols : List TabCol)
    (child_rec : RmRecord) (garbage : Nat → Nat)
    (hsel : ∀ c ∈ sel_cols, (get_col prev_cols c).isSome = true)
    (hrow : ∀ col ∈ ProjectionExecutor.selected prev_cols sel_cols,
      col.offset + col.len ≤ child_rec.data.length) :
    ∃ e, ProjectionExecutor.new prev_cols sel_cols = some e ∧
      sel_cols.map (fun c => (get_col prev_cols c).map Prod.snd) =
        (ProjectionExecutor.selected prev_cols sel_cols).map some ∧
      (∀ i : Nat, e.cols_[i]? = (ProjectionExecutor.selected prev_cols sel_cols)[i]?.map
        fun c => (⟨c.tab_name, c.name, c.type, c.len,
          (((ProjectionExecutor.selected prev_cols sel_cols).take i).map
            fun c => c.len).sum⟩ : ColMeta)) ∧
      e.tupleLen = ((ProjectionExecutor.selected prev_cols sel_cols).map fun c => c.len).sum ∧
      ∃ ret, e.Next child_rec garbage = some ret ∧ ret.data.length = e.tupleLen ∧
        ret.data = (ProjectionExecutor.selected prev_cols sel_cols).flatMap
          (ProjectionExecutor.field child_rec.data) := by
  obtain ⟨idxs, cols, e1, e2, e3, e4⟩ :=
    ProjectionExecutor.new_loop_eq prev_cols sel_cols hsel 0 [] []
  simp only [Nat.zero_add, List.nil_append] at e1 e4
  have hn : ProjectionExecutor.new prev_cols sel_cols = some ⟨prev_cols, cols,
      ((ProjectionExecutor.selected prev_cols sel_cols).map fun c => c.len).sum, idxs⟩ := by
    simp only [ProjectionExecutor.new, e1]
  refine ⟨_, hn, ProjectionExecutor.selected_eq prev_cols sel_cols hsel, e4, rfl, ?_⟩
  have hloop := ProjectionExecutor.Next_loop_eq ⟨prev_cols, cols,
      ((ProjectionExecutor.selected prev_cols sel_cols).map fun c => c.len).sum, idxs⟩
    child_rec (ProjectionExecutor.selected prev_cols sel_cols) e3 e4 hrow
    (ProjectionExecutor.selected prev_cols sel_cols).length 0
    ((List.range ((ProjectionExecutor.selected prev_cols sel_cols).map
      fun c => c.len).sum).map garbage)
    (by omega) (by simp) (by simp)
  have hlen : idxs.length = (ProjectionExecutor.selected prev_cols sel_cols).length := by
    have := congrArg List.length (ProjectionExecutor.selected_eq prev_cols sel_cols hsel)
    simp only [List.length_map] at this
    omega
  refine ⟨⟨(ProjectionExecutor.selected prev_cols sel_cols).flatMap
    (ProjectionExecutor.field child_rec.data)⟩, ?_, ?_, rfl⟩
  · simp only [ProjectionExecutor.Next, hlen, hloop]
  · exact ProjectionExecutor.length_flatMap_field child_rec.data _ hrow

/-- C20 at the example table: the projection on `name`, `id`, `name` of the row with id 2
and name `b` has the schema `name` at 0, `id` at 1, `name` at 5, is 6 bytes long and holds
`b`, the four bytes of 2, and `b`. -/
theorem projection_layout_witness :
    (∃ e, ProjectionExecutor.new exCols [⟨"t", "name"⟩, ⟨"t", "id"⟩, ⟨"t", "name"⟩] = some e ∧
      e.cols_ = [⟨"t", "name", .TYPE_STRING, 1, 0⟩, ⟨"t", "id", .TYPE_INT, 4, 1⟩,
        ⟨"t", "name", .TYPE_STRING, 1, 5⟩] ∧
      e.tupleLen = 6 ∧
      ∃ ret, e.Next exRow (fun _ => 7) = some ret ∧ ret.data.length = e.tupleLen ∧
        ret.data = [98, 2, 0, 0, 0, 98]) := by
  obtain ⟨e, h1, _, h3, h4, ret, h5, h6, h7⟩ := projection_layout exCols
    [⟨"t", "name"⟩, ⟨"t", "id"⟩, ⟨"t", "name"⟩] exRow (fun _ => 7) (by decide) (by decide)
  refine ⟨e, h1, ?_, h4.trans (by decide), ret, h5, h6, h7.trans (by decide)⟩
  have hx : ProjectionExecutor.new exCols [⟨"t", "name"⟩, ⟨"t", "id"⟩, ⟨"t", "name"⟩] =
      some ⟨exCols, [⟨"t", "name", .TYPE_STRING, 1, 0⟩, ⟨"t", "id", .TYPE_INT, 4, 1⟩,
        ⟨"t", "name", .TYPE_STRING, 1, 5⟩], 6, [1, 0, 1]⟩ := by decide
  rw [hx] at h1
  cases h1
  rfl

/-! ## The step of the record scan -/

/-- The first index below `n` at which `p` holds, when there is one. -/
theorem find?_range_eq_some (p : Nat → Bool) (n i : Nat)
    (h : (List.range n).find? p = some i) : i < n ∧ p i = true ∧ ∀ j < i, p j = false := by
  induction n with
  | zero => simp at h
  | succ n ih =>
    rw [List.range_succ, List.find?_append] at h
    rcases hn : (List.range n).find? p with _ | i2
    · rw [hn] at h
      simp only [Option.none_or, List.find?_singleton] at h
      split at h
      · rename_i hp
        cases h
        refine ⟨by omega, hp, fun j hj => ?_⟩
        have := List.find?_eq_none.mp hn j (List.mem_range.mpr hj)
        simpa using this
      · cases h
    · rw [hn] at h
      simp only [Option.or, Option.some.injEq] at h
      subst h
      obtain ⟨h1, h2, h3⟩ := ih hn
      exact ⟨by omega, h2, h3⟩

/-- No index below `n` has `p`, when the search finds none. -/
theorem find?_range_eq_none (p : Nat → Bool) (n : Nat)
    (h : (List.range n).find? p = none) : ∀ j < n, p j = false := by
  intro j hj
  have := List.find?_eq_none.mp h j (List.mem_range.mpr hj)
  simpa using this

/-- The function `next_bit` as a search over the natural numbers. -/
theorem Bitmap.next_bit_eq (bm : Int → Bool) (max_n curr : Int) :
    Bitmap.next_bit bm max_n curr =
      match (List.range (max_n - (curr + 1)).toNat).find? (fun i : Nat => bm (curr + 1 + (i : Int))) with
      | some i => curr + 1 + (i : Int)
      | none => max_n := by
  unfold Bitmap.next_bit
  have : (do let a ← List.range (max_n - (curr + 1)).toNat; pure (a : Int)) =
      (List.range (max_n - (curr + 1)).toNat).map (fun a : Nat => (a : Int)) := by
    simp [List.map_eq_flatMap]
  rw [this, List.find?_map]
  simp only [Function.comp_def]
  cases (List.range (max_n - (curr + 1)).toNat).find?
    (fun a : Nat => bm (curr + 1 + (a : Int))) <;> rfl

/-- The result of `next_bit`: an index after `curr`, at most `max_n`, with its bit set when
below `max_n`, and with no set bit between `curr` and it. -/
theorem Bitmap.next_bit_spec (bm : Int → Bool) (max_n curr : Int) (h : curr < max_n) :
    curr < Bitmap.next_bit bm max_n curr ∧ Bitmap.next_bit bm max_n curr ≤ max_n ∧
    (Bitmap.next_bit bm max_n curr < max_n → bm (Bitmap.next_bit bm max_n curr) = true) ∧
    ∀ j, curr < j → j < Bitmap.next_bit bm max_n curr → bm j = false := by
  rw [Bitmap.next_bit_eq]
  rcases hf : (List.range (max_n - (curr + 1)).toNat).find? (fun i : Nat => bm (curr + 1 + (i : Int)))
    with _ | i
  · have hn := find?_range_eq_none _ _ hf
    show curr < max_n ∧ max_n ≤ max_n ∧ (max_n < max_n → bm max_n = true) ∧
      ∀ j, curr < j → j < max_n → bm j = false
    refine ⟨h, le_refl _, fun hlt => absurd hlt (lt_irrefl _), fun j h1 h2 => ?_⟩
    have := hn (j - (curr + 1)).toNat (by omega)
    have hj : curr + 1 + ((j - (curr + 1)).toNat : Int) = j := by omega
    rw [hj] at this
    exact this
  · obtain ⟨h1, h2, h3⟩ := find?_range_eq_some _ _ _ hf
    show curr < curr + 1 + (i : Int) ∧ curr + 1 + (i : Int) ≤ max_n ∧
      (curr + 1 + (i : Int) < max_n → bm (curr + 1 + (i : Int)) = true) ∧
      ∀ j, curr < j → j < curr + 1 + (i : Int) → bm j = false
    refine ⟨by omega, by omega, fun _ => h2, fun j hj1 hj2 => ?_⟩
    have := h3 (j - (curr + 1)).toNat (by omega)
    have hj : curr + 1 + ((j - (curr + 1)).toNat : Int) = j := by omega
    rw [hj] at this
    exact this

/-- One more round than enough changes nothing in the loop of `next`. -/
theorem RmScan.next_loop_succ (fh : RmFileHandle) (fuel : Nat) :
    ∀ (p s : Int), (fh.num_pages - p).toNat < fuel →
      RmScan.next_loop fh (fuel + 1) ⟨p, s⟩ = RmScan.next_loop fh fuel ⟨p, s⟩ := by
  induction fuel with
  | zero =>
    intro p s h
    omega
  | succ fuel ih =>
    intro p s h
    conv_lhs => rw [RmScan.next_loop]
    conv_rhs => rw [RmScan.next_loop]
    by_cases hs : s = fh.num_records_per_page
    · by_cases hp : p + 1 ≥ fh.num_pages
      · simp only [hs, hp, if_true]
      · simp only [hs, hp, if_true, if_false]
        exact ih _ _ (by omega)
    · simp only [hs, if_false]

/-- Any number of rounds above the number of pages left gives the same result as that number
plus one. -/
theorem RmScan.next_loop_enough (fh : RmFileHandle) (p s : Int) (fuel : Nat)
    (h : (fh.num_pages - p).toNat < fuel) :
    RmScan.next_loop fh fuel ⟨p, s⟩ =
      RmScan.next_loop fh ((fh.num_pages - p).toNat + 1) ⟨p, s⟩ := by
  obtain ⟨k, rfl⟩ : ∃ k, fuel = (fh.num_pages - p).toNat + 1 + k := ⟨fuel - ((fh.num_pages - p).toNat + 1), by omega⟩
  induction k with
  | zero => rfl
  | succ k ih =>
    rw [← Nat.add_assoc, RmScan.next_loop_succ fh _ p s (by omega)]
    exact ih (by omega)

/-- The loop of `next`, entered after a page without a further record: it stops on the first
occupied slot of the pages after `p`, or at `(num_pages, num_records_per_page)` when these
pages are empty. -/
theorem RmScan.next_loop_spec (fh : RmFileHandle) (hn : 0 ≤ fh.num_records_per_page)
    (fuel : Nat) : ∀ (p : Int), p < fh.num_pages → (fh.num_pages - p).toNat < fuel →
    (p < (RmScan.next_loop fh fuel ⟨p, fh.num_records_per_page⟩).page_no ∧
        (RmScan.next_loop fh fuel ⟨p, fh.num_records_per_page⟩).page_no < fh.num_pages ∧
        0 ≤ (RmScan.next_loop fh fuel ⟨p, fh.num_records_per_page⟩).slot_no ∧
        (RmScan.next_loop fh fuel ⟨p, fh.num_records_per_page⟩).slot_no <
          fh.num_records_per_page ∧
        fh.bitmap (RmScan.next_loop fh fuel ⟨p, fh.num_records_per_page⟩).page_no
          (RmScan.next_loop fh fuel ⟨p, fh.num_records_per_page⟩).slot_no = true ∧
        ∀ p2 s2, p < p2 → 0 ≤ s2 → s2 < fh.num_records_per_page →
          (p2 < (RmScan.next_loop fh fuel ⟨p, fh.num_records_per_page⟩).page_no ∨
            (p2 = (RmScan.next_loop fh fuel ⟨p, fh.num_records_per_page⟩).page_no ∧
              s2 < (RmScan.next_loop fh fuel ⟨p, fh.num_records_per_page⟩).slot_no)) →
          fh.bitmap p2 s2 = false) ∨
      (RmScan.next_loop fh fuel ⟨p, fh.num_records_per_page⟩ =
          ⟨fh.num_pages, fh.num_records_per_page⟩ ∧
        ∀ p2 s2, p < p2 → p2 < fh.num_pages → 0 ≤ s2 → s2 < fh.num_records_per_page →
          fh.bitmap p2 s2 = false) := by
  induction fuel with
  | zero =>
    intro p _ h
    omega
  | succ fuel ih =>
    intro p hp hfuel
    rw [RmScan.next_loop]
    by_cases hlast : p + 1 ≥ fh.num_pages
    · right
      simp only [hlast, if_true]
      have : p + 1 = fh.num_pages := by omega
      refine ⟨by rw [this], fun p2 s2 h1 h2 _ _ => ?_⟩
      omega
    · simp only [hlast, if_true, if_false]
      obtain ⟨f1, f2, f3, f4⟩ := Bitmap.next_bit_spec (fh.bitmap (p + 1))
        fh.num_records_per_page (-1) (by omega)
      change -1 < Bitmap.first_bit (fh.bitmap (p + 1)) fh.num_records_per_page at f1
      change Bitmap.first_bit (fh.bitmap (p + 1)) fh.num_records_per_page ≤ _ at f2
      change Bitmap.first_bit (fh.bitmap (p + 1)) fh.num_records_per_page < _ → 
        fh.bitmap (p + 1) (Bitmap.first_bit (fh.bitmap (p + 1)) fh.num_records_per_page) =
          true at f3
      change ∀ j, -1 < j → j < Bitmap.first_bit (fh.bitmap (p + 1)) fh.num_records_per_page →
        fh.bitmap (p + 1) j = false at f4
      generalize Bitmap.first_bit (fh.bitmap (p + 1)) fh.num_records_per_page = f at *
      by_cases hf : f = fh.num_records_per_page
      · subst hf
        have hpage : ∀ s2, 0 ≤ s2 → s2 < fh.num_records_per_page →
            fh.bitmap (p + 1) s2 = false := fun s2 h1 h2 => f4 s2 (by omega) h2
        rcases ih (p + 1) (by omega) (by omega) with ⟨h1, h2, h3, h4, h5, h6⟩ | ⟨h1, h2⟩
        · left
          refine ⟨by omega, h2, h3, h4, h5, fun p2 s2 g1 g2 g3 g4 => ?_⟩
          by_cases hp2 : p2 = p + 1
          · subst hp2
            exact hpage s2 g2 g3
          · exact h6 p2 s2 (by omega) g2 g3 g4
        · right
          refine ⟨h1, fun p2 s2 g1 g2 g3 g4 => ?_⟩
          by_cases hp2 : p2 = p + 1
          · subst hp2
            exact hpage s2 g3 g4
          · exact h2 p2 s2 (by omega) g2 g3 g4
      · left
        obtain ⟨g, rfl⟩ : ∃ g, fuel = g + 1 := ⟨fuel - 1, by omega⟩
        rw [RmScan.next_loop]
        simp only [hf, if_false]
        refine ⟨by omega, by omega, by omega, by omega, f3 (by omega),
          fun p2 s2 g1 g2 g3 g4 => ?_⟩
        rcases g4 with g4 | ⟨g4, g5⟩
        · omega
        · subst g4
          exact f4 s2 (by omega) g5

/-- C29. The step of the record scan. On a heap file with more than the header page, from a
position `(p, s)` with `1 ≤ p < num_pages` and `0 ≤ s < num_records_per_page`, `next()`
leaves `rid()` on an occupied slot after `(p, s)` in the order by page and slot, before
which there is no other occupied slot after `(p, s)`, or, when no occupied slot is after
`(p, s)`, at `(num_pages, num_records_per_page)`; `is_end()` is then true exactly in the
second case; and the loop of `next()` ends: every number of rounds above the number of pages
left gives this result. -/
theorem rm_scan_advance (fh : RmFileHandle) (p s : Int) (hp1 : 1 ≤ p)
    (hp2 : p < fh.num_pages) (hs1 : 0 ≤ s) (hs2 : s < fh.num_records_per_page) :
    ((fh.isOccupied (RmScan.next ⟨fh, ⟨p, s⟩⟩).rid ∧
        Rid.lt ⟨p, s⟩ (RmScan.next ⟨fh, ⟨p, s⟩⟩).rid ∧
        ∀ q, fh.isOccupied q → Rid.lt ⟨p, s⟩ q →
          (RmScan.next ⟨fh, ⟨p, s⟩⟩).rid = q ∨ Rid.lt (RmScan.next ⟨fh, ⟨p, s⟩⟩).rid q) ∨
      ((RmScan.next ⟨fh, ⟨p, s⟩⟩).rid = ⟨fh.num_pages, fh.num_records_per_page⟩ ∧
        ∀ q, fh.isOccupied q → ¬ Rid.lt ⟨p, s⟩ q)) ∧
    ((RmScan.next ⟨fh, ⟨p, s⟩⟩).is_end = true ↔
      (RmScan.next ⟨fh, ⟨p, s⟩⟩).rid = ⟨fh.num_pages, fh.num_records_per_page⟩) ∧
    (∀ fuel, (fh.num_pages - p).toNat < fuel →
      RmScan.next_loop fh fuel
        ⟨p, Bitmap.next_bit (fh.bitmap p) fh.num_records_per_page s⟩ =
        (RmScan.next ⟨fh, ⟨p, s⟩⟩).rid) := by
  obtain ⟨b1, b2, b3, b4⟩ := Bitmap.next_bit_spec (fh.bitmap p) fh.num_records_per_page s hs2
  have hnext : (RmScan.next ⟨fh, ⟨p, s⟩⟩).rid = RmScan.next_loop fh
      ((fh.num_pages - p).toNat + 1)
      ⟨p, Bitmap.next_bit (fh.bitmap p) fh.num_records_per_page s⟩ := rfl
  have hend : ∀ q : Rid, (RmScan.next ⟨fh, ⟨p, s⟩⟩).rid = q →
      ((RmScan.next ⟨fh, ⟨p, s⟩⟩).is_end = true ↔
        q.slot_no = fh.num_records_per_page ∧ q.page_no ≥ fh.num_pages) := by
    intro q hq
    have h1 : (RmScan.next ⟨fh, ⟨p, s⟩⟩).rid_ = q := hq
    have h2 : (RmScan.next ⟨fh, ⟨p, s⟩⟩).file_handle_ = fh := rfl
    simp only [RmScan.is_end, h1, h2]
    by_cases hc : q.slot_no = fh.num_records_per_page ∧ q.page_no ≥ fh.num_pages
    · simp only [hc, and_self, if_true]
    · simp only [hc, if_false, Bool.false_eq_true]
  refine ⟨?_, ?_, fun fuel hfuel => ?_⟩
  · rw [hnext]
    generalize Bitmap.next_bit (fh.bitmap p) fh.num_records_per_page s = t at *
    by_cases ht : t = fh.num_records_per_page
    · subst ht
      rcases RmScan.next_loop_spec fh (by omega) ((fh.num_pages - p).toNat + 1) p hp2
        (by omega) with ⟨h1, h2, h3, h4, h5, h6⟩ | ⟨h1, h2⟩
      · left
        refine ⟨⟨by omega, h2, h3, h4, h5⟩, Or.inl h1, fun q hq hlt => ?_⟩
        obtain ⟨q1, q2, q3, q4, q5⟩ := hq
        rcases hlt with hlt | ⟨hlt1, hlt2⟩
        · simp only at hlt
          by_cases hc : q.page_no < (RmScan.next_loop fh ((fh.num_pages - p).toNat + 1)
              ⟨p, fh.num_records_per_page⟩).page_no ∨
              (q.page_no = (RmScan.next_loop fh ((fh.num_pages - p).toNat + 1)
                ⟨p, fh.num_records_per_page⟩).page_no ∧
              q.slot_no < (RmScan.next_loop fh ((fh.num_pages - p).toNat + 1)
                ⟨p, fh.num_records_per_page⟩).slot_no)
          · have := h6 q.page_no q.slot_no hlt q3 q4 hc
            rw [this] at q5
            cases q5
          · generalize RmScan.next_loop fh ((fh.num_pages - p).toNat + 1)
              ⟨p, fh.num_records_per_page⟩ = r at *
            by_cases heq : r.page_no = q.page_no ∧ r.slot_no = q.slot_no
            · left
              cases r
              cases q
              simp only at heq
              simp only [Rid.mk.injEq]
              exact heq
            · right
              unfold Rid.lt
              omega
        · simp only at hlt1 hlt2
          have := b4 q.slot_no hlt2 q4
          rw [← hlt1, this] at q5
          cases q5
      · right
        refine ⟨h1, fun q hq hlt => ?_⟩
        obtain ⟨q1, q2, q3, q4, q5⟩ := hq
        rcases hlt with hlt | ⟨hlt1, hlt2⟩
        · simp only at hlt
          have := h2 q.page_no q.slot_no hlt q2 q3 q4
          rw [this] at q5
          cases q5
        · simp only at hlt1 hlt2
          have := b4 q.slot_no hlt2 q4
          rw [← hlt1, this] at q5
          cases q5
    · left
      rw [RmScan.next_loop]
      simp only [ht, if_false]
      refine ⟨⟨hp1, hp2, by simp only; omega, by simp only; omega, b3 (by omega)⟩,
        Or.inr ⟨rfl, b1⟩,
        fun q hq hlt => ?_⟩
      obtain ⟨q1, q2, q3, q4, q5⟩ := hq
      rcases hlt with hlt | ⟨hlt1, hlt2⟩
      · right
        exact Or.inl hlt
      · simp only at hlt1 hlt2
        by_cases hc : q.slot_no < t
        · have := b4 q.slot_no hlt2 hc
          rw [← hlt1, this] at q5
          cases q5
        · by_cases heq : q.slot_no = t
          · left
            cases q
            simp only at heq hlt1
            simp only [Rid.mk.injEq]
            exact ⟨hlt1, heq.symm⟩
          · right
            exact Or.inr ⟨hlt1, by simp only; omega⟩
  · rw [hend _ rfl, hnext]
    generalize Bitmap.next_bit (fh.bitmap p) fh.num_records_per_page s = t at *
    by_cases ht : t = fh.num_records_per_page
    · subst ht
      rcases RmScan.next_loop_spec fh (by omega) ((fh.num_pages - p).toNat + 1) p hp2
        (by omega) with ⟨h1, h2, h3, h4, h5, h6⟩ | ⟨h1, h2⟩
      · generalize RmScan.next_loop fh ((fh.num_pages - p).toNat + 1)
          ⟨p, fh.num_records_per_page⟩ = r at *
        constructor
        · intro h
          omega
        · intro h
          rw [h] at h2
          simp only at h2
          omega
      · rw [h1]
        simp
    · rw [RmScan.next_loop]
      simp [ht]
  · rw [hnext]
    exact RmScan.next_loop_enough fh p _ fuel hfuel

/-- C29 on the example file with slots `(1, 1)` and `(2, 0)` occupied: from `(1, 1)` the
step leads to `(2, 0)`, which is not the end. -/
theorem rm_scan_advance_witness :
    (RmScan.next ⟨exFileTwo, ⟨1, 1⟩⟩).rid = ⟨2, 0⟩ ∧
    ((RmScan.next ⟨exFileTwo, ⟨1, 1⟩⟩).is_end = true ↔
      (RmScan.next ⟨exFileTwo, ⟨1, 1⟩⟩).rid =
        ⟨exFileTwo.num_pages, exFileTwo.num_records_per_page⟩) ∧
    (∀ fuel, (exFileTwo.num_pages - 1).toNat < fuel →
      RmScan.next_loop exFileTwo fuel
        ⟨1, Bitmap.next_bit (exFileTwo.bitmap 1) exFileTwo.num_records_per_page 1⟩ =
        (RmScan.next ⟨exFileTwo, ⟨1, 1⟩⟩).rid) :=
  ⟨by decide, (rm_scan_advance exFileTwo 1 1 (by decide) (by decide) (by decide)
    (by decide)).2⟩

/-! ## The nested loop join -/

/-- C22. The layout of the rows of the join. For every pair of children whose current
records have exactly `tupleLen()` bytes: `cols()` of the join is the left schema followed by
the right schema with each offset increased by the `tupleLen()` of the left child; the row
length is the sum of the two `tupleLen()`; `Next()` returns the bytes of the left row
followed by those of the right row, whatever the allocated buffer held; these are as many
as the row length; the bytes of every column of the right schema, taken at its increased
offset in the row of the join, are its bytes in the right row; and the bytes of every column
of the left schema that lies within the left row are its bytes in the left row. -/
theorem join_row_layout {σ τ : Type} (L : AbstractExecutor σ) (R : AbstractExecutor τ)
    (left : σ) (right : τ) (conds : List Condition) (garbage : Nat → Nat)
    (lrec rrec : RmRecord) (hl : L.Next left = some lrec) (hr : R.Next right = some rrec)
    (hls : lrec.data.length = L.tupleLen) (hrs : rrec.data.length = R.tupleLen) :
    (NestedLoopJoinExecutor.new L R left right conds).cols =
      L.cols ++ R.cols.map (fun c =>
        (⟨c.tab_name, c.name, c.type, c.len, c.offset + L.tupleLen⟩ : ColMeta)) ∧
    (NestedLoopJoinExecutor.new L R left right conds).len_ = L.tupleLen + R.tupleLen ∧
    NestedLoopJoinExecutor.Next L R (NestedLoopJoinExecutor.new L R left right conds)
      garbage = .ok ⟨lrec.data ++ rrec.data⟩ ∧
    (lrec.data ++ rrec.data).length =
      (NestedLoopJoinExecutor.new L R left right conds).len_ ∧
    (∀ c ∈ R.cols, ProjectionExecutor.field (lrec.data ++ rrec.data)
      ⟨c.tab_name, c.name, c.type, c.len, c.offset + L.tupleLen⟩ =
        ProjectionExecutor.field rrec.data c) ∧
    (∀ c ∈ L.cols, c.offset + c.len ≤ L.tupleLen →
      ProjectionExecutor.field (lrec.data ++ rrec.data) c =
        ProjectionExecutor.field lrec.data c) := by
  refine ⟨rfl, rfl, ?_, ?_, ?_, ?_⟩
  · have hc1 : memcpy ((List.range (L.tupleLen + R.tupleLen)).map garbage) 0 lrec.data 0
        lrec.data.length = some (lrec.data ++
          ((List.range (L.tupleLen + R.tupleLen)).map garbage).drop lrec.data.length) := by
      unfold memcpy
      rw [if_pos ⟨by omega, by simp; omega⟩]
      simp
    have hc2 : memcpy (lrec.data ++
        ((List.range (L.tupleLen + R.tupleLen)).map garbage).drop lrec.data.length)
        lrec.data.length rrec.data 0 rrec.data.length = some (lrec.data ++ rrec.data) := by
      unfold memcpy
      rw [if_pos ⟨by omega, by simp; omega⟩]
      simp only [List.take_left, List.drop_zero, List.take_length, Option.some.injEq]
      rw [List.drop_eq_nil_of_le (by simp; omega)]
      simp
    simp only [NestedLoopJoinExecutor.Next, NestedLoopJoinExecutor.new, Bool.false_eq_true,
      if_false, hl, hr, hc1, hc2]
  · simp only [NestedLoopJoinExecutor.new, List.length_append, hls, hrs]
  · intro c _
    simp only [ProjectionExecutor.field]
    rw [← hls, Nat.add_comm c.offset, ← List.drop_drop, List.drop_left]
  · intro c _ hc
    simp only [ProjectionExecutor.field]
    rw [List.drop_append_of_le_length (by omega), List.take_append_of_le_length
      (by simp only [List.length_drop]; omega)]

/-- C22 on the example children: the join of the rows 1 and 10 has the schema `l.v` at 0 and
`r.v` at 1, is 2 bytes long and holds the two bytes. -/
theorem join_row_layout_witness :
    (NestedLoopJoinExecutor.new (exLeft [1]) (exRight [10]) 0 0 []).cols =
      [⟨"l", "v", .TYPE_INT, 1, 0⟩, ⟨"r", "v", .TYPE_INT, 1, 1⟩] ∧
    (NestedLoopJoinExecutor.new (exLeft [1]) (exRight [10]) 0 0 []).len_ = 2 ∧
    NestedLoopJoinExecutor.Next (exLeft [1]) (exRight [10])
      (NestedLoopJoinExecutor.new (exLeft [1]) (exRight [10]) 0 0 []) (fun _ => 7) =
        .ok ⟨[1, 10]⟩ :=
  have h := join_row_layout (exLeft [1]) (exRight [10]) 0 0 [] (fun _ => 7) ⟨[1]⟩ ⟨[10]⟩
    rfl rfl rfl rfl
  ⟨h.1, h.2.1, h.2.2.1⟩

/-- C21. The code at the failing inputs. With the row 1 on the left, the row 10 on the right
and the condition `l.v GT r.v`, which the pair does not satisfy, the rows read from the join
are the one row of the pair (1, 10): `beginTuple()` opens the children and `is_end()` is
false, without a call of `check_conds`. With no row on the left, `is_end()` is false after
`beginTuple()`, and `Next()` fails for want of a left row. With the rows 1, 2 and 10, 20, 30
under `l.v LT r.v`, which all pairs satisfy, the rows read are all six. -/
theorem join_yields_first_pair_unchecked :
    NestedLoopJoinExecutor.check_conds (exLeft [1]) (exRight [10]) exCompare
      [exJoinCond .OP_GT] ⟨[1]⟩ ⟨[10]⟩ = some false ∧
    (NestedLoopJoinExecutor.rows (exLeft [1]) (exRight [10]) exCompare (fun _ => 0) 3
      (NestedLoopJoinExecutor.new (exLeft [1]) (exRight [10]) 0 0
        [exJoinCond .OP_GT])).toOption = some [⟨[1, 10]⟩] ∧
    (NestedLoopJoinExecutor.beginTuple (exLeft []) (exRight [10])
      (NestedLoopJoinExecutor.new (exLeft []) (exRight [10]) 0 0 [])).is_end = false ∧
    NestedLoopJoinExecutor.rows (exLeft []) (exRight [10]) exCompare (fun _ => 0) 3
      (NestedLoopJoinExecutor.new (exLeft []) (exRight [10]) 0 0 []) = .error .raised ∧
    (NestedLoopJoinExecutor.rows (exLeft [1, 2]) (exRight [10, 20, 30]) exCompare
      (fun _ => 0) 8
      (NestedLoopJoinExecutor.new (exLeft [1, 2]) (exRight [10, 20, 30]) 0 0
        [exJoinCond .OP_LT])).toOption =
      some [⟨[1, 10]⟩, ⟨[1, 20]⟩, ⟨[1, 30]⟩, ⟨[2, 10]⟩, ⟨[2, 20]⟩, ⟨[2, 30]⟩] :=
  ⟨by decide, by decide, by decide, rfl, by decide⟩

/-! ## The delete executor -/

/-- C23. The code at the failing input: the delete of the records with ids 1 and 2 of the
example table, which has an index on `id`, with every byte of an allocated buffer 7.
`Next()` calls `delete_record` for the two rids, then `delete_entry` once, with the key of
four bytes 7 built from the record buffer that is allocated and never filled, and fetches no
record; afterwards the index still maps the keys of the two deleted records to their rids. -/
theorem delete_leaves_index_entries :
    exRecords ⟨1, 0⟩ = some ⟨[1, 0, 0, 0, 97]⟩ ∧ exRecords ⟨1, 1⟩ = some ⟨[2, 0, 0, 0, 98]⟩ ∧
    (exTab.indexes.map fun ix => ix.key [1, 0, 0, 0, 97]) = [[1, 0, 0, 0]] ∧
    (exTab.indexes.map fun ix => ix.key [2, 0, 0, 0, 98]) = [[2, 0, 0, 0]] ∧
    (exDelete.Next 5 (fun _ => 7) exDb).toOption.map (fun s => s.calls) =
      some [.delete_record ⟨1, 0⟩, .delete_record ⟨1, 1⟩, .delete_entry 0 [7, 7, 7, 7],
        .append_write_record ⟨.DELETE_TUPLE, "t", ⟨1, 0⟩, none⟩,
        .append_write_record ⟨.DELETE_TUPLE, "t", ⟨1, 1⟩, none⟩] ∧
    (exDelete.Next 5 (fun _ => 7) exDb).toOption.map
      (fun s => (s.fh_ ⟨1, 0⟩, s.fh_ ⟨1, 1⟩, s.ihs_ 0 [1, 0, 0, 0], s.ihs_ 0 [2, 0, 0, 0])) =
      some (none, none, some ⟨1, 0⟩, some ⟨1, 1⟩) := by
  decide

/-- C24. The code at the failing input: the delete of the records with ids 1 and 2 of the
example table. `Next()` calls `delete_record` once for each rid, in the order of the list,
and appends one `DELETE_TUPLE` write record for each rid, in the order of the list, with the
table name and the rid, and with no record: the records stored at the rids before the
deletion are in no write record. -/
theorem delete_log_without_before_image :
    exRecords ⟨1, 0⟩ = some ⟨[1, 0, 0, 0, 97]⟩ ∧ exRecords ⟨1, 1⟩ = some ⟨[2, 0, 0, 0, 98]⟩ ∧
    (exDelete.Next 5 (fun _ => 7) exDb).toOption.map (fun s => s.write_set_) =
      some [⟨.DELETE_TUPLE, "t", ⟨1, 0⟩, none⟩, ⟨.DELETE_TUPLE, "t", ⟨1, 1⟩, none⟩] ∧
    (exDelete.Next 5 (fun _ => 7) exDb).toOption.map
      (fun s => s.calls.filter fun c => decide (c = .delete_record ⟨1, 0⟩ ∨
        c = .delete_record ⟨1, 1⟩)) =
      some [.delete_record ⟨1, 0⟩, .delete_record ⟨1, 1⟩] := by
  decide
/-! ## The update executor -/

/-- The bytes before an index do not change when the byte at the index is set. -/
theorem take_set_self (l : List Nat) (n a : Nat) : (l.set n a).take n = l.take n := by
  apply List.ext_getElem?
  intro i
  rw [List.getElem?_take, List.getElem?_take]
  split
  · rw [List.getElem?_set_ne (by omega)]
  · rfl

/-- A set clause on a column within the row keeps the length of the row. -/
theorem UpdateExecutor.length_overwrite (row : List Nat) (col : ColMeta) (raw : List Nat)
    (h1 : col.offset + col.len ≤ row.length) (h2 : col.len ≤ raw.length) :
    (UpdateExecutor.overwrite row col raw).length = row.length := by
  simp only [UpdateExecutor.overwrite, List.length_append, List.length_take,
    List.length_drop]
  omega

/-- The copy of a literal into a buffer that holds a row and one more byte is the set clause
on the row. -/
theorem UpdateExecutor.memcpy_set (row : List Nat) (b : Nat) (col : ColMeta) (raw : List Nat)
    (h1 : col.offset + col.len ≤ row.length) (h2 : col.len ≤ raw.length) :
    memcpy (row ++ [b]) col.offset raw 0 col.len =
      some (UpdateExecutor.overwrite row col raw ++ [b]) := by
  unfold memcpy
  rw [if_pos ⟨by omega, by simp only [List.length_append, List.length_singleton]; omega⟩]
  simp only [UpdateExecutor.overwrite, List.drop_zero, List.append_assoc, Option.some.injEq]
  rw [List.take_append_of_le_length (by omega), List.drop_append_of_le_length (by omega)]

/-- The loop over the set clauses, on a buffer that holds a row and one more byte, applies
the set clauses to the row and keeps the last byte and the length. -/
theorem UpdateExecutor.set_loop_eq (tab : TabMeta) (b : Nat) (sets : List SetClause) :
    ∀ (row : List Nat),
    (∀ sc ∈ sets, ∃ col, tab.get_col sc.lhs.col_name = some col ∧
      col.offset + col.len ≤ row.length ∧ col.len ≤ sc.rhs.raw.length) →
    UpdateExecutor.set_loop tab sets (row ++ [b]) =
      some (UpdateExecutor.updated tab sets row ++ [b]) ∧
    (UpdateExecutor.updated tab sets row).length = row.length := by
  induction sets with
  | nil =>
    intro row _
    exact ⟨rfl, rfl⟩
  | cons sc rest ih =>
    intro row h
    obtain ⟨col, h1, h2, h3⟩ := h sc (List.mem_cons_self _ _)
    have hlen := UpdateExecutor.length_overwrite row col sc.rhs.raw h2 h3
    obtain ⟨e1, e2⟩ := ih (UpdateExecutor.overwrite row col sc.rhs.raw) (by
      intro sc2 hsc2
      obtain ⟨col2, g1, g2, g3⟩ := h sc2 (List.mem_cons_of_mem _ hsc2)
      exact ⟨col2, g1, by rw [hlen]; exact g2, g3⟩)
    constructor
    · simp only [UpdateExecutor.set_loop, h1, UpdateExecutor.memcpy_set row b col sc.rhs.raw
        h2 h3, UpdateExecutor.updated]
      exact e1
    · simp only [UpdateExecutor.updated, h1]
      rw [e2, hlen]

/-- The bytes of a column within a row do not depend on a byte after the row. -/
theorem ProjectionExecutor.field_append (row : List Nat) (b : List Nat) (c : ColMeta)
    (h : c.offset + c.len ≤ row.length) :
    ProjectionExecutor.field (row ++ b) c = ProjectionExecutor.field row c := by
  simp only [ProjectionExecutor.field]
  rw [List.drop_append_of_le_length (by omega),
    List.take_append_of_le_length (by simp only [List.length_drop]; omega)]

/-- One round of the loop over the columns of an index, on one buffer of `tot + 1` bytes:
the copy and the assignment are within the buffer, and the bytes of the column follow those
copied before. -/
theorem UpdateExecutor.key_step (buf row : List Nat) (col : ColMeta) (curlen tot : Nat)
    (h1 : buf.length = tot + 1) (h2 : curlen + col.len ≤ tot)
    (h3 : col.offset + col.len ≤ row.length) :
    ∃ buf2, memcpy buf curlen row col.offset col.len = some buf2 ∧
      UpdateExecutor.set_zero buf2 (curlen + col.len) = some (buf2.set (curlen + col.len) 0) ∧
      (buf2.set (curlen + col.len) 0).length = tot + 1 ∧
      (buf2.set (curlen + col.len) 0).take (curlen + col.len) =
        buf.take curlen ++ ProjectionExecutor.field row col := by
  have hf := ProjectionExecutor.length_field row col h3
  refine ⟨buf.take curlen ++ (row.drop col.offset).take col.len ++
    buf.drop (curlen + col.len), ?_, ?_, ?_, ?_⟩
  · unfold memcpy
    rw [if_pos ⟨h3, by omega⟩]
  · have hl : (buf.take curlen ++ (row.drop col.offset).take col.len ++
        buf.drop (curlen + col.len)).length = tot + 1 := by
      simp only [List.length_append, List.length_take, List.length_drop]
      omega
    unfold UpdateExecutor.set_zero
    rw [if_pos (by omega)]
  · simp only [List.length_set, List.length_append, List.length_take, List.length_drop]
    omega
  · rw [take_set_self]
    have hl : (buf.take curlen ++ (row.drop col.offset).take col.len).length =
        curlen + col.len := by
      have := hf
      simp only [ProjectionExecutor.field] at this
      rw [List.length_append, this, List.length_take]
      omega
    rw [List.take_left' hl]
    rfl

/-- The loop over the columns of an index: the first bytes of `key` are the key of the
record before, those of `newkey` the key of the new record. -/
theorem UpdateExecutor.key_loop_eq (rec_data new_data : List Nat) (ix : IndexMeta)
    (hsum : (ix.cols.map fun c => c.len).sum = ix.col_tot_len)
    (hrec : ∀ c ∈ ix.cols, c.offset + c.len ≤ rec_data.length)
    (hnew : ∀ c ∈ ix.cols, c.offset + c.len ≤ new_data.length) :
    ∀ (n k : Nat) (key newkey : List Nat), k + n = ix.cols.length →
      key.length = ix.col_tot_len + 1 → newkey.length = ix.col_tot_len + 1 →
      key.take ((ix.cols.take k).map fun c => c.len).sum =
        (ix.cols.take k).flatMap (ProjectionExecutor.field rec_data) →
      newkey.take ((ix.cols.take k).map fun c => c.len).sum =
        (ix.cols.take k).flatMap (ProjectionExecutor.field new_data) →
      ∃ key2 newkey2,
        UpdateExecutor.key_loop rec_data new_data ix n k key newkey
          ((ix.cols.take k).map fun c => c.len).sum = some (key2, newkey2) ∧
        key2.take ix.col_tot_len = ix.key rec_data ∧
        newkey2.take ix.col_tot_len = ix.key new_data := by
  intro n
  induction n with
  | zero =>
    intro k key newkey hk _ _ h1 h2
    have hk2 : ix.cols.length ≤ k := by omega
    rw [List.take_of_length_le hk2, hsum] at h1 h2
    exact ⟨key, newkey, rfl, h1, h2⟩
  | succ n ih =>
    intro k key newkey hk hl1 hl2 h1 h2
    have hk2 : k < ix.cols.length := by omega
    have hcol : ix.cols[k]? = some ix.cols[k] := List.getElem?_eq_getElem hk2
    have hmem : ix.cols[k] ∈ ix.cols := List.getElem_mem hk2
    generalize ix.cols[k] = col at hcol hmem
    have hsucc := ProjectionExecutor.take_succ_of_getElem ix.cols k col hcol
    have hpre : ((ix.cols.take (k + 1)).map fun c => c.len).sum =
        ((ix.cols.take k).map fun c => c.len).sum + col.len := by
      rw [hsucc]
      simp
    have hle := ProjectionExecutor.sum_take_le ix.cols (k + 1)
    rw [hpre, hsum] at hle
    obtain ⟨b1, c1, c2, c3, c4⟩ := UpdateExecutor.key_step key rec_data col _ ix.col_tot_len
      hl1 hle (hrec col hmem)
    obtain ⟨b2, d1, d2, d3, d4⟩ := UpdateExecutor.key_step newkey new_data col _
      ix.col_tot_len hl2 hle (hnew col hmem)
    simp only [UpdateExecutor.key_loop, hcol, c1, d1, c2, d2]
    rw [← hpre] at c3 c4 d3 d4 ⊢
    apply ih (k + 1) _ _ (by omega) c3 d3
    · rw [c4, h1, hsucc, List.flatMap_append]
      simp
    · rw [d4, h2, hsucc, List.flatMap_append]
      simp

/-- The loop over the indexes makes the index calls of the spec: on each index
`delete_entry` of the key of the record before and `insert_entry` of the key of the new
record. -/
theorem UpdateExecutor.index_loop_eq (unique : Bool) (rec_data new_data : List Nat)
    (rid : Rid) (garbage : Nat → Nat) (b : Nat) (hlen : new_data.length = rec_data.length)
    (ixs : List IndexMeta) :
    (∀ ix ∈ ixs, ix.col_num = ix.cols.length ∧
      (ix.cols.map fun c => c.len).sum = ix.col_tot_len ∧
      ∀ c ∈ ix.cols, c.offset + c.len ≤ rec_data.length) →
    ∀ (j : Nat) (s : Db),
    UpdateExecutor.index_loop unique rec_data (new_data ++ [b]) rid garbage ixs j s =
      .ok (UpdateExecutor.reindex unique rec_data new_data rid ixs j s) := by
  induction ixs with
  | nil =>
    intro _ j s
    rfl
  | cons ix rest ih =>
    intro h j s
    obtain ⟨h1, h2, h3⟩ := h ix (List.mem_cons_self _ _)
    have hz : ∀ buf : List Nat, buf.length = ix.col_tot_len + 1 →
        UpdateExecutor.set_zero buf 0 = some (buf.set 0 0) := by
      intro buf hb
      unfold UpdateExecutor.set_zero
      rw [if_pos (by omega)]
    have hl : (((List.range (ix.col_tot_len + 1)).map garbage).set 0 0).length =
        ix.col_tot_len + 1 := by simp
    obtain ⟨key2, newkey2, e1, e2, e3⟩ := UpdateExecutor.key_loop_eq rec_data
      (new_data ++ [b]) ix h2 h3
      (fun c hc => by
        have := h3 c hc
        simp only [List.length_append, List.length_singleton]
        omega)
      ix.cols.length 0 _ _ (by omega) hl hl (by simp) (by simp)
    have e4 : ix.key (new_data ++ [b]) = ix.key new_data := by
      simp only [IndexMeta.key]
      apply List.flatMap_congr
      intro c hc
      exact ProjectionExecutor.field_append new_data [b] c (by rw [hlen]; exact h3 c hc)
    simp only [List.take_zero, List.map_nil, List.sum_nil] at e1
    have hz0 := hz ((List.range (ix.col_tot_len + 1)).map garbage) (by simp)
    simp only [UpdateExecutor.index_loop, hz0, h1, e1, e2, e3, e4, UpdateExecutor.reindex]
    exact ih (fun ix2 hix2 => h ix2 (List.mem_cons_of_mem _ hix2)) (j + 1) _

/-- The index calls leave the file and the write set as they are. -/
theorem UpdateExecutor.reindex_fh (unique : Bool) (old new : List Nat) (rid : Rid)
    (ixs : List IndexMeta) : ∀ (j : Nat) (s : Db),
    (UpdateExecutor.reindex unique old new rid ixs j s).fh_ = s.fh_ ∧
    (UpdateExecutor.reindex unique old new rid ixs j s).write_set_ = s.write_set_ := by
  induction ixs with
  | nil =>
    intro j s
    exact ⟨rfl, rfl⟩
  | cons ix rest ih =>
    intro j s
    obtain ⟨e1, e2⟩ := ih (j + 1)
      ((s.delete_entry j (ix.key old)).insert_entry unique j (ix.key new) rid)
    simp only [UpdateExecutor.reindex, e1, e2]
    unfold Db.insert_entry Db.delete_entry
    split <;> exact ⟨rfl, rfl⟩

/-- The body of the loop over the rids does what the spec says of the update of one rid,
when the table fits the record stored at the rid. -/
theorem UpdateExecutor.Next_step_eq (unique : Bool) (e : UpdateExecutor)
    (beyond : Rid → Nat) (garbage : Nat → Nat) (s : Db) (rid : Rid) (before : RmRecord)
    (hready : e.Ready before.data.length) (hrec : s.fh_ rid = some before) :
    UpdateExecutor.Next_step unique e beyond garbage s rid =
      .ok (UpdateExecutor.step_spec unique e beyond s rid before) := by
  obtain ⟨e1, e2⟩ := UpdateExecutor.set_loop_eq e.tab_ (beyond rid) e.set_clauses_
    before.data hready.sets
  have e3 := UpdateExecutor.index_loop_eq unique before.data
    (UpdateExecutor.updated e.tab_ e.set_clauses_ before.data) rid garbage (beyond rid) e2
    e.tab_.indexes hready.indexes 0
    ⟨s.fh_, s.ihs_, s.write_set_, s.calls ++ [.get_record rid]⟩
  have e4 := (UpdateExecutor.reindex_fh unique before.data
    (UpdateExecutor.updated e.tab_ e.set_clauses_ before.data) rid e.tab_.indexes 0
    ⟨s.fh_, s.ihs_, s.write_set_, s.calls ++ [.get_record rid]⟩).1
  have e5 : (UpdateExecutor.reindex unique before.data
      (UpdateExecutor.updated e.tab_ e.set_clauses_ before.data) rid e.tab_.indexes 0
      ⟨s.fh_, s.ihs_, s.write_set_, s.calls ++ [.get_record rid]⟩).fh_ rid =
      some before := by rw [e4]; exact hrec
  have e6 : ¬ (UpdateExecutor.updated e.tab_ e.set_clauses_ before.data ++
      [beyond rid]).length < before.data.length := by
    simp only [List.length_append, List.length_singleton, e2]
    omega
  have e7 : (UpdateExecutor.updated e.tab_ e.set_clauses_ before.data ++
      [beyond rid]).take before.data.length =
      UpdateExecutor.updated e.tab_ e.set_clauses_ before.data := by
    rw [← e2, List.take_left]
  simp only [UpdateExecutor.Next_step, Db.get_record, hrec, e1, e3, Db.update_record, e5, e6,
    if_false, e7, UpdateExecutor.step_spec]

/-- The update of one rid changes the record at this rid only, and keeps its length. -/
theorem UpdateExecutor.step_spec_fh (unique : Bool) (e : UpdateExecutor)
    (beyond : Rid → Nat) (s : Db) (rid : Rid) (before : RmRecord)
    (hready : e.Ready before.data.length) :
    (UpdateExecutor.step_spec unique e beyond s rid before).fh_ =
      Function.update s.fh_ rid
        (some ⟨UpdateExecutor.updated e.tab_ e.set_clauses_ before.data⟩) ∧
    (UpdateExecutor.updated e.tab_ e.set_clauses_ before.data).length =
      before.data.length := by
  have e2 := (UpdateExecutor.set_loop_eq e.tab_ 0 e.set_clauses_ before.data hready.sets).2
  have e4 := (UpdateExecutor.reindex_fh unique before.data
    (UpdateExecutor.updated e.tab_ e.set_clauses_ before.data) rid e.tab_.indexes 0
    ⟨s.fh_, s.ihs_, s.write_set_, s.calls ++ [.get_record rid]⟩).1
  refine ⟨?_, e2⟩
  simp only [UpdateExecutor.step_spec, Db.append_write_record, e4]

/-- The loop over the rids does what the spec says of the update of a list of rids, when
the table fits records of `n` bytes and a record of `n` bytes is stored at each rid of the
list; the same then holds of the state after the loop. -/
theorem UpdateExecutor.Next_loop_run (unique : Bool) (e : UpdateExecutor)
    (beyond : Rid → Nat) (garbage : Nat → Nat) (n : Nat) (hready : e.Ready n)
    (rids : List Rid) : ∀ (s : Db),
    (∀ r ∈ rids, ∃ before, s.fh_ r = some before ∧ before.data.length = n) →
    UpdateExecutor.Next_loop unique e beyond garbage rids s =
      .ok (UpdateExecutor.run_spec unique e beyond rids s) := by
  induction rids with
  | nil =>
    intro s _
    rfl
  | cons rid rest ih =>
    intro s h
    obtain ⟨before, h1, h2⟩ := h rid (List.mem_cons_self _ _)
    subst h2
    obtain ⟨f1, f2⟩ := UpdateExecutor.step_spec_fh unique e beyond s rid before hready
    simp only [UpdateExecutor.Next_loop, UpdateExecutor.run_spec, h1,
      UpdateExecutor.Next_step_eq unique e beyond garbage s rid before hready h1]
    apply ih
    intro r hr
    rw [f1]
    by_cases hrr : r = rid
    · subst hrr
      exact ⟨_, Function.update_same _ _ _, f2⟩
    · rw [Function.update_noteq hrr]
      exact h r (List.mem_cons_of_mem _ hr)

/-- The call `insert_entry` is added to the calls, whatever the index does with the key. -/
theorem Db.insert_entry_calls (unique : Bool) (s : Db) (j : Nat) (key : List Nat)
    (rid : Rid) :
    (s.insert_entry unique j key rid).calls = s.calls ++ [.insert_entry j key rid] ∧
    (s.insert_entry unique j key rid).fh_ = s.fh_ ∧
    (s.insert_entry unique j key rid).write_set_ = s.write_set_ := by
  unfold Db.insert_entry
  split <;> exact ⟨rfl, rfl, rfl⟩

/-- The index calls of the update of one rid are added to the calls. -/
theorem UpdateExecutor.reindex_calls (unique : Bool) (old new : List Nat) (rid : Rid)
    (ixs : List IndexMeta) : ∀ (j : Nat) (s : Db),
    (UpdateExecutor.reindex unique old new rid ixs j s).calls =
      s.calls ++ UpdateExecutor.index_calls old new rid ixs j := by
  induction ixs with
  | nil =>
    intro j s
    simp [UpdateExecutor.reindex, UpdateExecutor.index_calls]
  | cons ix rest ih =>
    intro j s
    simp only [UpdateExecutor.reindex, UpdateExecutor.index_calls, ih,
      (Db.insert_entry_calls unique _ j _ rid).1, Db.delete_entry, List.append_assoc,
      List.singleton_append, List.cons_append, List.nil_append]

/-- The calls and the write record of the update of one rid. -/
theorem UpdateExecutor.step_spec_calls (unique : Bool) (e : UpdateExecutor)
    (beyond : Rid → Nat) (s : Db) (rid : Rid) (before : RmRecord) :
    (UpdateExecutor.step_spec unique e beyond s rid before).calls =
      s.calls ++ [.get_record rid] ++
        UpdateExecutor.index_calls before.data
          (UpdateExecutor.updated e.tab_ e.set_clauses_ before.data) rid e.tab_.indexes 0 ++
        [.update_record rid
            (UpdateExecutor.updated e.tab_ e.set_clauses_ before.data ++ [beyond rid]),
          .append_write_record ⟨.UPDATE_TUPLE, e.tab_name_, rid, some before⟩] ∧
    (UpdateExecutor.step_spec unique e beyond s rid before).write_set_ =
      s.write_set_ ++ [⟨.UPDATE_TUPLE, e.tab_name_, rid, some before⟩] := by
  have e4 := (UpdateExecutor.reindex_fh unique before.data
    (UpdateExecutor.updated e.tab_ e.set_clauses_ before.data) rid e.tab_.indexes 0
    ⟨s.fh_, s.ihs_, s.write_set_, s.calls ++ [.get_record rid]⟩).2
  constructor
  · simp only [UpdateExecutor.step_spec, Db.append_write_record,
      UpdateExecutor.reindex_calls, List.append_assoc, List.singleton_append,
      List.cons_append, List.nil_append]
  · simp only [UpdateExecutor.step_spec, Db.append_write_record, e4]

/-- The update of a list of rids, in two parts. -/
theorem UpdateExecutor.run_spec_append (unique : Bool) (e : UpdateExecutor)
    (beyond : Rid → Nat) (a b : List Rid) : ∀ (s : Db),
    UpdateExecutor.run_spec unique e beyond (a ++ b) s =
      UpdateExecutor.run_spec unique e beyond b
        (UpdateExecutor.run_spec unique e beyond a s) := by
  induction a with
  | nil =>
    intro s
    rfl
  | cons r rest ih =>
    intro s
    simp only [List.cons_append, UpdateExecutor.run_spec]
    cases s.fh_ r <;> exact ih _

/-- The update of a list of rids of `A` keeps a record of `n` bytes at every rid of `A`. -/
theorem UpdateExecutor.run_spec_inv (unique : Bool) (e : UpdateExecutor)
    (beyond : Rid → Nat) (n : Nat) (hready : e.Ready n) (A : List Rid) (pre : List Rid) :
    ∀ (s : Db), (∀ r ∈ pre, r ∈ A) →
    (∀ r ∈ A, ∃ before, s.fh_ r = some before ∧ before.data.length = n) →
    ∀ r ∈ A, ∃ before, (UpdateExecutor.run_spec unique e beyond pre s).fh_ r = some before ∧
      before.data.length = n := by
  induction pre with
  | nil =>
    intro s _ h
    exact h
  | cons rid rest ih =>
    intro s hsub h
    obtain ⟨before, h1, h2⟩ := h rid (hsub rid (List.mem_cons_self _ _))
    subst h2
    obtain ⟨f1, f2⟩ := UpdateExecutor.step_spec_fh unique e beyond s rid before hready
    simp only [UpdateExecutor.run_spec, h1]
    apply ih _ (fun r hr => hsub r (List.mem_cons_of_mem _ hr))
    intro r hr
    rw [f1]
    by_cases hrr : r = rid
    · subst hrr
      exact ⟨_, Function.update_same _ _ _, f2⟩
    · rw [Function.update_noteq hrr]
      exact h r hr

/-- The update of a list of rids adds to the calls and to the write set; it adds one write
record for each rid with a record. -/
theorem UpdateExecutor.run_spec_prefix (unique : Bool) (e : UpdateExecutor)
    (beyond : Rid → Nat) (rids : List Rid) : ∀ (s : Db),
    s.calls <+: (UpdateExecutor.run_spec unique e beyond rids s).calls ∧
    s.write_set_ <+: (UpdateExecutor.run_spec unique e beyond rids s).write_set_ ∧
    ((∀ r ∈ rids, (s.fh_ r).isSome = true) →
      (∀ r, (s.fh_ r).isSome = true →
        ((UpdateExecutor.run_spec unique e beyond rids s).fh_ r).isSome = true) ∧
      (UpdateExecutor.run_spec unique e beyond rids s).write_set_.length =
        s.write_set_.length + rids.length) := by
  induction rids with
  | nil =>
    intro s
    exact ⟨List.prefix_refl _, List.prefix_refl _, fun _ => ⟨fun _ h => h, rfl⟩⟩
  | cons rid rest ih =>
    intro s
    rcases hrec : s.fh_ rid with _ | before
    · simp only [UpdateExecutor.run_spec, hrec]
      obtain ⟨i1, i2, _⟩ := ih s
      refine ⟨i1, i2, fun h => ?_⟩
      have := h rid (List.mem_cons_self _ _)
      rw [hrec] at this
      cases this
    · simp only [UpdateExecutor.run_spec, hrec]
      obtain ⟨i1, i2, i3⟩ := ih (UpdateExecutor.step_spec unique e beyond s rid before)
      obtain ⟨c1, c2⟩ := UpdateExecutor.step_spec_calls unique e beyond s rid before
      have hfh : ∀ r, (s.fh_ r).isSome = true →
          ((UpdateExecutor.step_spec unique e beyond s rid before).fh_ r).isSome = true := by
        intro r hr
        have e4 := (UpdateExecutor.reindex_fh unique before.data
          (UpdateExecutor.updated e.tab_ e.set_clauses_ before.data) rid e.tab_.indexes 0
          ⟨s.fh_, s.ihs_, s.write_set_, s.calls ++ [.get_record rid]⟩).1
        simp only [UpdateExecutor.step_spec, Db.append_write_record, e4]
        by_cases hrr : r = rid
        · subst hrr
          simp
        · rw [Function.update_noteq hrr]
          exact hr
      refine ⟨?_, ?_, fun h => ?_⟩
      · refine List.IsPrefix.trans ?_ i1
        rw [c1]
        simp only [List.append_assoc]
        exact List.prefix_append _ _
      · refine List.IsPrefix.trans ?_ i2
        rw [c2]
        exact List.prefix_append _ _
      · obtain ⟨j1, j2⟩ := i3 fun r hr => hfh r (h r (List.mem_cons_of_mem _ hr))
        refine ⟨fun r hr => j1 r (hfh r hr), ?_⟩
        have hl : (UpdateExecutor.step_spec unique e beyond s rid before).write_set_.length =
            s.write_set_.length + 1 := by
          rw [c2]
          simp
        rw [j2, hl, List.length_cons]
        omega

/-- The turn of the rid at position `i` of the list in `Next`: the loop reaches the state
`si` after the rids before it, a record `before` of `n` bytes is stored at the rid there,
the loop goes on to the state of the spec after the update of this rid, and `Next` returns,
in a state whose calls and write set begin with those after this turn. -/
theorem UpdateExecutor.Next_turn (unique : Bool) (e : UpdateExecutor) (beyond : Rid → Nat)
    (garbage : Nat → Nat) (s : Db) (n : Nat) (hready : e.Ready n)
    (hrec : ∀ r ∈ e.rids_, ∃ before, s.fh_ r = some before ∧ before.data.length = n)
    (i : Nat) (hi : i < e.rids_.length) :
    ∃ si before sf,
      UpdateExecutor.Next_loop unique e beyond garbage (e.rids_.take i) s = .ok si ∧
      si.fh_ e.rids_[i] = some before ∧ before.data.length = n ∧
      UpdateExecutor.Next_loop unique e beyond garbage (e.rids_.take (i + 1)) s =
        .ok (UpdateExecutor.step_spec unique e beyond si e.rids_[i] before) ∧
      e.Next unique beyond garbage s = .ok sf ∧
      s.calls <+: si.calls ∧ s.write_set_ <+: si.write_set_ ∧
      (UpdateExecutor.step_spec unique e beyond si e.rids_[i] before).calls <+: sf.calls ∧
      (UpdateExecutor.step_spec unique e beyond si e.rids_[i] before).write_set_ <+:
        sf.write_set_ ∧
      sf.write_set_.length = s.write_set_.length + e.rids_.length := by
  have hsub : ∀ k, ∀ r ∈ e.rids_.take k, r ∈ e.rids_ := fun k r hr => List.mem_of_mem_take hr
  have hinv := UpdateExecutor.run_spec_inv unique e beyond n hready e.rids_ (e.rids_.take i) s
    (hsub i) hrec
  obtain ⟨before, h1, h2⟩ := hinv e.rids_[i] (List.getElem_mem hi)
  have hloop : ∀ k, UpdateExecutor.Next_loop unique e beyond garbage (e.rids_.take k) s =
      .ok (UpdateExecutor.run_spec unique e beyond (e.rids_.take k) s) := fun k =>
    UpdateExecutor.Next_loop_run unique e beyond garbage n hready (e.rids_.take k) s
      fun r hr => hrec r (hsub k r hr)
  have htake : e.rids_.take (i + 1) = e.rids_.take i ++ [e.rids_[i]] := by
    rw [List.take_succ, List.getElem?_eq_getElem hi]
    rfl
  have hstep : UpdateExecutor.run_spec unique e beyond (e.rids_.take (i + 1)) s =
      UpdateExecutor.step_spec unique e beyond
        (UpdateExecutor.run_spec unique e beyond (e.rids_.take i) s) e.rids_[i] before := by
    rw [htake, UpdateExecutor.run_spec_append]
    simp only [UpdateExecutor.run_spec, h1]
  have hall : UpdateExecutor.run_spec unique e beyond e.rids_ s =
      UpdateExecutor.run_spec unique e beyond (e.rids_.drop (i + 1))
        (UpdateExecutor.run_spec unique e beyond (e.rids_.take (i + 1)) s) := by
    rw [← UpdateExecutor.run_spec_append, List.take_append_drop]
  obtain ⟨p1, p2, _⟩ := UpdateExecutor.run_spec_prefix unique e beyond (e.rids_.drop (i + 1))
    (UpdateExecutor.run_spec unique e beyond (e.rids_.take (i + 1)) s)
  obtain ⟨q1, q2, _⟩ := UpdateExecutor.run_spec_prefix unique e beyond (e.rids_.take i) s
  obtain ⟨_, _, q3⟩ := UpdateExecutor.run_spec_prefix unique e beyond e.rids_ s
  rw [← hall, hstep] at p1 p2
  refine ⟨_, before, UpdateExecutor.run_spec unique e beyond e.rids_ s, hloop i, h1, h2, ?_, ?_,
    q1, q2, p1, p2, ?_⟩
  · rw [hloop (i + 1), hstep]
  · have := UpdateExecutor.Next_loop_run unique e beyond garbage n hready e.rids_ s hrec
    exact this
  · exact (q3 fun r hr => by
      obtain ⟨b, hb, _⟩ := hrec r hr
      rw [hb]
      rfl).2

/-- The bytes of a row after one set clause: the bytes of the literal within the column, the
bytes of the row elsewhere. -/
theorem UpdateExecutor.overwrite_getElem? (row : List Nat) (col : ColMeta) (raw : List Nat)
    (h1 : col.offset + col.len ≤ row.length) (h2 : col.len ≤ raw.length) (p : Nat) :
    (UpdateExecutor.overwrite row col raw)[p]? =
      if col.offset ≤ p ∧ p < col.offset + col.len then raw[p - col.offset]? else row[p]? := by
  unfold UpdateExecutor.overwrite
  have hl1 : (row.take col.offset).length = col.offset := by
    rw [List.length_take]
    omega
  have hl2 : (raw.take col.len).length = col.len := by
    rw [List.length_take]
    omega
  by_cases hp1 : p < col.offset
  · rw [if_neg (by omega), List.append_assoc, List.getElem?_append_left (by omega),
      List.getElem?_take_of_lt hp1]
  · by_cases hp2 : p < col.offset + col.len
    · rw [if_pos ⟨by omega, hp2⟩, List.append_assoc, List.getElem?_append_right (by omega),
        List.getElem?_append_left (by omega), hl1, List.getElem?_take_of_lt (by omega)]
    · rw [if_neg (by omega), List.getElem?_append_right
        (by rw [List.length_append]; omega), List.length_append, hl1, hl2,
        List.getElem?_drop]
      congr 1
      omega

/-- The bytes of a row after the set clauses: at each byte the literal of the last set clause
that covers it, or the byte of the row when no set clause covers it. -/
theorem UpdateExecutor.updated_getElem? (tab : TabMeta) (sets : List SetClause) :
    ∀ (row : List Nat),
    (∀ sc ∈ sets, ∃ col, tab.get_col sc.lhs.col_name = some col ∧
      col.offset + col.len ≤ row.length ∧ col.len ≤ sc.rhs.raw.length) →
    ∀ p : Nat, (UpdateExecutor.updated tab sets row)[p]? =
      match sets.reverse.find? (SetClause.covers tab p) with
      | some sc => sc.byte tab p
      | none => row[p]? := by
  induction sets with
  | nil =>
    intro row _ p
    rfl
  | cons sc rest ih =>
    intro row h p
    obtain ⟨col, h1, h2, h3⟩ := h sc (List.mem_cons_self _ _)
    have hlen := UpdateExecutor.length_overwrite row col sc.rhs.raw h2 h3
    have ih2 := ih (UpdateExecutor.overwrite row col sc.rhs.raw) (by
      intro sc2 hsc2
      obtain ⟨col2, g1, g2, g3⟩ := h sc2 (List.mem_cons_of_mem _ hsc2)
      exact ⟨col2, g1, by rw [hlen]; exact g2, g3⟩) p
    simp only [UpdateExecutor.updated, h1, ih2, List.reverse_cons, List.find?_append]
    rcases hf : rest.reverse.find? (SetClause.covers tab p) with _ | sc2
    · simp only [Option.none_or, List.find?_singleton, SetClause.covers, h1,
        UpdateExecutor.overwrite_getElem? row col sc.rhs.raw h2 h3 p]
      by_cases hc : col.offset ≤ p ∧ p < col.offset + col.len
      · simp only [hc, and_self, decide_True, if_true, SetClause.byte, h1]
      · simp only [hc, decide_False, if_false, Bool.false_eq_true]
    · simp only [Option.or]

/-- The index calls of the update of one rid: two for each index, `delete_entry` of the key
of the record before and then `insert_entry` of the key of the new record. -/
theorem UpdateExecutor.index_calls_getElem? (old new : List Nat) (rid : Rid)
    (ixs : List IndexMeta) : ∀ (j0 : Nat),
    (UpdateExecutor.index_calls old new rid ixs j0).length = 2 * ixs.length ∧
    ∀ (i : Nat) (ix : IndexMeta), ixs[i]? = some ix →
      (UpdateExecutor.index_calls old new rid ixs j0)[2 * i]? =
        some (.delete_entry (j0 + i) (ix.key old)) ∧
      (UpdateExecutor.index_calls old new rid ixs j0)[2 * i + 1]? =
        some (.insert_entry (j0 + i) (ix.key new) rid) := by
  induction ixs with
  | nil =>
    intro j0
    exact ⟨rfl, fun i ix h => by simp at h⟩
  | cons ix0 rest ih =>
    intro j0
    obtain ⟨l1, l2⟩ := ih (j0 + 1)
    refine ⟨?_, fun i ix h => ?_⟩
    · simp only [UpdateExecutor.index_calls, List.cons_append, List.nil_append,
        List.length_cons, l1]
      omega
    · cases i with
      | zero =>
        simp only [List.getElem?_cons_zero, Option.some.injEq] at h
        subst h
        simp [UpdateExecutor.index_calls]
      | succ i =>
        simp only [List.getElem?_cons_succ] at h
        obtain ⟨m1, m2⟩ := l2 i ix h
        have e1 : 2 * (i + 1) = 2 * i + 1 + 1 := by omega
        have e2 : j0 + (i + 1) = j0 + 1 + i := by omega
        simp only [UpdateExecutor.index_calls, List.cons_append, List.nil_append, e1, e2,
          List.getElem?_cons_succ, m1, m2, and_self]

/-- C25. The record that an update stores. For every table that fits records of `n` bytes,
every list of rids with a record of `n` bytes each, and every position `i` of the list:
`Next()` reaches the turn of the rid and returns; in the turn one call of `update_record` is
made, after the fetch of the record `before` and the index calls and before the call of
`append_write_record`; its buffer holds, in its first `n` bytes, the record `before` with the
set clauses applied in the order of the list, each replacing the bytes of its column by the
first bytes of its literal; so every byte is the byte of the literal of the last set clause
that covers it, or the byte of `before` when no set clause covers it. -/
theorem update_record_bytes (unique : Bool) (e : UpdateExecutor) (beyond : Rid → Nat)
    (garbage : Nat → Nat) (s : Db) (n : Nat) (hready : e.Ready n)
    (hrec : ∀ r ∈ e.rids_, ∃ before, s.fh_ r = some before ∧ before.data.length = n)
    (i : Nat) (hi : i < e.rids_.length) :
    ∃ si before si1 sf buf,
      UpdateExecutor.Next_loop unique e beyond garbage (e.rids_.take i) s = .ok si ∧
      si.fh_ e.rids_[i] = some before ∧
      UpdateExecutor.Next_loop unique e beyond garbage (e.rids_.take (i + 1)) s = .ok si1 ∧
      e.Next unique beyond garbage s = .ok sf ∧ si1.calls <+: sf.calls ∧
      si1.calls = si.calls ++ [.get_record e.rids_[i]] ++
        UpdateExecutor.index_calls before.data (buf.take n) e.rids_[i] e.tab_.indexes 0 ++
        [.update_record e.rids_[i] buf,
          .append_write_record ⟨.UPDATE_TUPLE, e.tab_name_, e.rids_[i], some before⟩] ∧
      buf.take n = UpdateExecutor.updated e.tab_ e.set_clauses_ before.data ∧
      (buf.take n).length = n ∧
      ∀ p : Nat, (buf.take n)[p]? =
        match e.set_clauses_.reverse.find? (SetClause.covers e.tab_ p) with
        | some sc => sc.byte e.tab_ p
        | none => before.data[p]? := by
  obtain ⟨si, before, sf, h1, h2, h3, h4, h5, -, -, h6, -, -⟩ :=
    UpdateExecutor.Next_turn unique e beyond garbage s n hready hrec i hi
  subst h3
  obtain ⟨c1, -⟩ := UpdateExecutor.step_spec_calls unique e beyond si e.rids_[i] before
  obtain ⟨-, c3⟩ := UpdateExecutor.step_spec_fh unique e beyond si e.rids_[i] before hready
  have htake : (UpdateExecutor.updated e.tab_ e.set_clauses_ before.data ++
      [beyond e.rids_[i]]).take before.data.length =
      UpdateExecutor.updated e.tab_ e.set_clauses_ before.data := by
    rw [← c3, List.take_left]
  refine ⟨si, before, _, sf,
    UpdateExecutor.updated e.tab_ e.set_clauses_ before.data ++ [beyond e.rids_[i]],
    h1, h2, h4, h5, h6, ?_, htake, ?_, ?_⟩
  · rw [htake]
    exact c1
  · rw [htake]
    exact c3
  · rw [htake]
    exact UpdateExecutor.updated_getElem? e.tab_ e.set_clauses_ before.data hready.sets

/-- C26. The index calls of an update. For every table that fits records of `n` bytes,
every list of rids with a record of `n` bytes each, and every position `i` of the list:
`Next()` reaches the turn of the rid and returns; the calls of the turn are the fetch of the
record `before`, then two calls for each index of the table, in the order of the indexes,
`delete_entry` of the bytes of the indexed columns of `before` and then `insert_entry` of the
bytes of the indexed columns of the new record for the rid, then `update_record`, then
`append_write_record`; there is no test of whether the two keys differ. -/
theorem update_index_calls (unique : Bool) (e : UpdateExecutor) (beyond : Rid → Nat)
    (garbage : Nat → Nat) (s : Db) (n : Nat) (hready : e.Ready n)
    (hrec : ∀ r ∈ e.rids_, ∃ before, s.fh_ r = some before ∧ before.data.length = n)
    (i : Nat) (hi : i < e.rids_.length) :
    ∃ si before si1 sf new index_calls,
      UpdateExecutor.Next_loop unique e beyond garbage (e.rids_.take i) s = .ok si ∧
      si.fh_ e.rids_[i] = some before ∧
      UpdateExecutor.Next_loop unique e beyond garbage (e.rids_.take (i + 1)) s = .ok si1 ∧
      e.Next unique beyond garbage s = .ok sf ∧ si1.calls <+: sf.calls ∧
      new = UpdateExecutor.updated e.tab_ e.set_clauses_ before.data ∧
      si1.calls = si.calls ++ [.get_record e.rids_[i]] ++ index_calls ++
        [.update_record e.rids_[i] (new ++ [beyond e.rids_[i]]),
          .append_write_record ⟨.UPDATE_TUPLE, e.tab_name_, e.rids_[i], some before⟩] ∧
      index_calls.length = 2 * e.tab_.indexes.length ∧
      ∀ (j : Nat) (ix : IndexMeta), e.tab_.indexes[j]? = some ix →
        index_calls[2 * j]? = some (.delete_entry j (ix.key before.data)) ∧
        index_calls[2 * j + 1]? = some (.insert_entry j (ix.key new) e.rids_[i]) ∧
        ix.key before.data = ix.cols.flatMap (ProjectionExecutor.field before.data) ∧
        ix.key new = ix.cols.flatMap (ProjectionExecutor.field new) := by
  obtain ⟨si, before, sf, h1, h2, h3, h4, h5, -, -, h6, -, -⟩ :=
    UpdateExecutor.Next_turn unique e beyond garbage s n hready hrec i hi
  obtain ⟨c1, -⟩ := UpdateExecutor.step_spec_calls unique e beyond si e.rids_[i] before
  obtain ⟨l1, l2⟩ := UpdateExecutor.index_calls_getElem? before.data
    (UpdateExecutor.updated e.tab_ e.set_clauses_ before.data) e.rids_[i] e.tab_.indexes 0
  refine ⟨si, before, _, sf, _, _, h1, h2, h4, h5, h6, rfl, c1, l1, fun j ix hj => ?_⟩
  obtain ⟨m1, m2⟩ := l2 j ix hj
  rw [Nat.zero_add] at m1 m2
  exact ⟨m1, m2, rfl, rfl⟩

/-- C28. The write records of an update. For every table that fits records of `n` bytes,
every list of rids with a record of `n` bytes each, and every position `i` of the list:
`Next()` reaches the turn of the rid and returns; in the turn one write record is appended
to the write set, of kind `UPDATE_TUPLE`, with the table name, the rid, and the record
`before` that is stored at the rid when the turn begins and until `update_record` is called,
which then stores the new record; the write records of the turns follow one another in the
write set in the order of the list, one for each rid. -/
theorem update_rollback_log (unique : Bool) (e : UpdateExecutor) (beyond : Rid → Nat)
    (garbage : Nat → Nat) (s : Db) (n : Nat) (hready : e.Ready n)
    (hrec : ∀ r ∈ e.rids_, ∃ before, s.fh_ r = some before ∧ before.data.length = n)
    (i : Nat) (hi : i < e.rids_.length) :
    ∃ si before si1 sf,
      UpdateExecutor.Next_loop unique e beyond garbage (e.rids_.take i) s = .ok si ∧
      si.fh_ e.rids_[i] = some before ∧
      UpdateExecutor.Next_loop unique e beyond garbage (e.rids_.take (i + 1)) s = .ok si1 ∧
      e.Next unique beyond garbage s = .ok sf ∧
      si1.write_set_ =
        si.write_set_ ++ [⟨.UPDATE_TUPLE, e.tab_name_, e.rids_[i], some before⟩] ∧
      si1.fh_ e.rids_[i] =
        some ⟨UpdateExecutor.updated e.tab_ e.set_clauses_ before.data⟩ ∧
      s.write_set_ <+: si.write_set_ ∧ si1.write_set_ <+: sf.write_set_ ∧
      si.write_set_.length = s.write_set_.length + i ∧
      sf.write_set_.length = s.write_set_.length + e.rids_.length := by
  obtain ⟨si, before, sf, h1, h2, h3, h4, h5, -, h6, -, h7, h8⟩ :=
    UpdateExecutor.Next_turn unique e beyond garbage s n hready hrec i hi
  subst h3
  obtain ⟨-, c2⟩ := UpdateExecutor.step_spec_calls unique e beyond si e.rids_[i] before
  obtain ⟨c3, -⟩ := UpdateExecutor.step_spec_fh unique e beyond si e.rids_[i] before hready
  refine ⟨si, before, _, sf, h1, h2, h4, h5, c2, ?_, h6, h7, ?_, h8⟩
  · rw [c3, Function.update_same]
  · have hloop := UpdateExecutor.Next_loop_run unique e beyond garbage before.data.length
      hready (e.rids_.take i) s fun r hr => hrec r (List.mem_of_mem_take hr)
    rw [hloop] at h1
    have hsi : si = UpdateExecutor.run_spec unique e beyond (e.rids_.take i) s := by
      cases h1
      rfl
    obtain ⟨-, -, q3⟩ := UpdateExecutor.run_spec_prefix unique e beyond (e.rids_.take i) s
    have := (q3 fun r hr => by
      obtain ⟨b, hb, _⟩ := hrec r (List.mem_of_mem_take hr)
      rw [hb]
      rfl).2
    rw [hsi, this, List.length_take]
    omega

/-- The example table fits its records of 5 bytes, for the update of `name`. -/
theorem exUpdate_ready : exUpdate.Ready 5 := by
  refine ⟨fun sc hsc => ?_, fun ix hix => ?_⟩
  · have h : sc = ⟨⟨"t", "name"⟩, ⟨.TYPE_STRING, [99]⟩⟩ := by simpa [exUpdate] using hsc
    subst h
    exact ⟨⟨"t", "name", .TYPE_STRING, 1, 4⟩, by decide, by decide, by decide⟩
  · have h : ix = ⟨4, 1, [⟨"t", "id", .TYPE_INT, 4, 0⟩]⟩ := by
      simpa [exUpdate, exTab] using hix
    subst h
    exact ⟨by decide, by decide, by decide⟩

/-- The example table holds a record of 5 bytes at each rid of the update of `name`. -/
theorem exUpdate_records :
    ∀ r ∈ exUpdate.rids_, ∃ before, exDb.fh_ r = some before ∧ before.data.length = 5 := by
  intro r hr
  have h : r = ⟨1, 0⟩ ∨ r = ⟨1, 2⟩ := by simpa [exUpdate] using hr
  rcases h with h | h
  · subst h
    exact ⟨⟨[1, 0, 0, 0, 97]⟩, by decide, by decide⟩
  · subst h
    exact ⟨⟨[3, 0, 0, 0, 97]⟩, by decide, by decide⟩

/-- C25 on the example table: in the update `name = "c"` of the records with ids 1 and 3,
`update_record` is called for the first rid with a buffer that holds the record with the
name `c` in its first 5 bytes. -/
theorem update_record_bytes_witness :
    ∃ sf buf, exUpdate.Next false (fun _ => 0) (fun _ => 7) exDb = .ok sf ∧
      Event.update_record ⟨1, 0⟩ buf ∈ sf.calls ∧ buf.take 5 = [1, 0, 0, 0, 99] := by
  obtain ⟨si, before, si1, sf, buf, h1, h2, -, h4, h5, h6, h7, -, -⟩ :=
    update_record_bytes false exUpdate (fun _ => 0) (fun _ => 7) exDb 5 exUpdate_ready
      exUpdate_records 0 (by decide)
  have h1b : Except.ok exDb = Except.ok si := h1
  cases h1b
  have h2b : some (⟨[1, 0, 0, 0, 97]⟩ : RmRecord) = some before := h2
  cases h2b
  refine ⟨sf, buf, h4, h5.subset ?_, h7.trans (by decide)⟩
  rw [h6]
  exact List.mem_append_right _ (List.mem_cons_self _ _)

/-- C26 on the example table: in the update `name = "c"`, which leaves the key on `id` as it
is, the calls for the first rid are the fetch, `delete_entry` and `insert_entry` of the key
of id 1 on the index, `update_record` and `append_write_record`. -/
theorem update_index_calls_witness :
    ∃ si1, UpdateExecutor.Next_loop false exUpdate (fun _ => 0) (fun _ => 7) [⟨1, 0⟩] exDb =
        .ok si1 ∧
      si1.calls = [.get_record ⟨1, 0⟩, .delete_entry 0 [1, 0, 0, 0],
        .insert_entry 0 [1, 0, 0, 0] ⟨1, 0⟩, .update_record ⟨1, 0⟩ [1, 0, 0, 0, 99, 0],
        .append_write_record ⟨.UPDATE_TUPLE, "t", ⟨1, 0⟩, some ⟨[1, 0, 0, 0, 97]⟩⟩] := by
  obtain ⟨si, before, si1, sf, new, index_calls, h1, h2, h3, -, -, h6, h7, h8, h9⟩ :=
    update_index_calls false exUpdate (fun _ => 0) (fun _ => 7) exDb 5 exUpdate_ready
      exUpdate_records 0 (by decide)
  have h1b : Except.ok exDb = Except.ok si := h1
  cases h1b
  have h2b : some (⟨[1, 0, 0, 0, 97]⟩ : RmRecord) = some before := h2
  cases h2b
  obtain ⟨g1, g2, -, -⟩ := h9 0 ⟨4, 1, [⟨"t", "id", .TYPE_INT, 4, 0⟩]⟩ rfl
  have hnew : new = [1, 0, 0, 0, 99] := h6.trans (by decide)
  subst hnew
  have hix : index_calls = [.delete_entry 0 [1, 0, 0, 0],
      .insert_entry 0 [1, 0, 0, 0] ⟨1, 0⟩] := by
    have hl : index_calls.length = 2 := h8
    match index_calls, hl, g1, g2 with
    | [a, b], _, g1, g2 =>
      simp only [Nat.mul_zero, List.getElem?_cons_zero, Option.some.injEq, Nat.zero_add,
        List.getElem?_cons_succ] at g1 g2
      rw [g1, g2]
      decide
  subst hix
  exact ⟨si1, h3, h7⟩

/-- C28 on the example table: in the update `name = "c"` of the records with ids 1 and 3,
the write set gets two write records, the first with the record of id 1 as it was before. -/
theorem update_rollback_log_witness :
    ∃ si1 sf, UpdateExecutor.Next_loop false exUpdate (fun _ => 0) (fun _ => 7) [⟨1, 0⟩]
        exDb = .ok si1 ∧
      exUpdate.Next false (fun _ => 0) (fun _ => 7) exDb = .ok sf ∧
      si1.write_set_ = [⟨.UPDATE_TUPLE, "t", ⟨1, 0⟩, some ⟨[1, 0, 0, 0, 97]⟩⟩] ∧
      si1.write_set_ <+: sf.write_set_ ∧ sf.write_set_.length = 2 := by
  obtain ⟨si, before, si1, sf, h1, h2, h3, h4, h5, -, -, h8, -, h10⟩ :=
    update_rollback_log false exUpdate (fun _ => 0) (fun _ => 7) exDb 5 exUpdate_ready
      exUpdate_records 0 (by decide)
  have h1b : Except.ok exDb = Except.ok si := h1
  cases h1b
  have h2b : some (⟨[1, 0, 0, 0, 97]⟩ : RmRecord) = some before := h2
  cases h2b
  exact ⟨si1, sf, h3, h4, h5, h8, h10⟩

/-! ## The indexes after an update -/

/-- The first loop of `unlock` run on its own result erases nothing more. -/
theorem filter_other_idem (q : List LockRequest) (t : Nat) :
    (q.filter (fun it => decide (it.txn_id_ ≠ t))).filter (fun it => decide (it.txn_id_ ≠ t)) =
      q.filter (fun it => decide (it.txn_id_ ≠ t)) := by
  rw [List.filter_filter]
  simp

/-- An assignment `it->lock_mode_ = m` to a request of transaction `t` leaves the requests
of the other transactions, and their order, as they are. -/
theorem filter_other_setModeAt {q : List LockRequest} {j : Nat} {r0 : LockRequest} (m : LockMode)
    (t : Nat) (h : q[j]? = some r0) (hown : r0.txn_id_ = t) :
    (setModeAt q j m).filter (fun it => decide (it.txn_id_ ≠ t)) =
      q.filter (fun it => decide (it.txn_id_ ≠ t)) := by
  induction q generalizing j with
  | nil => rfl
  | cons r rs ih =>
    cases j with
    | zero =>
      simp only [List.getElem?_cons_zero, Option.some.injEq] at h
      subst h
      simp [setModeAt, hown]
    | succ j =>
      simp only [List.getElem?_cons_succ] at h
      simp only [setModeAt, List.filter_cons, ih h]

/-- The requests of the other transactions are kept by a lock call, in every queue and in
their order, and none is added, unless the call is `lock_IX_on_table` on a queue that holds
an `IS` request of another transaction. -/
theorem lock_frame_others {s : State} (h : Reachable s) (c : LockCall)
    (hix : c.mode = .INTENTION_EXCLUSIVE →
      ∀ a ∈ s.queue c.key, a.txn_id_ ≠ c.txn → a.lock_mode_ ≠ .INTENTION_SHARED)
    (k : LockDataId) :
    ((c.run s).2.queue k).filter (fun it => decide (it.txn_id_ ≠ c.txn)) =
      (s.queue k).filter (fun it => decide (it.txn_id_ ≠ c.txn)) := by
  have he := effect_of_run h.inv c
  generalize c.run s = res at he ⊢
  cases he with
  | shrinking _ => rfl
  | terminal _ => rfl
  | conflict b _ _ _ _ => rfl
  | noop _ _ _ _ => rfl
  | push _ _ _ =>
    simp only [queue_put]
    split
    · next hk =>
      subst hk
      simp
    · rfl
  | upgrade j r0 m _ _ hj _ _ _ _ hu7 =>
    simp only [queue_put]
    split
    · next hk =>
      subst hk
      by_cases hown : r0.txn_id_ = c.txn
      · exact filter_other_setModeAt m c.txn hj hown
      · obtain ⟨hm, hall⟩ := hu7 hown
        have hr0 : r0 ∈ s.queue c.key := List.mem_iff_getElem?.mpr ⟨j, hj⟩
        exact absurd (hall r0 hr0) (hix hm r0 hr0 hown)
    · rfl

/-- C31. The code at the failing input: transaction 1 holds `IS` on table 7, a reachable
state. The call `lock_IX_on_table` of transaction 2 returns `true`; afterwards the request of
transaction 1 with mode `IS` is no longer in the queue, and the queue holds a request of
transaction 1 with mode `IX`, which was not there before: the request of a transaction other
than the caller has been rewritten, and the group mode of the table went from `IS` to `IX`. -/
theorem lock_IX_rewrites_foreign_request :
    Reachable exTableIS ∧
    (LockCall.IX_on_table 2 7).txn = 2 ∧
    exTableIS.queue (.table 7) = [⟨1, .INTENTION_SHARED, true⟩] ∧
    exTableIS.group (.table 7) = .IS ∧
    ((LockCall.IX_on_table 2 7).run exTableIS).1 = .ret true ∧
    (⟨1, .INTENTION_SHARED, true⟩ : LockRequest) ∉
      ((LockCall.IX_on_table 2 7).run exTableIS).2.queue (.table 7) ∧
    (⟨1, .INTENTION_EXCLUSIVE, true⟩ : LockRequest) ∉ exTableIS.queue (.table 7) ∧
    ((LockCall.IX_on_table 2 7).run exTableIS).2.queue (.table 7) =
      [⟨1, .INTENTION_EXCLUSIVE, true⟩] ∧
    ((LockCall.IX_on_table 2 7).run exTableIS).2.group (.table 7) = .IX :=
  ⟨exTableIS_reachable, rfl, by decide, by decide, by decide, by decide, by decide, by decide,
    by decide⟩

/-- C32. Unlock leaves the lock set alone: in every state, for every transaction `t` and key
`k`, the lock set of every transaction is after `unlock(t, k)` what it was before; when
`unlock(t, k)` returns `true`, `k` is still in the lock set of `t`, and a second
`unlock(t, k)` right after it returns `true` too, leaves the queue of `k` (and the whole lock
table) as the first call left it, and leaves the lock sets as they were. -/
theorem unlock_keeps_lock_set (s : State) (t : Nat) (k : LockDataId) :
    (∀ u, (unlock s t k).2.get_lock_set u = s.get_lock_set u) ∧
    ((unlock s t k).1 = .ret true →
      k ∈ (unlock s t k).2.get_lock_set t ∧
      (unlock (unlock s t k).2 t k).1 = .ret true ∧
      (unlock (unlock s t k).2 t k).2.queue k = (unlock s t k).2.queue k ∧
      (unlock (unlock s t k).2 t k).2.lock_table_ = (unlock s t k).2.lock_table_ ∧
      ∀ u, (unlock (unlock s t k).2 t k).2.get_lock_set u = s.get_lock_set u) := by
  by_cases h1 : s.get_state t = .ABORTED ∨ s.get_state t = .COMMITTED
  · rw [unlock_finished s t k h1]
    exact ⟨fun _ => rfl, fun h => by simp at h⟩
  · by_cases h2 : k ∈ s.get_lock_set t
    · have e1 := unlock_held s t k h1 h2
      generalize hq : (s.queue k).filter (fun it => decide (it.txn_id_ ≠ t)) = q at e1
      generalize hs1 : s.put k q (groupJoin q) t ⟨.SHRINKING, s.get_lock_set t⟩ = s1 at e1
      have hls : ∀ u, s1.get_lock_set u = s.get_lock_set u := by
        intro u
        rw [← hs1, get_lock_set_put]
        split
        · next hu => rw [hu]
        · rfl
      have hst : ¬ (s1.get_state t = .ABORTED ∨ s1.get_state t = .COMMITTED) := by
        rw [← hs1, get_state_put]
        simp
      have hk : k ∈ s1.get_lock_set t := by
        rw [hls]
        exact h2
      have hq1 : (s1.queue k).filter (fun it => decide (it.txn_id_ ≠ t)) = q := by
        rw [← hs1, queue_put, if_pos rfl, ← hq]
        exact filter_other_idem _ _
      have e2 := unlock_held s1 t k hst hk
      rw [hq1] at e2
      rw [e1]
      simp only [e2]
      refine ⟨hls, fun _ => ⟨hk, trivial, ?_, ?_, ?_⟩⟩
      · rw [queue_put, if_pos rfl, ← hs1, queue_put, if_pos rfl]
      · rw [← hs1]
        simp [State.put]
      · intro u
        rw [get_lock_set_put]
        split
        · next hu =>
          rw [hu]
          exact hls t
        · exact hls u
    · rw [unlock_not_held s t k h1 h2]
      exact ⟨fun u => get_lock_set_set_state _ _ _ _, fun h => by simp at h⟩

/-- Witness of C32: on table 7 transaction 1 holds `IS` and transaction 2 holds `S`; `unlock`
of transaction 1 returns `true` and leaves the request of transaction 2, the table is still
in the lock set of transaction 1, and a second `unlock` of transaction 1 returns `true` and
leaves the queue as it is. -/
theorem unlock_keeps_lock_set_witness :
    (unlock exSharedTable 1 (.table 7)).1 = .ret true ∧
    (unlock exSharedTable 1 (.table 7)).2.queue (.table 7) = [⟨2, .SHARED, true⟩] ∧
    exSharedTable.get_lock_set 1 = [.table 7] ∧
    (LockDataId.table 7 ∈ (unlock exSharedTable 1 (.table 7)).2.get_lock_set 1 ∧
      (unlock (unlock exSharedTable 1 (.table 7)).2 1 (.table 7)).1 = .ret true ∧
      (unlock (unlock exSharedTable 1 (.table 7)).2 1 (.table 7)).2.queue (.table 7) =
        (unlock exSharedTable 1 (.table 7)).2.queue (.table 7) ∧
      (unlock (unlock exSharedTable 1 (.table 7)).2 1 (.table 7)).2.lock_table_ =
        (unlock exSharedTable 1 (.table 7)).2.lock_table_ ∧
      ∀ u, (unlock (unlock exSharedTable 1 (.table 7)).2 1 (.table 7)).2.get_lock_set u =
        exSharedTable.get_lock_set u) :=
  ⟨by decide, by decide, by decide,
    (unlock_keeps_lock_set exSharedTable 1 (.table 7)).2 (by decide)⟩

/-! ## The operators and the sign of the comparison -/

/-- On the results -1, 0 and 1 the switch of `check_cond` tests the sign of the result. -/
theorem check_op_sign (op : CompOp) (c : Int) (h : c = -1 ∨ c = 0 ∨ c = 1) :
    check_op op c = true ↔
      (match op with
        | .OP_EQ => c = 0
        | .OP_NE => c ≠ 0
        | .OP_LT => c < 0
        | .OP_GT => c > 0
        | .OP_LE => c ≤ 0
        | .OP_GE => c ≥ 0) := by
  rcases h with h | h | h <;> subst h <;> cases op <;> simp [check_op]

/-- On every other result of the comparator the switch of `check_cond` gives `false` for
`LT` and `GT` and `true` for `LE` and `GE`, whatever the sign. -/
theorem check_op_beyond (c : Int) (h : c < -1 ∨ 1 < c) :
    check_op .OP_LT c = false ∧ check_op .OP_GT c = false ∧
    check_op .OP_LE c = true ∧ check_op .OP_GE c = true := by
  simp only [check_op, decide_eq_false_iff_not, decide_eq_true_eq]
  omega

/-- C33. The code at the failing input: the row with name `a` of the example table and the
literals `f` and `A`, with a comparator that hands on the result of `memcmp`, -5 and 32.
The `check_cond` of the scans returns `false` for `name LT "f"` and `true` for
`name GE "f"`, although -5 is negative, and `false` for `name GT "A"` and `true` for
`name LE "A"`, although 32 is positive; the `check_cond` of the join does the same on the
rows `a` and `f` and on the rows `a` and `A` of two children. -/
theorem operators_compare_with_unit :
    exMemcmp [97] [102] .TYPE_STRING 1 = -5 ∧ exMemcmp [97] [65] .TYPE_STRING 1 = 32 ∧
    check_cond exMemcmp exCols (exCondName .OP_LT 102) ⟨[1, 0, 0, 0, 97]⟩ = some false ∧
    check_cond exMemcmp exCols (exCondName .OP_GE 102) ⟨[1, 0, 0, 0, 97]⟩ = some true ∧
    check_cond exMemcmp exCols (exCondName .OP_GT 65) ⟨[1, 0, 0, 0, 97]⟩ = some false ∧
    check_cond exMemcmp exCols (exCondName .OP_LE 65) ⟨[1, 0, 0, 0, 97]⟩ = some true ∧
    NestedLoopJoinExecutor.check_cond (exStrings "l" [97]) (exStrings "r" [102, 65]) exMemcmp
      ⟨[97]⟩ ⟨[102]⟩ (exStringsCond .OP_LT) = some false ∧
    NestedLoopJoinExecutor.check_cond (exStrings "l" [97]) (exStrings "r" [102, 65]) exMemcmp
      ⟨[97]⟩ ⟨[102]⟩ (exStringsCond .OP_GE) = some true ∧
    NestedLoopJoinExecutor.check_cond (exStrings "l" [97]) (exStrings "r" [102, 65]) exMemcmp
      ⟨[97]⟩ ⟨[65]⟩ (exStringsCond .OP_GT) = some false ∧
    NestedLoopJoinExecutor.check_cond (exStrings "l" [97]) (exStrings "r" [102, 65]) exMemcmp
      ⟨[97]⟩ ⟨[65]⟩ (exStringsCond .OP_LE) = some true := by
  decide

/-! ## The calls of the delete executor -/

/-- The first loop of `DeleteExecutor::Next`, when it returns, has called `delete_record`
once for each rid, in the order of the list, and has left the indexes and the write set as
they were. -/
theorem DeleteExecutor.delete_loop_calls (rids : List Rid) (s s2 : Db)
    (h : DeleteExecutor.delete_loop rids s = .ok s2) :
    s2.calls = s.calls ++ rids.map Event.delete_record ∧ s2.ihs_ = s.ihs_ ∧
      s2.write_set_ = s.write_set_ := by
  induction rids generalizing s with
  | nil =>
    simp only [DeleteExecutor.delete_loop, Except.ok.injEq] at h
    subst h
    simp
  | cons rid rest ih =>
    unfold DeleteExecutor.delete_loop at h
    rcases h1 : s.delete_record rid with f | s1
    · rw [h1] at h
      cases h
    · rw [h1] at h
      obtain ⟨c1, c2, c3⟩ := ih s1 h
      unfold Db.delete_record at h1
      rcases h2 : s.fh_ rid with _ | record
      · rw [h2] at h1
        cases h1
      · rw [h2] at h1
        simp only [Except.ok.injEq] at h1
        subst h1
        simp only at c1 c2 c3
        refine ⟨?_, c2, c3⟩
        rw [c1]
        simp

/-- The loop over the indexes of `DeleteExecutor::Next`, when it returns, has called
`delete_entry` once for each index, in the order of the indexes, and has left the file and
the write set as they were. -/
theorem DeleteExecutor.index_loop_calls (record : RmRecord) (garbage : Nat → Nat)
    (indexes : List IndexMeta) (i : Nat) (s s2 : Db)
    (h : DeleteExecutor.index_loop record garbage indexes i s = .ok s2) :
    ∃ keys : List (List Nat), keys.length = indexes.length ∧
      s2.calls = s.calls ++ (keys.enumFrom i).map (fun p => Event.delete_entry p.1 p.2) ∧
      s2.fh_ = s.fh_ ∧ s2.write_set_ = s.write_set_ := by
  induction indexes generalizing i s with
  | nil =>
    simp only [DeleteExecutor.index_loop, Except.ok.injEq] at h
    subst h
    exact ⟨[], rfl, by simp, rfl, rfl⟩
  | cons index rest ih =>
    unfold DeleteExecutor.index_loop at h
    simp only at h
    rcases h1 : DeleteExecutor.key_loop record index index.col_num 0
        ((List.range index.col_tot_len).map garbage) 0 with _ | key
    · rw [h1] at h
      cases h
    · rw [h1] at h
      obtain ⟨keys, c1, c2, c3, c4⟩ := ih (i + 1) (s.delete_entry i key) h
      refine ⟨key :: keys, by simp [c1], ?_, ?_, ?_⟩
      · rw [c2]
        simp [Db.delete_entry, List.enumFrom_cons]
      · rw [c3]
        rfl
      · rw [c4]
        rfl

/-- The last loop of `DeleteExecutor::Next` appends one write record without a record for
each rid, in the order of the list. -/
theorem DeleteExecutor.log_loop_calls (t : String) (rids : List Rid) (s : Db) :
    (DeleteExecutor.log_loop t rids s).calls =
      s.calls ++ rids.map (fun rid => Event.append_write_record ⟨.DELETE_TUPLE, t, rid, none⟩) ∧
    (DeleteExecutor.log_loop t rids s).write_set_ =
      s.write_set_ ++ rids.map (fun rid => (⟨.DELETE_TUPLE, t, rid, none⟩ : WriteRecord)) ∧
    (DeleteExecutor.log_loop t rids s).fh_ = s.fh_ ∧
    (DeleteExecutor.log_loop t rids s).ihs_ = s.ihs_ := by
  induction rids generalizing s with
  | nil => simp [DeleteExecutor.log_loop]
  | cons rid rest ih =>
    unfold DeleteExecutor.log_loop
    obtain ⟨c1, c2, c3, c4⟩ := ih (s.append_write_record ⟨.DELETE_TUPLE, t, rid, none⟩)
    simp only [c1, c2, c3, c4]
    simp [Db.append_write_record]

/-- The calls of `DeleteExecutor::Next`, when it returns: `delete_record` for each rid, then
`delete_entry` once for each index of the table, whatever the number of rids, then one write
record for each rid. -/
theorem DeleteExecutor.Next_calls (e : DeleteExecutor) (record_size : Nat)
    (garbage : Nat → Nat) (s s2 : Db) (h : e.Next record_size garbage s = .ok s2) :
    ∃ keys : List (List Nat), keys.length = e.tab_.indexes.length ∧
      s2.calls = s.calls ++ e.rids_.map Event.delete_record ++
        keys.enum.map (fun p => Event.delete_entry p.1 p.2) ++
        e.rids_.map (fun rid =>
          Event.append_write_record ⟨.DELETE_TUPLE, e.tab_name_, rid, none⟩) := by
  unfold DeleteExecutor.Next at h
  simp only at h
  rcases h1 : DeleteExecutor.delete_loop e.rids_ s with f | s1
  · rw [h1] at h
    cases h
  · rw [h1] at h
    simp only at h
    rcases h2 : DeleteExecutor.index_loop ⟨(List.range record_size).map garbage⟩ garbage
        e.tab_.indexes 0 s1 with f | s3
    · rw [h2] at h
      cases h
    · rw [h2] at h
      simp only [Except.ok.injEq] at h
      obtain ⟨keys, k1, k2, -, -⟩ := DeleteExecutor.index_loop_calls _ _ _ _ _ _ h2
      refine ⟨keys, k1, ?_⟩
      rw [← h, (DeleteExecutor.log_loop_calls _ _ _).1, k2,
        (DeleteExecutor.delete_loop_calls _ _ _ h1).1]
      rfl

/-- C34. The code at the failing input: the delete of no record of the example table, which
has one index. With every byte of an allocated buffer 7, `Next()` makes one call, a
`delete_entry` on the index with the key of four bytes 7, and returns. With the bytes
1, 0, 0, 0, 0 in the allocated buffers, the call removes the key of the record with id 1 from
the index, while the record is still in the file and the write set is empty. And the delete
of the two records with ids 1 and 2 makes one `delete_entry` call on the index, not two. -/
theorem delete_of_nothing_calls_delete_entry :
    ((DeleteExecutor.Next ⟨exTab, [], "t"⟩ 5 (fun _ => 7) exDb).toOption.map fun s => s.calls) =
      some [.delete_entry 0 [7, 7, 7, 7]] ∧
    exDb.fh_ ⟨1, 0⟩ = some ⟨[1, 0, 0, 0, 97]⟩ ∧ exDb.ihs_ 0 [1, 0, 0, 0] = some ⟨1, 0⟩ ∧
    ((DeleteExecutor.Next ⟨exTab, [], "t"⟩ 5 (fun i => if i = 0 then 1 else 0) exDb).toOption.map
        fun s => (s.calls, s.fh_ ⟨1, 0⟩, s.ihs_ 0 [1, 0, 0, 0], s.write_set_)) =
      some ([.delete_entry 0 [1, 0, 0, 0]], some ⟨[1, 0, 0, 0, 97]⟩, none, []) ∧
    exDelete.rids_.length = 2 ∧
    ((exDelete.Next 5 (fun _ => 7) exDb).toOption.map fun s =>
        s.calls.filter fun c => match c with
          | .delete_entry _ _ => true
          | _ => false) =
      some [.delete_entry 0 [7, 7, 7, 7]] := by
  decide

end Rucbase
